import Mathlib

/-!
# Open-addressing hash table (`src/OAHashTable.cpp`) and the sample algorithms

A shallow embedding of `OAHashTable<T>` and the properties of its
insert / remove / find / clear operations, followed by the embeddings of
`longest_increasing_subsequence` (`src/lis.cpp`), `knapsack_brute_force`
(`src/knapsack_bf.cpp`), `mergesort` (`src/mergesort.cpp`) and `quicksort`
(`src/quicksort.cpp`), each in a namespace of its own.

Conventions of the embedding of the hash table

* `unsigned` values are natural numbers; every arithmetic result that the
  source computes in `unsigned` is reduced with `u32` (mod `2^32`).
* A `double` is the exact fraction (`Frac`) of its value; the quotient of the
  load test and the product of the growth are rounded to 53 significant bits,
  to nearest and ties to even, as IEEE 754 binary64 arithmetic does
  (`roundDouble`; the values met lie far inside the exponent range, which is
  not modelled).
* The conversion of a `double` to `unsigned` is undefined when the value does
  not fit: a growth whose new capacity is `2^32` or more has no result.
* A `const char *` argument is the list of bytes stored at the pointer; the
  C string it denotes is `c_str` of that list (the bytes before the first
  NUL, or the whole list when it holds no NUL).
* The slot array is a function from indices to slots, `stats.TableSize_`
  being the number of slots the table uses.  `new OAHTSlot[n]` is an
  allocator that either fails (`std::bad_alloc`) or returns the initial,
  indeterminate, contents of the new slots.
* A thrown exception is returned together with the state the table is left
  in: `(some e, t)` is "threw `e`, table now `t`", `(none, t)` is a normal
  return.
* `insert` and `GrowTable` call each other; the embedding counts the nesting
  depth of `GrowTable` with a fuel argument, and `none` means that the
  fuel did not suffice or that the behaviour of the source is undefined.
* The test `table[PIndex].Key != Key` of `insert` compares pointers: `insert`
  takes, beside the bytes of the key, the index of the slot whose key buffer
  the pointer is, when the caller passed a slot's own key.
* When `GrowTable` returns inside an insertion made by the compaction loop of
  `remove`, the source goes on reading the key and the data through
  references into the array that `GrowTable` has deleted; that insertion has
  no result.

Conventions of the embeddings of the algorithms

* Arrays are functions from indices to integers; loops are recursive
  functions on the number of iterations left, and a recursion of the source is
  bounded by a fuel argument, `none` meaning that the fuel did not suffice.
* `int` values are integers; a conversion between `unsigned` and `int` and
  every `int` result that can leave the range wraps modulo `2^32`.
-/

/-- The three states of a slot (`OAHTSlot::OAHTSlot_State`). -/
inductive OAHTSlot_State where
  | OCCUPIED
  | UNOCCUPIED
  | DELETED
deriving DecidableEq

/-- The deletion policies (`OAHTDeletionPolicy`). -/
inductive OAHTDeletionPolicy where
  | MARK
  | PACK
deriving DecidableEq

/-- The error codes of `OAHashTableException` that the source throws. -/
inductive OAHashTableException where
  | E_ITEM_NOT_FOUND
  | E_DUPLICATE
  | E_NO_MEMORY
deriving DecidableEq

/-- A slot of the table: `char Key[MAX_KEYLEN]`, the client data, the state
and the diagnostic probe count. -/
structure OAHTSlot (T : Type) where
  Key : List Nat
  Data : T
  State : OAHTSlot_State
  probes : Nat

/-- An exact fraction `num / den`, standing for a `double` configuration value. -/
structure Frac where
  num : Nat
  den : Nat
deriving DecidableEq

/-- The rational number a fraction stands for. -/
def Frac.toRat (f : Frac) : ℚ := (f.num : ℚ) / (f.den : ℚ)

/-- Hash functions: `unsigned (*)(const char *, unsigned)`; the first argument
is the C string read at the pointer. -/
abbrev HASHFUNC := List Nat → Nat → Nat

/-- The configuration (`OAHTConfig`).  `MAX_KEYLEN`, a constant of the header
that is not part of the sources, is carried here as a parameter.  `FreeProc_`
tells whether a free procedure is configured; its calls are logged in the
table's `freed` list. -/
structure OAHTConfig where
  InitialTableSize_ : Nat
  PrimaryHashFunc_ : HASHFUNC
  SecondaryHashFunc_ : Option HASHFUNC
  MaxLoadFactor_ : Frac
  GrowthFactor_ : Frac
  DeletionPolicy_ : OAHTDeletionPolicy
  FreeProc_ : Bool
  MAX_KEYLEN : Nat

/-- The statistics (`OAHTStats`). -/
structure OAHTStats where
  Count_ : Nat
  TableSize_ : Nat
  Probes_ : Nat
  Expansions_ : Nat
  PrimaryHashFunc_ : HASHFUNC
  SecondaryHashFunc_ : Option HASHFUNC

/-- The table object: its configuration, its statistics, its slot array, and
the log of the values `FreeProc_` was called with (most recent last). -/
structure OAHashTable (T : Type) where
  config : OAHTConfig
  stats : OAHTStats
  table : Nat → OAHTSlot T
  freed : List T

/-- The allocator behind `new OAHTSlot[n]`: `none` is `std::bad_alloc`,
`some mem` gives the indeterminate initial contents of the new slots. -/
abbrev Allocator (T : Type) := Nat → Option (Nat → OAHTSlot T)

/-- A call that may throw: the exception, if any, and the table afterwards. -/
abbrev Outcome (T : Type) := Option OAHashTableException × OAHashTable T

/-- Arithmetic of `unsigned`: reduction modulo `2^32`. -/
def u32 (n : Nat) : Nat := n % 4294967296

/-- The C string at a pointer: the bytes before the first NUL. -/
def c_str (s : List Nat) : List Nat := s.takeWhile (fun c => c != 0)

/-- Whether `strncmp(s1, s2, n) == 0`: the C strings agree on their first `n`
characters. -/
def strncmp (s1 s2 : List Nat) (n : Nat) : Bool :=
  (c_str s1).take n == (c_str s2).take n

/-- The buffer `dst` after `strncpy(dst, src, n)`: the first `n` characters of
the C string `src`, padded with NULs to `n` bytes when it is shorter; the bytes
of `dst` from position `n` on are kept. -/
def strncpy (dst src : List Nat) (n : Nat) : List Nat :=
  (c_str src).take n ++ List.replicate (n - ((c_str src).take n).length) 0 ++ dst.drop n

/-- Primality test by trial division. -/
def isPrimeB (n : Nat) : Bool :=
  decide (2 ≤ n) && (List.range (n - 2)).all (fun d => n % (d + 2) != 0)

/-- Upward search for a prime from `n`, trying at most `fuel` candidates. -/
def primeSearch : Nat → Nat → Nat
  | 0, n => n
  | fuel + 1, n => if isPrimeB n then n else primeSearch fuel (n + 1)

/-- Modular power by repeated squaring: `b ^ e % m` for `e < 2 ^ fuel`. -/
def powMod (b m : Nat) : Nat → Nat → Nat
  | 0, _ => 1 % m
  | fuel + 1, e =>
    if e = 0 then 1 % m
    else if e % 2 = 0 then powMod b m fuel (e / 2) * powMod b m fuel (e / 2) % m
    else powMod b m fuel (e / 2) * powMod b m fuel (e / 2) % m * b % m

/-- Modelled from the spec: `GetClosestPrime` is declared outside the sources;
the spec has the new capacity be the smallest prime that is at least the
argument.  The search bound `n + 2` is enough by Bertrand's postulate. -/
def GetClosestPrime (n : Nat) : Nat := primeSearch (n + 2) n

/-- The number of doublings of `p` after which `2^52 * q <= p`, at most `fuel`. -/
def upShift : Nat → Nat → Nat → Nat
  | 0, _, _ => 0
  | fuel + 1, p, q => if 4503599627370496 * q ≤ p then 0 else upShift fuel (2 * p) q + 1

/-- The number of doublings of `q` after which `p < 2^53 * q`, at most `fuel`. -/
def downShift : Nat → Nat → Nat → Nat
  | 0, _, _ => 0
  | fuel + 1, p, q => if p < 9007199254740992 * q then 0 else downShift fuel p (2 * q) + 1

/-- The `double` that a floating-point operation with the exact result `p / q`
returns: `p / q` rounded to 53 significant bits, to nearest, ties to even.  The
quotient is scaled by a power of two into `[2^52, 2^53)`, rounded to an integer
and scaled back.  Zero is returned as `0 / 1` and a division by zero (`+inf`)
as `p / 0`. -/
def roundDouble (p q : Nat) : Frac :=
  if p = 0 then ⟨0, 1⟩
  else if q = 0 then ⟨p, 0⟩
  else
    let u := upShift (q + 52) p q
    let d := downShift p p q
    let m := if 2 ^ d * q < 2 * (2 ^ u * p % (2 ^ d * q))
        ∨ (2 * (2 ^ u * p % (2 ^ d * q)) = 2 ^ d * q ∧ 2 ^ u * p / (2 ^ d * q) % 2 = 1)
      then 2 ^ u * p / (2 ^ d * q) + 1 else 2 ^ u * p / (2 ^ d * q)
    ⟨2 ^ d * m, 2 ^ u⟩

/-- A fraction is the value of a `double`: rounding leaves its value unchanged. -/
def Frac.IsDouble (f : Frac) : Prop :=
  (roundDouble f.num f.den).num * f.den = f.num * (roundDouble f.num f.den).den

instance (f : Frac) : Decidable f.IsDouble := by
  unfold Frac.IsDouble; infer_instance

/-- The value `std::ceil(size * factor)`: the product of the two `double`s,
rounded, and its ceiling. -/
def ceilMul (size : Nat) (factor : Frac) : Nat :=
  ((roundDouble (size * factor.num) factor.den).num
    + (roundDouble (size * factor.num) factor.den).den - 1)
    / (roundDouble (size * factor.num) factor.den).den

/-- The `i`-th index of a probe sequence, `(PIndex + i * SIndex) % TableSize_`
in `unsigned` arithmetic. -/
def probe (PIndex i SIndex TableSize_ : Nat) : Nat :=
  u32 (PIndex + i * SIndex) % TableSize_

variable {T : Type}

/-- Assignment to one slot of a slot array. -/
def setSlot (table : Nat → OAHTSlot T) (i : Nat) (s : OAHTSlot T) : Nat → OAHTSlot T :=
  fun j => if j = i then s else table j

namespace OAHashTable

/-- The test `(stats.Count_ + 1) / double(stats.TableSize_) > config.MaxLoadFactor_`
of `insert`: the quotient, rounded to a `double`, is compared with the load
factor by cross-multiplication (for a zero table size the quotient is `+inf`, or
NaN when the numerator wraps to zero, and the cross-multiplied test agrees). -/
def loadExceeded (t : OAHashTable T) : Bool :=
  decide ((roundDouble (u32 (t.stats.Count_ + 1)) t.stats.TableSize_).num
      * t.config.MaxLoadFactor_.den
    > t.config.MaxLoadFactor_.num
      * (roundDouble (u32 (t.stats.Count_ + 1)) t.stats.TableSize_).den)

/-- The step `SIndex` of a probe sequence: `1`, or
`SecondaryHashFunc_(Key, TableSize_ - 1) + 1` when a secondary hash is set. -/
def stepOf (h : Option HASHFUNC) (Key : List Nat) (TableSize_ : Nat) : Nat :=
  match h with
  | none => 1
  | some f => u32 (f (c_str Key) (u32 (TableSize_ + 4294967295)) + 1)

/-- The probe loop of `insert` (lines 95-127), `rem` iterations from index `i`.
The result is `none` when a duplicate is met (the throw at line 106), else the
value of `targetIndex` after the loop; the second component is `stats.Probes_`. -/
def insertLoop (t : OAHashTable T) (Key : List Nat) (PIndex SIndex : Nat) :
    Nat → Nat → Nat → Bool → Nat → Option Nat × Nat
  | 0, _, targetIndex, _, probes => (some targetIndex, probes)
  | rem + 1, i, targetIndex, foundDeleted, probes =>
    let probes := u32 (probes + 1)
    let newIndex := probe PIndex i SIndex t.stats.TableSize_
    if (t.table newIndex).State = .OCCUPIED
        ∧ strncmp Key (t.table newIndex).Key t.config.MAX_KEYLEN = true then
      (none, probes)
    else
      let first := decide ((t.table newIndex).State = .DELETED) && !foundDeleted
      let targetIndex := if first then newIndex else targetIndex
      let foundDeleted := foundDeleted || first
      if (t.table newIndex).State = .UNOCCUPIED then
        (some (if foundDeleted then targetIndex else newIndex), probes)
      else
        insertLoop t Key PIndex SIndex rem (i + 1) targetIndex foundDeleted probes

/-- Lines 131-139 of `insert`: the key is copied into slot `PIndex` unless the
pointer `Key` is that slot's own buffer (`src = some PIndex`), the data and the
state are set and `Count_` is incremented. -/
def store (src : Option Nat) (t : OAHashTable T) (PIndex : Nat) (Key : List Nat)
    (Data : T) : OAHashTable T :=
  let slot := t.table PIndex
  let key := if src = some PIndex then slot.Key
    else strncpy slot.Key Key (t.config.MAX_KEYLEN - 1)
  { t with
    table := setSlot t.table PIndex { slot with Key := key, Data := Data, State := .OCCUPIED }
    stats := { t.stats with Count_ := u32 (t.stats.Count_ + 1) } }

/-- Lines 69-139 of `insert`, the part after the load-factor check.  `src` is
the index of the slot whose key buffer the pointer `Key` is, when there is one
(the compaction loop of `remove` passes a slot's own key). -/
def insertBody (src : Option Nat) (t : OAHashTable T) (Key : List Nat) (Data : T) :
    Outcome T :=
  let PIndex := t.config.PrimaryHashFunc_ (c_str Key) t.stats.TableSize_
  let t := { t with stats := { t.stats with Probes_ := u32 (t.stats.Probes_ + 1) } }
  if (t.table PIndex).State = .OCCUPIED then
    if strncmp Key (t.table PIndex).Key t.config.MAX_KEYLEN then
      (some .E_DUPLICATE, t)
    else
      let SIndex := stepOf t.config.SecondaryHashFunc_ Key t.stats.TableSize_
      match insertLoop t Key PIndex SIndex (t.stats.TableSize_ - 1) 1 0 false
          t.stats.Probes_ with
      | (none, probes) =>
        (some .E_DUPLICATE, { t with stats := { t.stats with Probes_ := probes } })
      | (some targetIndex, probes) =>
        (none, store src { t with stats := { t.stats with Probes_ := probes } }
          targetIndex Key Data)
  else
    (none, store src t PIndex Key Data)

/-- The loop of `GrowTable` that moves the slots over (lines 365-371): slots
`i, i+1, ..` of the old array, `rem` of them, are inserted with `ins`; an
exception thrown by an insertion leaves the loop. -/
def moveSlots (ins : OAHashTable T → List Nat → T → Option (Outcome T))
    (old_table : Nat → OAHTSlot T) : Nat → Nat → OAHashTable T → Option (Outcome T)
  | 0, _, t => some (none, t)
  | rem + 1, i, t =>
    if (old_table i).State = .OCCUPIED then
      match ins t (old_table i).Key (old_table i).Data with
      | none => none
      | some (some e, t1) => some (some e, t1)
      | some (none, t1) => moveSlots ins old_table rem (i + 1) t1
    else moveSlots ins old_table rem (i + 1) t

/-- The body of `GrowTable` (lines 333-376), with the `insert` it calls as a
parameter.  There is no result when the new capacity does not fit `unsigned`:
the conversion of `factor` is then undefined, or no prime that `unsigned` holds
is at least `factor`. -/
def GrowTableWith (ins : OAHashTable T → List Nat → T → Option (Outcome T))
    (alloc : Allocator T) (t : OAHashTable T) : Option (Outcome T) :=
  let old_table_size := t.stats.TableSize_
  let new_table_size := GetClosestPrime (ceilMul t.stats.TableSize_ t.config.GrowthFactor_)
  if 4294967296 ≤ new_table_size then none else
  let t := { t with stats := { t.stats with TableSize_ := new_table_size } }
  let old_table := t.table
  match alloc t.stats.TableSize_ with
  | none => some (some .E_NO_MEMORY, t)
  | some mem =>
    let t := { t with
      table := fun i =>
        if i < t.stats.TableSize_ then { mem i with State := .UNOCCUPIED, probes := 0 }
        else mem i
      stats := { t.stats with Count_ := 0 } }
    match moveSlots ins old_table old_table_size 0 t with
    | none => none
    | some (some e, t1) => some (some e, t1)
    | some (none, t1) =>
      some (none, { t1 with stats := { t1.stats with Expansions_ := u32 (t1.stats.Expansions_ + 1) } })

/-- The method `insert` (lines 61-140).  The fuel bounds the nesting of
`GrowTable` calls.  When `GrowTable` has returned and the pointer `Key` is the
key buffer of a slot (`src` is not `none`), `Key` and `Data` point into the
array that `GrowTable` deleted, and there is no result. -/
def insert (alloc : Allocator T) :
    Nat → Option Nat → OAHashTable T → List Nat → T → Option (Outcome T)
  | 0, src, t, Key, Data =>
    if loadExceeded t then none else some (insertBody src t Key Data)
  | fuel + 1, src, t, Key, Data =>
    if loadExceeded t then
      match GrowTableWith (insert alloc fuel none) alloc t with
      | none => none
      | some (some e, t1) => some (some e, t1)
      | some (none, t1) =>
        if src = none then some (insertBody none t1 Key Data) else none
    else some (insertBody src t Key Data)

/-- The helper `GrowTable` (lines 333-376). -/
def GrowTable (alloc : Allocator T) (fuel : Nat) (t : OAHashTable T) : Option (Outcome T) :=
  GrowTableWith (insert alloc fuel none) alloc t

/-- The compaction loop of `remove` under PACK (lines 190-202), at most `rem`
iterations from `j`; `i` is the position of the removed key on its probe
sequence.  `none` means that `rem` iterations did not suffice or that an
`insert` has no result. -/
def packLoop (alloc : Allocator T) (fuel : Nat) (PIndex SIndex i : Nat) :
    Nat → Nat → OAHashTable T → Option (Outcome T)
  | 0, _, _ => none
  | rem + 1, j, t =>
    if j < t.stats.TableSize_ then
      let idx2 := probe PIndex (i + j) SIndex t.stats.TableSize_
      let slot2 := t.table idx2
      if slot2.State = .OCCUPIED then
        let t := { t with
          table := setSlot t.table idx2 { slot2 with State := .UNOCCUPIED }
          stats := { t.stats with Count_ := u32 (t.stats.Count_ + 4294967295) } }
        match insert alloc fuel (some idx2) t slot2.Key slot2.Data with
        | none => none
        | some (some e, t1) => some (some e, t1)
        | some (none, t1) => packLoop alloc fuel PIndex SIndex i rem (j + 1) t1
      else some (none, t)
    else some (none, t)

/-- The search loop of `remove` (lines 161-206), `rem` iterations from `i`. -/
def removeLoop (alloc : Allocator T) (fuel : Nat) (Key : List Nat) (PIndex SIndex : Nat) :
    Nat → Nat → OAHashTable T → Option (Outcome T)
  | 0, _, t => some (some .E_ITEM_NOT_FOUND, t)
  | rem + 1, i, t =>
    let idx := probe PIndex i SIndex t.stats.TableSize_
    let slot := t.table idx
    let t := { t with stats := { t.stats with Probes_ := u32 (t.stats.Probes_ + 1) } }
    if slot.State = .UNOCCUPIED then some (some .E_ITEM_NOT_FOUND, t)
    else if slot.State = .OCCUPIED ∧ strncmp Key slot.Key t.config.MAX_KEYLEN = true then
      let t := { t with
        stats := { t.stats with Count_ := u32 (t.stats.Count_ + 4294967295) }
        freed := if t.config.FreeProc_ then t.freed ++ [slot.Data] else t.freed }
      match t.config.DeletionPolicy_ with
      | .MARK => some (none, { t with table := setSlot t.table idx { slot with State := .DELETED } })
      | .PACK =>
        packLoop alloc fuel PIndex SIndex i fuel 1
          { t with table := setSlot t.table idx { slot with State := .UNOCCUPIED } }
    else removeLoop alloc fuel Key PIndex SIndex rem (i + 1) t

/-- The method `remove` (lines 149-211).  The fuel bounds the iterations of
the compaction loop and the nesting of `GrowTable` in the insertions it makes. -/
def remove (alloc : Allocator T) (fuel : Nat) (t : OAHashTable T) (Key : List Nat) :
    Option (Outcome T) :=
  let PIndex := t.stats.PrimaryHashFunc_ (c_str Key) t.stats.TableSize_
  let SIndex := stepOf t.stats.SecondaryHashFunc_ Key t.stats.TableSize_
  removeLoop alloc fuel Key PIndex SIndex t.stats.TableSize_ 0 t

/-- The search loop of `find` (lines 235-249), `rem` iterations from `i`:
the data found, if any, and `stats.Probes_`. -/
def findLoop (t : OAHashTable T) (Key : List Nat) (PIndex SIndex : Nat) :
    Nat → Nat → Nat → Option T × Nat
  | 0, _, probes => (none, probes)
  | rem + 1, i, probes =>
    let slot := t.table (probe PIndex i SIndex t.stats.TableSize_)
    let probes := u32 (probes + 1)
    if slot.State = .OCCUPIED ∧ strncmp Key slot.Key t.config.MAX_KEYLEN = true then
      (some slot.Data, probes)
    else if slot.State = .UNOCCUPIED then (none, probes)
    else findLoop t Key PIndex SIndex rem (i + 1) probes

/-- The method `find` (lines 221-253): the data, or `E_ITEM_NOT_FOUND`, and
the table with its probe counter advanced. -/
def find (t : OAHashTable T) (Key : List Nat) : Except OAHashTableException T × OAHashTable T :=
  let PIndex := t.stats.PrimaryHashFunc_ (c_str Key) t.stats.TableSize_
  let SIndex := stepOf t.stats.SecondaryHashFunc_ Key t.stats.TableSize_
  match findLoop t Key PIndex SIndex t.stats.TableSize_ 0 t.stats.Probes_ with
  | (some d, probes) => (.ok d, { t with stats := { t.stats with Probes_ := probes } })
  | (none, probes) =>
    (.error .E_ITEM_NOT_FOUND, { t with stats := { t.stats with Probes_ := probes } })

/-- The loop of `clear` (lines 265-273), `rem` iterations from `i`. -/
def clearLoop : Nat → Nat → OAHashTable T → OAHashTable T
  | 0, _, t => t
  | rem + 1, i, t =>
    let slot := t.table i
    let freed := if t.config.FreeProc_ && decide (slot.State = .OCCUPIED)
      then t.freed ++ [slot.Data] else t.freed
    clearLoop rem (i + 1)
      { t with table := setSlot t.table i { slot with State := .UNOCCUPIED }, freed := freed }

/-- The method `clear` (lines 263-275). -/
def clear (t : OAHashTable T) : OAHashTable T :=
  let t := clearLoop t.stats.TableSize_ 0 t
  { t with stats := { t.stats with Count_ := 0 } }

/-- The constructor with `InitTable` (lines 21-37 and 310-326): the slot array
is allocated, every slot is made unoccupied and the statistics are set from
the configuration. -/
def construct (Config : OAHTConfig) (alloc : Allocator T) :
    Except OAHashTableException (OAHashTable T) :=
  match alloc Config.InitialTableSize_ with
  | none => .error .E_NO_MEMORY
  | some mem => .ok
    { config := Config
      table := fun i =>
        if i < Config.InitialTableSize_ then { mem i with State := .UNOCCUPIED, probes := 0 }
        else mem i
      stats :=
        { TableSize_ := Config.InitialTableSize_
          Probes_ := 0
          Expansions_ := 0
          Count_ := 0
          PrimaryHashFunc_ := Config.PrimaryHashFunc_
          SecondaryHashFunc_ := Config.SecondaryHashFunc_ }
      freed := [] }

end OAHashTable

/-! ## Notions used to state the properties -/

namespace OAHashTable

/-- Key `Key` is held by the occupied slot `i` of the table: the comparison that
`insert`, `remove` and `find` make on that slot succeeds. -/
def holdsAt (t : OAHashTable T) (Key : List Nat) (i : Nat) : Prop :=
  i < t.stats.TableSize_ ∧ (t.table i).State = .OCCUPIED
    ∧ strncmp Key (t.table i).Key t.config.MAX_KEYLEN = true

/-- Key `Key` is held by some occupied slot of the table. -/
def holds (t : OAHashTable T) (Key : List Nat) : Prop := ∃ i, holdsAt t Key i

/-- The number of occupied slots among the `n` slots of an array from index `i`. -/
def numOccupied (table : Nat → OAHTSlot T) : Nat → Nat → Nat
  | 0, _ => 0
  | n + 1, i => (if (table i).State = .OCCUPIED then 1 else 0) + numOccupied table n (i + 1)

/-- The data of the occupied slots among the `n` slots of an array from index
`i`, in index order. -/
def occupiedData (table : Nat → OAHTSlot T) : Nat → Nat → List T
  | 0, _ => []
  | n + 1, i =>
    (if (table i).State = .OCCUPIED then [(table i).Data] else []) ++ occupiedData table n (i + 1)

/-- The quotient `count / size`, computed in `double` arithmetic, is at most the
`double` `f`. -/
@[reducible] def withinLoad (f : Frac) (count size : Nat) : Prop :=
  (roundDouble count size).num * f.den ≤ f.num * (roundDouble count size).den

/-- The fields of a configuration hold values of their types: the initial
capacity is an `unsigned` and the two factors are `double`s. -/
def Representable (c : OAHTConfig) : Prop :=
  c.InitialTableSize_ < 4294967296 ∧ c.MaxLoadFactor_.IsDouble ∧ c.GrowthFactor_.IsDouble

/-- A configuration is valid: prime initial capacity, `0 < MaxLoadFactor <= 1`,
`GrowthFactor > 1`. -/
def ValidConfig (c : OAHTConfig) : Prop :=
  Nat.Prime c.InitialTableSize_
    ∧ 0 < c.MaxLoadFactor_.num ∧ c.MaxLoadFactor_.num ≤ c.MaxLoadFactor_.den
    ∧ 0 < c.GrowthFactor_.den ∧ c.GrowthFactor_.den < c.GrowthFactor_.num

/-- The hash functions of a configuration return an index below the modulus
they are given. -/
def HashInRange (c : OAHTConfig) : Prop :=
  (∀ k m, 0 < m → c.PrimaryHashFunc_ k m < m)
    ∧ ∀ h, c.SecondaryHashFunc_ = some h → ∀ k m, 0 < m → h k m < m

/-- The count of a table lies between the number of its occupied slots and its
capacity, the capacity is an `unsigned` below `2^32 - 1`, the load factor is at
most one and the growth factor is a `double` above one. -/
structure Counted (t : OAHashTable T) : Prop where
  occ : numOccupied t.table t.stats.TableSize_ 0 ≤ t.stats.Count_
  cap : t.stats.Count_ ≤ t.stats.TableSize_
  size : t.stats.TableSize_ < 4294967295
  load : 0 < t.config.MaxLoadFactor_.den
    ∧ t.config.MaxLoadFactor_.num ≤ t.config.MaxLoadFactor_.den
  growth : 0 < t.config.GrowthFactor_.den
    ∧ t.config.GrowthFactor_.den < t.config.GrowthFactor_.num
    ∧ t.config.GrowthFactor_.IsDouble

/-- The tables reachable from the construction with configuration `Config` by
calls of `insert`, `remove` and `clear`; a call that throws leaves a table
that can be used further. -/
inductive Reachable (Config : OAHTConfig) : OAHashTable T → Prop where
  | construct (alloc : Allocator T) (t : OAHashTable T) :
      OAHashTable.construct Config alloc = .ok t → Reachable Config t
  | insert (alloc : Allocator T) (fuel : Nat) (Key : List Nat) (Data : T)
      (t : OAHashTable T) (r : Outcome T) :
      Reachable Config t → OAHashTable.insert alloc fuel none t Key Data = some r →
      Reachable Config r.2
  | remove (alloc : Allocator T) (fuel : Nat) (Key : List Nat)
      (t : OAHashTable T) (r : Outcome T) :
      Reachable Config t → OAHashTable.remove alloc fuel t Key = some r →
      Reachable Config r.2
  | clear (t : OAHashTable T) : Reachable Config t → Reachable Config (OAHashTable.clear t)

/-- An allocator under which no allocation fails. -/
def Allocates (alloc : Allocator T) : Prop := ∀ n, alloc n ≠ none

/-- The tables reachable from the construction with configuration `Config` by
calls of `insert`, `remove` and `clear` during which no allocation fails; a
call that throws leaves a table that can be used further. -/
inductive ReachableAlloc (Config : OAHTConfig) : OAHashTable T → Prop where
  | construct (alloc : Allocator T) (t : OAHashTable T) :
      Allocates alloc → OAHashTable.construct Config alloc = .ok t → ReachableAlloc Config t
  | insert (alloc : Allocator T) (fuel : Nat) (Key : List Nat) (Data : T)
      (t : OAHashTable T) (r : Outcome T) :
      Allocates alloc → ReachableAlloc Config t →
      OAHashTable.insert alloc fuel none t Key Data = some r → ReachableAlloc Config r.2
  | remove (alloc : Allocator T) (fuel : Nat) (Key : List Nat)
      (t : OAHashTable T) (r : Outcome T) :
      Allocates alloc → ReachableAlloc Config t →
      OAHashTable.remove alloc fuel t Key = some r → ReachableAlloc Config r.2
  | clear (t : OAHashTable T) :
      ReachableAlloc Config t → ReachableAlloc Config (OAHashTable.clear t)

/-- A call of a test sequence. -/
inductive Call (T : Type) where
  | insert (Key : List Nat) (Data : T)
  | remove (Key : List Nat)

/-- The calls of a sequence are made one after the other on the table while a
reference map is kept beside it: a successful `insert` adds the key with its
value, a successful `remove` deletes the key, a call that throws changes
nothing in the map. -/
def replay (alloc : Allocator T) (fuel : Nat) :
    List (Call T) → OAHashTable T × List (List Nat × T) →
      Option (OAHashTable T × List (List Nat × T))
  | [], s => some s
  | .insert Key Data :: cs, (t, m) =>
    match OAHashTable.insert alloc fuel none t Key Data with
    | none => none
    | some (none, t1) => replay alloc fuel cs (t1, (Key, Data) :: m.filter (fun e => e.1 != Key))
    | some (some _, t1) => replay alloc fuel cs (t1, m)
  | .remove Key :: cs, (t, m) =>
    match OAHashTable.remove alloc fuel t Key with
    | none => none
    | some (none, t1) => replay alloc fuel cs (t1, m.filter (fun e => e.1 != Key))
    | some (some _, t1) => replay alloc fuel cs (t1, m)

/-- The table after a sequence of calls, whatever their outcomes. -/
def runCalls (alloc : Allocator T) (fuel : Nat) (cs : List (Call T)) (t : OAHashTable T) :
    Option (OAHashTable T) :=
  (replay alloc fuel cs (t, [])).map Prod.fst

end OAHashTable

/-! ## Concrete configurations for the worked examples -/

namespace Example

/-- An allocator that always succeeds and hands out zeroed key buffers of ten bytes. -/
def zeroAlloc : Allocator Nat :=
  fun _ => some (fun _ => { Key := List.replicate 10 0, Data := 0, State := .DELETED, probes := 0 })

/-- An allocator that always fails. -/
def failAlloc : Allocator Nat := fun _ => none

/-- Capacity 7, load factor 1/2, growth factor 2, every key hashed to index 0,
no secondary hash, MARK deletion, keys of at most ten bytes. -/
def markConfig : OAHTConfig :=
  { InitialTableSize_ := 7
    PrimaryHashFunc_ := fun _ _ => 0
    SecondaryHashFunc_ := none
    MaxLoadFactor_ := ⟨1, 2⟩
    GrowthFactor_ := ⟨2, 1⟩
    DeletionPolicy_ := .MARK
    FreeProc_ := false
    MAX_KEYLEN := 10 }

/-- As `markConfig`, with PACK deletion and a secondary hash that is `2 % m` on
the key `"b"` and 0 on every other key: in a table of capacity 7 the key `"b"`
has the probe step 3 and every other key the step 1. -/
def packConfig : OAHTConfig :=
  { markConfig with
    SecondaryHashFunc_ := some (fun k m => if k = [98] then 2 % m else 0)
    DeletionPolicy_ := .PACK }

/-- As `markConfig`, with PACK deletion and a free procedure. -/
def packFreeConfig : OAHTConfig :=
  { markConfig with DeletionPolicy_ := .PACK, FreeProc_ := true }

/-- As `markConfig`, with load factor 1/16 and growth factor 9/8. -/
def slowGrowthConfig : OAHTConfig :=
  { markConfig with MaxLoadFactor_ := ⟨1, 16⟩, GrowthFactor_ := ⟨9, 8⟩ }

/-- As `markConfig`, with capacity 3, the `double` nearest to 1/3 (which is below
1/3) as load factor and the `double` nearest to 5/3 (which is above 5/3) as
growth factor: what `1 / 3.0` and `5.0 / 3` evaluate to. -/
def roundingConfig : OAHTConfig :=
  { markConfig with
    InitialTableSize_ := 3
    MaxLoadFactor_ := ⟨6004799503160661, 18014398509481984⟩
    GrowthFactor_ := ⟨7505999378950827, 4503599627370496⟩ }

/-- The key `"a"`. -/
def keyA : List Nat := [97]

/-- The key `"b"`. -/
def keyB : List Nat := [98]

/-- The key `"c"`. -/
def keyC : List Nat := [99]

/-- The key `"d"`. -/
def keyD : List Nat := [100]

/-- The key `"0123456789"`, of length `MAX_KEYLEN = 10`. -/
def keyTen : List Nat := [48, 49, 50, 51, 52, 53, 54, 55, 56, 57]

/-- The table with the given configuration, freshly constructed. -/
def fresh (c : OAHTConfig) : Option (OAHashTable Nat) :=
  match OAHashTable.construct c zeroAlloc with
  | .ok t => some t
  | .error _ => none

end Example

/-- Equality of results of `find` is decidable. -/
instance instDecidableEqExcept {ε α : Type} [DecidableEq ε] [DecidableEq α] :
    DecidableEq (Except ε α)
  | .ok a, .ok b =>
    if h : a = b then isTrue (by rw [h]) else isFalse (fun h' => h (Except.ok.inj h'))
  | .error a, .error b =>
    if h : a = b then isTrue (by rw [h]) else isFalse (fun h' => h (Except.error.inj h'))
  | .ok _, .error _ => isFalse (fun h => Except.noConfusion h)
  | .error _, .ok _ => isFalse (fun h => Except.noConfusion h)

namespace Example

/-- A slot in the given state whose ten-byte key buffer holds the C string `key`. -/
def slotOf (state : OAHTSlot_State) (key : List Nat) (data : Nat) : OAHTSlot Nat :=
  { Key := key ++ List.replicate (10 - key.length) 0, Data := data, State := state, probes := 0 }

/-- The table of `markConfig` after `insert("a", 1)` and `insert("b", 2)`:
`"a"` in slot 0, `"b"` in slot 1, the other five slots unoccupied. -/
def tableAB : OAHashTable Nat :=
  { config := markConfig
    stats :=
      { Count_ := 2, TableSize_ := 7, Probes_ := 3, Expansions_ := 0
        PrimaryHashFunc_ := markConfig.PrimaryHashFunc_
        SecondaryHashFunc_ := markConfig.SecondaryHashFunc_ }
    table := fun i =>
      if i = 0 then slotOf .OCCUPIED keyA 1
      else if i = 1 then slotOf .OCCUPIED keyB 2
      else slotOf .UNOCCUPIED [] 0
    freed := [] }

/-- The table of `markConfig` after `insert("a", 1)`, `insert("b", 2)` and
`insert("c", 3)`: the keys in slots 0, 1 and 2, the other four slots unoccupied. -/
def tableABC : OAHashTable Nat :=
  { config := markConfig
    stats :=
      { Count_ := 3, TableSize_ := 7, Probes_ := 6, Expansions_ := 0
        PrimaryHashFunc_ := markConfig.PrimaryHashFunc_
        SecondaryHashFunc_ := markConfig.SecondaryHashFunc_ }
    table := fun i =>
      if i = 0 then slotOf .OCCUPIED keyA 1
      else if i = 1 then slotOf .OCCUPIED keyB 2
      else if i = 2 then slotOf .OCCUPIED keyC 3
      else slotOf .UNOCCUPIED [] 0
    freed := [] }

/-- The table that a call leaves, or the table it was made on when the fuel
did not suffice. -/
def tableAfter (t : OAHashTable Nat) (r : Option (Outcome Nat)) : OAHashTable Nat :=
  match r with
  | some r => r.2
  | none => t

/-- The capacities after each call of a sequence made on a table. -/
def capacities (fuel : Nat) : List (OAHashTable.Call Nat) → OAHashTable Nat → List Nat
  | [], _ => []
  | c :: cs, t =>
    match OAHashTable.runCalls zeroAlloc fuel [c] t with
    | some t1 => t1.stats.TableSize_ :: capacities fuel cs t1
    | none => []

/-- The table that `insert("d", 4)` leaves when made on `tableABC`. -/
def tableABCD : OAHashTable Nat :=
  tableAfter tableABC (OAHashTable.insert zeroAlloc 1 none tableABC keyD 4)

/-- Capacity `3221225473 = 3 * 2^30 + 1`, a prime above `2^31`; the key `"b"`
hashed to index `2^31` and every other key to index 0; a secondary hash that
gives the key `"c"` the probe step `2^31` and every other key the step 1; load
factor 1/2, growth factor 2, MARK deletion, keys of at most ten bytes. -/
def wideConfig : OAHTConfig :=
  { InitialTableSize_ := 3221225473
    PrimaryHashFunc_ := fun k m => if k = [98] then 2147483648 % m else 0
    SecondaryHashFunc_ := some (fun k m => if k = [99] then 2147483647 % m else 0)
    MaxLoadFactor_ := ⟨1, 2⟩
    GrowthFactor_ := ⟨2, 1⟩
    DeletionPolicy_ := .MARK
    FreeProc_ := false
    MAX_KEYLEN := 10 }

/-- The table that the constructor builds for `wideConfig` with `zeroAlloc`. -/
def wideEmpty : OAHashTable Nat :=
  { config := wideConfig
    table := fun i =>
      if i < 3221225473
      then { Key := List.replicate 10 0, Data := 0, State := .UNOCCUPIED, probes := 0 }
      else { Key := List.replicate 10 0, Data := 0, State := .DELETED, probes := 0 }
    stats :=
      { TableSize_ := 3221225473, Probes_ := 0, Expansions_ := 0, Count_ := 0
        PrimaryHashFunc_ := wideConfig.PrimaryHashFunc_
        SecondaryHashFunc_ := wideConfig.SecondaryHashFunc_ }
    freed := [] }

/-- The table of `wideConfig` after `insert("a", 1)`: the key in slot 0. -/
def wideA : OAHashTable Nat :=
  OAHashTable.store none
    { wideEmpty with stats := { wideEmpty.stats with Probes_ := 1 } } 0 keyA 1

/-- The table of `wideConfig` after `insert("a", 1)` and `insert("b", 2)`: the
keys in the slots 0 and `2^31`. -/
def wideAB : OAHashTable Nat :=
  OAHashTable.store none
    { wideA with stats := { wideA.stats with Probes_ := 2 } } 2147483648 keyB 2

/-- The key `"aaaaaaaaax"`, of length `MAX_KEYLEN = 10`. -/
def keyLongA : List Nat := [97, 97, 97, 97, 97, 97, 97, 97, 97, 120]

/-- The key `"bbbbbbbbbx"`, of length `MAX_KEYLEN = 10`. -/
def keyLongB : List Nat := [98, 98, 98, 98, 98, 98, 98, 98, 98, 120]

/-- The key `"aaaaaaaaa"`: the nine characters that `insert` stores of `keyLongA`. -/
def keyNineA : List Nat := [97, 97, 97, 97, 97, 97, 97, 97, 97]

/-- Capacity 3, load factor 1, growth factor 2, no secondary hash (linear
probing), PACK deletion, keys of at most ten bytes; the keys `"aaaaaaaaa"` and
`"bbbbbbbbbx"` hashed to `2 % m` and every other key to `1 % m`. -/
def longKeyConfig : OAHTConfig :=
  { InitialTableSize_ := 3
    PrimaryHashFunc_ := fun k m => if k = keyNineA ∨ k = keyLongB then 2 % m else 1 % m
    SecondaryHashFunc_ := none
    MaxLoadFactor_ := ⟨1, 1⟩
    GrowthFactor_ := ⟨2, 1⟩
    DeletionPolicy_ := .PACK
    FreeProc_ := false
    MAX_KEYLEN := 10 }

end Example

/-! ## Longest increasing subsequence (`src/lis.cpp`) -/

namespace Lis

/-- The inner loop of the table computation (lines 37-43), `rem` iterations
from `j`, for the entry `i`. -/
def innerLoop (sequence : List Int) (i : Nat) : Nat → Nat → List Nat → List Nat
  | 0, _, lis => lis
  | rem + 1, j, lis =>
    innerLoop sequence i rem (j + 1)
      (if sequence.getD i 0 > sequence.getD j 0 ∧ lis.getD i 0 < u32 (lis.getD j 0 + 1)
        then lis.set i (u32 (lis.getD j 0 + 1)) else lis)

/-- The outer loop of the table computation (lines 34-44), `rem` iterations from `i`. -/
def outerLoop (sequence : List Int) : Nat → Nat → List Nat → List Nat
  | 0, _, lis => lis
  | rem + 1, i, lis =>
    outerLoop sequence rem (i + 1) (innerLoop sequence i i 0 (lis.set i 1))

/-- The loop that fills the returned vector (lines 47-58), `rem` iterations
from `right`; the result is `answer` and `left` after the loop. -/
def collectLoop (lis : List Nat) : Nat → Nat → Nat → List Nat → List Nat × Nat
  | 0, _, left, answer => (answer, left)
  | rem + 1, right, left, answer =>
    if lis.getD left 0 = lis.getD right 0 then collectLoop lis rem (right + 1) right answer
    else if lis.getD left 0 < lis.getD right 0 then
      collectLoop lis rem (right + 1) right (answer ++ [left])
    else collectLoop lis rem (right + 1) left answer

/-- The function `longest_increasing_subsequence` (lines 21-62).  The size of
the sequence is converted to `unsigned`; when the converted size is 0 the write
`lis[0] = 1` is outside the vector and the result is `none`. -/
def longest_increasing_subsequence (sequence : List Int) : Option (List Nat) :=
  let size := u32 sequence.length
  if size = 0 then none
  else
    let lis := outerLoop sequence (size - 1) 1 ((List.replicate size 0).set 0 1)
    let r := collectLoop lis (size - 1) 1 0 []
    some (r.1 ++ [r.2])

/-- A list of indices picks out a strictly increasing subsequence of a sequence:
the indices are strictly ascending and valid, and the values at them are
strictly increasing. -/
def IsIncreasingAt (sequence : List Int) (idx : List Nat) : Prop :=
  idx.Pairwise (· < ·) ∧ (∀ i ∈ idx, i < sequence.length)
    ∧ (idx.map (fun i => sequence.getD i 0)).Pairwise (· < ·)

instance (sequence : List Int) (idx : List Nat) : Decidable (IsIncreasingAt sequence idx) := by
  unfold IsIncreasingAt; infer_instance

/-- The first `k` entries of the table are final: each is 1 or one more than an
earlier entry with a smaller sequence value, and is at least one more than
every such entry. -/
def TableOK (sequence : List Int) (lis : List Nat) (k : Nat) : Prop :=
  ∀ i, i < k → 1 ≤ lis.getD i 0 ∧ lis.getD i 0 ≤ i + 1
    ∧ (lis.getD i 0 = 1
        ∨ ∃ j, j < i ∧ sequence.getD j 0 < sequence.getD i 0 ∧ lis.getD i 0 = lis.getD j 0 + 1)
    ∧ ∀ j, j < i → sequence.getD j 0 < sequence.getD i 0 → lis.getD j 0 + 1 ≤ lis.getD i 0

end Lis

/-! ## Knapsack by enumeration of the subsets (`src/knapsack_bf.cpp`) -/

namespace Knapsack

/-- Modelled from the spec: the classes `Item` and `Weight` are declared in a
header outside the sources; an item has an integer weight (`GetWeight`) and an
integer value (`GetValue`), and a `Weight` is an integer that starts at 0 and
is added to, subtracted from and compared as such. -/
structure Item where
  weight : Int
  value : Int

/-- The state of a `GreyCode` object. -/
structure GreyCode where
  n : Nat
  count : Nat
  code : List Nat
  numbers : List Nat
  save : List Nat

/-- The value of `1 << s` in `int` (lines 35 and 40): `2^s` in the 32-bit
two's-complement range, which is negative for `s = 31`; for `s >= 32`, where the
shift is undefined, the wrapped value 0 is taken. -/
def shl1 (s : Nat) : Int :=
  if 2 ^ s % 4294967296 < 2147483648 then ((2 ^ s % 4294967296 : Nat) : Int)
  else ((2 ^ s % 4294967296 : Nat) : Int) - 4294967296

/-- The constructor `GreyCode(s)` (lines 28-44): `n` zero bits, and the
numbers `i >> 1 ^ i` for `0 <= i < 1 << s` in `numbers` and in `save`; the two
loops make no iteration when `1 << s` is not positive. -/
def GreyCode.new (s : Nat) : GreyCode :=
  { n := s
    count := 0
    code := List.replicate s 0
    numbers := (List.range (shl1 s).toNat).map (fun i => (i >>> 1) ^^^ i)
    save := (List.range (shl1 s).toNat).map (fun i => (i >>> 1) ^^^ i) }

/-- The number of trailing zero bits of a non-zero 64-bit value
(`__builtin_ctzll`), counted with at most `fuel` shifts. -/
def ctz : Nat → Nat → Nat
  | 0, _ => 0
  | fuel + 1, x => if x % 2 = 1 then 0 else 1 + ctz fuel (x / 2)

/-- The method `Next` (lines 53-84): the result `(!last, (add, pos))` and the
object afterwards; `none` when `code[index]` or `numbers[0]` is outside the
container. -/
def GreyCode.Next (g : GreyCode) : Option ((Bool × Bool × Nat) × GreyCode) :=
  let count := g.count + 1
  let pos := ctz 64 count
  if pos < g.n then
    let index := g.n - 1 - pos
    let code := g.code.set index (if g.code.getD index 0 = 0 then 1 else 0)
    let add := decide (code.getD index 0 ≠ 0)
    match g.numbers with
    | [] => none
    | first :: rest =>
      match rest with
      | [] => none
      | next :: _ =>
        let last := decide (next = 2 ^ (g.n - 1))
        some ((!last, add, pos),
          { g with count := count, code := code, numbers := rest, save := g.save ++ [first] })
  else none

/-- The method `GetSave` (lines 101-104). -/
def GreyCode.GetSave (g : GreyCode) : List Nat := g.save

/-- The `while (go)` loop of `knapsack_brute_force` (lines 133-166), at most
`fuel` iterations: the vector `values` after the loop.  The sums of weights
and of values are exact integers. -/
def subsetLoop (items : List Item) (W : Int) :
    Nat → GreyCode → Int → Int → List Int → Option (List Int)
  | 0, _, _, _, _ => none
  | fuel + 1, gc, totalW, totalV, values =>
    match gc.Next with
    | none => none
    | some ((go, add, pos), gc) =>
      match items.get? (items.length - 1 - pos) with
      | none => none
      | some item =>
        let totalW := if add then totalW + item.weight else totalW - item.weight
        let totalV := if add then totalV + item.value else totalV - item.value
        let values := values ++ [if totalW > W then 0 else totalV]
        if go then subsetLoop items W fuel gc totalW totalV values else some values

/-- The search for the largest value (lines 170-177), from index `i`: the
position `largestPos` after the loop. -/
def largestLoop : List Int → Nat → Int → Nat → Nat
  | [], _, _, largestPos => largestPos
  | v :: values, i, largestVal, largestPos =>
    if v > largestVal then largestLoop values (i + 1) v i
    else largestLoop values (i + 1) largestVal largestPos

/-- The function `knapsack_brute_force` (lines 118-203).  The loop over the
subsets is given `2 ^ items.size()` iterations, one more than the non-empty
subsets; the 128 bits of the chosen number are listed from the most
significant one and the leading `128 - items.size()` of them are erased. -/
def knapsack_brute_force (items : List Item) (W : Int) : Option (List Bool) :=
  let gc := GreyCode.new items.length
  let numbers := gc.GetSave
  match subsetLoop items W (2 ^ items.length) gc 0 0 [] with
  | none => none
  | some values =>
    let largestPos := largestLoop values 0 0 0 + 1
    match numbers.get? largestPos with
    | none => none
    | some number =>
      let res := (List.range 128).map (fun i => number.testBit (128 - 1 - i))
      if items.length ≤ 128 then some (res.drop (128 - items.length)) else none

/-- The `GreyCode` object after `k` calls of `Next`; `none` when one of the
calls reads outside a container. -/
def GreyCode.after : Nat → GreyCode → Option GreyCode
  | 0, g => some g
  | k + 1, g =>
    match GreyCode.after k g with
    | none => none
    | some g1 =>
      match g1.Next with
      | none => none
      | some (_, g2) => some g2

/-- The code vector read as a binary number, entry 0 being the most
significant bit. -/
def binVal (code : List Nat) : Nat := code.foldl (fun a b => 2 * a + b) 0

/-- The object is the one that `k` calls of `Next` leave from `GreyCode(n)`:
the counter is `k`, the code vector holds the `n` bits of `k >> 1 ^ k`, most
significant first, and `numbers` has lost its first `k` entries. -/
structure GreyCode.At (g : GreyCode) (n k : Nat) : Prop where
  n_eq : g.n = n
  count_eq : g.count = k
  length : g.code.length = n
  bits : ∀ i, i < n →
    g.code.getD i 0 = if ((k >>> 1) ^^^ k).testBit (n - 1 - i) then 1 else 0
  numbers : g.numbers = ((List.range (2 ^ n)).map (fun i => (i >>> 1) ^^^ i)).drop k

/-- The total weight of the items selected by a vector of booleans. -/
def selectedWeight (items : List Item) (sel : List Bool) : Int :=
  ((items.zip sel).map (fun p => if p.2 then p.1.weight else 0)).sum

end Knapsack

/-! ## Merge sort (`src/mergesort.cpp`) -/

namespace Mergesort

/-- The assignment `a[i] = v` on an array of `int`. -/
def write (a : Nat → Int) (i : Nat) (v : Int) : Nat → Int :=
  fun k => if k = i then v else a k

/-- The first loop of `merge` (lines 32-35), at most `fuel` iterations: it reads
the source array `x` and writes the destination array `y`; the pointers are
offsets into the two arrays.  The result is `startL`, `startR`, `dest` and the
destination array after the loop, or `none` when the iterations did not suffice. -/
def mergeLoop (x : Nat → Int) (endL endR : Nat) :
    Nat → Nat → Nat → Nat → (Nat → Int) → Option (Nat × Nat × Nat × (Nat → Int))
  | 0, startL, startR, dest, y =>
    if startL < endL ∧ startR < endR then none else some (startL, startR, dest, y)
  | fuel + 1, startL, startR, dest, y =>
    if startL < endL ∧ startR < endR then
      if x startL < x startR then
        mergeLoop x endL endR fuel (startL + 1) startR (dest + 1) (write y dest (x startL))
      else
        mergeLoop x endL endR fuel startL (startR + 1) (dest + 1) (write y dest (x startR))
    else some (startL, startR, dest, y)

/-- A copying loop of `merge` (lines 36-39 and 40-43), `n` iterations:
`*dest++ = *start++`. -/
def copyLoop (x : Nat → Int) : Nat → Nat → Nat → (Nat → Int) → Nat → Int
  | 0, _, _, y => y
  | n + 1, start, dest, y => copyLoop x n (start + 1) (dest + 1) (write y dest (x start))

/-- The function `merge` (lines 23-44): `start`, `mid` and `stop` (the pointer `end`) are offsets
into the source array `x`, `dest` is an offset into the destination array `y`;
the result is the destination array. -/
def merge (x : Nat → Int) (start mid stop dest : Nat) (y : Nat → Int) :
    Option (Nat → Int) :=
  match mergeLoop x mid stop ((mid - start) + (stop - mid)) start mid dest y with
  | none => none
  | some (startL, startR, dest, y) =>
    let y := copyLoop x (mid - startL) startL dest y
    some (copyLoop x (stop - startR) startR (dest + (mid - startL)) y)

/-- The function `merge_rec` (lines 54-68) with nesting depth at most `fuel`:
`src` and `dest` are the offset `off` into the arrays `x` and `y`; the result
is the two arrays, or `none` when the fuel did not suffice. -/
def merge_rec : Nat → (Nat → Int) → (Nat → Int) → Nat → Nat →
    Option ((Nat → Int) × (Nat → Int))
  | 0, x, y, _, len => if len < 2 then some (x, y) else none
  | fuel + 1, x, y, off, len =>
    if len < 2 then some (x, y)
    else
      let l_len := len / 2
      match merge_rec fuel y x off l_len with
      | none => none
      | some (y, x) =>
        match merge_rec fuel y x (off + l_len) (len - l_len) with
        | none => none
        | some (y, x) =>
          match merge x off (off + l_len) (off + len) off y with
          | none => none
          | some y => some (x, y)

/-- The function `mergesort` (lines 77-89): the array `a` afterwards.  The
array `left` is the copy that `memcpy` makes of the `r` elements of `a` (the
allocation succeeds); the recursion of `merge_rec` is given the depth `r`. -/
def mergesort (a : Nat → Int) (r : Nat) : Option (Nat → Int) :=
  if r ≤ 1 then some a
  else
    let left : Nat → Int := fun i => if i < r then a i else 0
    (merge_rec r left a 0 r).map Prod.snd

/-- The `len` elements of an array from offset `off`. -/
def slice (a : Nat → Int) (off len : Nat) : List Int :=
  (List.range len).map (fun i => a (off + i))

end Mergesort

/-! ## Quick sort (`src/quicksort.cpp`) -/

namespace Quicksort

/-- The value of an integer as an `int`: reduction to the 32-bit two's
complement range (the residue modulo `2^32` when it is below `2^31`, and the
residue minus `2^32` otherwise). -/
def toInt (n : Int) : Int :=
  if (n % 4294967296).toNat < 2147483648 then ((n % 4294967296).toNat : Int)
  else Int.negSucc (4294967295 - (n % 4294967296).toNat)

/-- The value of an `int` converted to `unsigned`. -/
def toUnsigned (n : Int) : Nat := (n % 4294967296).toNat

/-- The function `swap` (lines 20-25) applied to `&a[i]` and `&a[j]`. -/
def swap (a : Int → Int) (i j : Int) : Int → Int :=
  fun k => if k = i then a j else if k = j then a i else a k

/-- The loop of `partition` (lines 42-49), at most `n` iterations from `j`; the
result is `i` and the array after the loop, or `none` when the iterations did
not suffice. -/
def partitionLoop (start r : Int) : Nat → Int → Int → (Int → Int) → Option (Int × (Int → Int))
  | 0, j, i, a => if j < r then none else some (i, a)
  | n + 1, j, i, a =>
    if j < r then
      if a j ≤ start then
        partitionLoop start r n (toInt (j + 1)) (toInt (i + 1)) (swap a (toInt (i + 1)) j)
      else partitionLoop start r n (toInt (j + 1)) i a
    else some (i, a)

/-- The function `partition` (lines 36-52): the returned index and the array
afterwards.  The loop is given the `r - (l + 1)` iterations it makes. -/
def partition (a : Int → Int) (l r : Int) : Option (Int × (Int → Int)) :=
  let start := a l
  match partitionLoop start r (r - toInt (l + 1)).toNat (toInt (l + 1)) l a with
  | none => none
  | some (i, a) => some (i, swap a i l)

/-- The function `quicksort` (lines 62-74) with nesting depth at most `fuel`:
the array afterwards, or `none` when the fuel did not suffice.  The arguments
`l` and `r` are `unsigned`, `partition` takes them as `int` and the index it
returns is converted back. -/
def quicksort : Nat → (Int → Int) → Nat → Nat → Option (Int → Int)
  | 0, a, l, r => if l < r then none else some a
  | fuel + 1, a, l, r =>
    if l < r then
      match partition a (toInt l) (toInt r) with
      | none => none
      | some (pi, a) =>
        match quicksort fuel a l (toUnsigned pi) with
        | none => none
        | some a => quicksort fuel a (toUnsigned (toInt (pi + 1))) r
    else some a

/-- The elements of an array at the positions `lo .. hi - 1` are in
non-decreasing order. -/
def SortedOn (a : Int → Int) (lo hi : Int) : Prop :=
  ∀ i j, lo ≤ i → i ≤ j → j < hi → a i ≤ a j

/-- The array `b` is the array `a` with the elements at the positions
`lo .. hi - 1` permuted: a permutation of the indices that moves no index
outside that range carries one to the other. -/
def PermutedOn (a b : Int → Int) (lo hi : Int) : Prop :=
  ∃ σ : Equiv.Perm Int, (∀ k, ¬ (lo ≤ k ∧ k < hi) → σ k = k) ∧ ∀ k, b k = a (σ k)

end Quicksort

/-! # Properties -/

namespace OAHashTable

open Example

/-! ## Arithmetic of the embedding -/

theorem u32_le (n : Nat) : u32 n ≤ n := Nat.mod_le _ _

theorem u32_lt (n : Nat) : u32 n < 4294967296 := Nat.mod_lt _ (by decide)

/-- The trial division decides primality. -/
theorem isPrimeB_iff (n : Nat) : isPrimeB n = true ↔ Nat.Prime n := by
  rw [Nat.prime_def_lt']
  simp only [isPrimeB, Bool.and_eq_true, decide_eq_true_eq, List.all_eq_true, List.mem_range,
    bne_iff_ne, ne_eq]
  constructor
  · rintro ⟨h2, h⟩
    refine ⟨h2, fun m hm hmn hdvd => ?_⟩
    have := h (m - 2) (by omega)
    rw [show m - 2 + 2 = m by omega] at this
    exact this (Nat.mod_eq_zero_of_dvd hdvd)
  · rintro ⟨h2, h⟩
    refine ⟨h2, fun d hd hmod => ?_⟩
    exact h (d + 2) (by omega) (by omega) (Nat.dvd_of_mod_eq_zero hmod)

/-- The upward search returns the least prime from `n` on when one lies within the fuel. -/
theorem primeSearch_spec : ∀ (fuel n p : Nat), Nat.Prime p → n ≤ p → p ≤ n + fuel →
    Nat.Prime (primeSearch fuel n) ∧ n ≤ primeSearch fuel n ∧
      ∀ q, Nat.Prime q → n ≤ q → primeSearch fuel n ≤ q := by
  intro fuel
  induction fuel with
  | zero =>
    intro n p hp hnp hpn
    have : p = n := by omega
    subst this
    exact ⟨hp, le_refl _, fun q _ hq => hq⟩
  | succ fuel ih =>
    intro n p hp hnp hpn
    unfold primeSearch
    by_cases hn : isPrimeB n = true
    · rw [if_pos hn]
      exact ⟨(isPrimeB_iff n).1 hn, le_refl _, fun q _ hq => hq⟩
    · rw [if_neg hn]
      have hnn : ¬ Nat.Prime n := fun h => hn ((isPrimeB_iff n).2 h)
      have hne : n ≠ p := fun h => hnn (h ▸ hp)
      obtain ⟨h1, h2, h3⟩ := ih (n + 1) p hp (by omega) (by omega)
      refine ⟨h1, by omega, fun q hq hnq => ?_⟩
      have : n ≠ q := fun h => hnn (h ▸ hq)
      exact h3 q hq (by omega)

/-- `GetClosestPrime n` is the smallest prime that is at least `n`. -/
theorem GetClosestPrime_spec (n : Nat) :
    Nat.Prime (GetClosestPrime n) ∧ n ≤ GetClosestPrime n ∧
      ∀ q, Nat.Prime q → n ≤ q → GetClosestPrime n ≤ q := by
  unfold GetClosestPrime
  rcases Nat.eq_zero_or_pos n with h0 | hpos
  · subst h0
    exact primeSearch_spec 2 0 2 Nat.prime_two (by omega) (by omega)
  · obtain ⟨p, hp, hlt, hle⟩ := Nat.exists_prime_lt_and_le_two_mul n (by omega)
    exact primeSearch_spec (n + 2) n p hp (by omega) (by omega)

/-- The first shift of `roundDouble` brings the quotient to `2^52` at least, and
no smaller shift does. -/
theorem upShift_spec : ∀ (fuel p q : Nat), 4503599627370496 * q ≤ 2 ^ fuel * p →
    4503599627370496 * q ≤ 2 ^ upShift fuel p q * p
      ∧ ∀ k, k < upShift fuel p q → 2 ^ k * p < 4503599627370496 * q := by
  intro fuel
  induction fuel with
  | zero =>
    intro p q h
    simp only [upShift]
    exact ⟨by simpa using h, fun k hk => absurd hk (Nat.not_lt_zero _)⟩
  | succ fuel ih =>
    intro p q h
    unfold upShift
    split
    · next hc => exact ⟨by simpa using hc, fun k hk => absurd hk (Nat.not_lt_zero _)⟩
    · next hc =>
      have h2 : 4503599627370496 * q ≤ 2 ^ fuel * (2 * p) := by
        rw [pow_succ] at h
        calc 4503599627370496 * q ≤ 2 ^ fuel * 2 * p := h
          _ = 2 ^ fuel * (2 * p) := by ring
      obtain ⟨a, b⟩ := ih (2 * p) q h2
      refine ⟨?_, ?_⟩
      · calc 4503599627370496 * q ≤ 2 ^ upShift fuel (2 * p) q * (2 * p) := a
          _ = 2 ^ (upShift fuel (2 * p) q + 1) * p := by rw [pow_succ]; ring
      · intro k hk
        cases k with
        | zero => simpa using Nat.lt_of_not_le hc
        | succ k =>
          have := b k (by omega)
          calc 2 ^ (k + 1) * p = 2 ^ k * (2 * p) := by rw [pow_succ]; ring
            _ < _ := this

theorem downShift_spec : ∀ (fuel p q : Nat), p < 9007199254740992 * (2 ^ fuel * q) →
    p < 9007199254740992 * (2 ^ downShift fuel p q * q)
      ∧ ∀ k, k < downShift fuel p q → 9007199254740992 * (2 ^ k * q) ≤ p := by
  intro fuel
  induction fuel with
  | zero =>
    intro p q h
    simp only [downShift]
    exact ⟨by simpa using h, fun k hk => absurd hk (Nat.not_lt_zero _)⟩
  | succ fuel ih =>
    intro p q h
    unfold downShift
    split
    · next hc => exact ⟨by simpa using hc, fun k hk => absurd hk (Nat.not_lt_zero _)⟩
    · next hc =>
      have h2 : p < 9007199254740992 * (2 ^ fuel * (2 * q)) := by
        rw [pow_succ] at h
        calc p < 9007199254740992 * (2 ^ fuel * 2 * q) := h
          _ = 9007199254740992 * (2 ^ fuel * (2 * q)) := by ring
      obtain ⟨a, b⟩ := ih p (2 * q) h2
      refine ⟨?_, ?_⟩
      · calc p < 9007199254740992 * (2 ^ downShift fuel p (2 * q) * (2 * q)) := a
          _ = 9007199254740992 * (2 ^ (downShift fuel p (2 * q) + 1) * q) := by
            rw [pow_succ]; ring
      · intro k hk
        cases k with
        | zero => simpa using Nat.le_of_not_lt hc
        | succ k =>
          have := b k (by omega)
          calc 9007199254740992 * (2 ^ (k + 1) * q)
              = 9007199254740992 * (2 ^ k * (2 * q)) := by rw [pow_succ]; ring
            _ ≤ _ := this

/-- The scaling that `roundDouble` applies. -/
theorem scale_spec (p q : Nat) (hp : 0 < p) (hq : 0 < q) :
    4503599627370496 * (2 ^ downShift p p q * q) ≤ 2 ^ upShift (q + 52) p q * p
      ∧ 2 ^ upShift (q + 52) p q * p < 9007199254740992 * (2 ^ downShift p p q * q)
      ∧ (upShift (q + 52) p q = 0 ∨ downShift p p q = 0)
      ∧ (∀ k, k < upShift (q + 52) p q → 2 ^ k * p < 4503599627370496 * q) := by
  have hu := upShift_spec (q + 52) p q (by
    have h1 : q < 2 ^ q := Nat.lt_two_pow q
    calc 4503599627370496 * q ≤ 4503599627370496 * 2 ^ q := Nat.mul_le_mul_left _ h1.le
      _ = 2 ^ (q + 52) * 1 := by rw [pow_add]; norm_num; ring
      _ ≤ 2 ^ (q + 52) * p := Nat.mul_le_mul_left _ hp)
  have hd := downShift_spec p p q (by
    have h1 : p < 2 ^ p := Nat.lt_two_pow p
    calc p < 2 ^ p := h1
      _ = 1 * (2 ^ p * 1) := by ring
      _ ≤ 9007199254740992 * (2 ^ p * q) :=
        Nat.mul_le_mul (by norm_num) (Nat.mul_le_mul_left _ hq))
  obtain ⟨u1, u2⟩ := hu
  obtain ⟨d1, d2⟩ := hd
  rcases Nat.eq_zero_or_pos (upShift (q + 52) p q) with hu0 | hupos
  · rw [hu0] at u1 ⊢
    simp only [pow_zero, one_mul] at u1 ⊢
    refine ⟨?_, d1, Or.inl trivial, fun k hk => absurd hk (Nat.not_lt_zero _)⟩
    rcases Nat.eq_zero_or_pos (downShift p p q) with hd0 | hdpos
    · rw [hd0]; simpa using u1
    · have := d2 (downShift p p q - 1) (by omega)
      have e : 2 ^ downShift p p q = 2 * 2 ^ (downShift p p q - 1) := by
        rw [← pow_succ']; congr 1; omega
      rw [e]
      calc 4503599627370496 * (2 * 2 ^ (downShift p p q - 1) * q)
          = 9007199254740992 * (2 ^ (downShift p p q - 1) * q) := by ring
        _ ≤ p := this
  · have hlast := u2 (upShift (q + 52) p q - 1) (by omega)
    have e : 2 ^ upShift (q + 52) p q = 2 * 2 ^ (upShift (q + 52) p q - 1) := by
      rw [← pow_succ']; congr 1; omega
    have hp1 : p < 4503599627370496 * q := by
      have := u2 0 hupos
      simpa using this
    have hd0 : downShift p p q = 0 := by
      rcases Nat.eq_zero_or_pos (downShift p p q) with hd0 | hdpos
      · exact hd0
      · have := d2 0 hdpos
        simp only [pow_zero, one_mul] at this
        omega
    rw [hd0]
    simp only [pow_zero, one_mul]
    refine ⟨u1, ?_, Or.inr trivial, u2⟩
    rw [e]
    calc 2 * 2 ^ (upShift (q + 52) p q - 1) * p
        = 2 * (2 ^ (upShift (q + 52) p q - 1) * p) := by ring
      _ < 2 * (4503599627370496 * q) := by omega
      _ = 9007199254740992 * q := by ring

/-- The value of `roundDouble` on a positive quotient. -/
theorem roundDouble_view (p q : Nat) (hp : 0 < p) (hq : 0 < q) :
    ∃ u d m, roundDouble p q = ⟨2 ^ d * m, 2 ^ u⟩
      ∧ (u = 0 ∨ d = 0)
      ∧ 4503599627370496 * (2 ^ d * q) ≤ 2 ^ u * p
      ∧ 2 ^ u * p < 9007199254740992 * (2 ^ d * q)
      ∧ (∀ k, k < u → 2 ^ k * p < 4503599627370496 * q)
      ∧ m = (if 2 ^ d * q < 2 * (2 ^ u * p % (2 ^ d * q))
              ∨ (2 * (2 ^ u * p % (2 ^ d * q)) = 2 ^ d * q ∧ 2 ^ u * p / (2 ^ d * q) % 2 = 1)
            then 2 ^ u * p / (2 ^ d * q) + 1 else 2 ^ u * p / (2 ^ d * q)) := by
  obtain ⟨s1, s2, s3, s4⟩ := scale_spec p q hp hq
  refine ⟨upShift (q + 52) p q, downShift p p q, _, ?_, s3, s1, s2, s4, rfl⟩
  unfold roundDouble
  rw [if_neg (by omega), if_neg (by omega)]

/-- The mantissa of a rounded positive quotient lies between `2^52` and `2^53`. -/
theorem mantissa_bounds {P Q m : Nat} (hQ : 0 < Q)
    (h1 : 4503599627370496 * Q ≤ P) (h2 : P < 9007199254740992 * Q)
    (hm : m = (if Q < 2 * (P % Q) ∨ (2 * (P % Q) = Q ∧ P / Q % 2 = 1)
      then P / Q + 1 else P / Q)) :
    4503599627370496 ≤ P / Q ∧ P / Q < 9007199254740992
      ∧ P / Q ≤ m ∧ m ≤ P / Q + 1 := by
  refine ⟨(Nat.le_div_iff_mul_le hQ).2 h1, (Nat.div_lt_iff_lt_mul hQ).2 h2, ?_, ?_⟩
  · rw [hm]; split <;> omega
  · rw [hm]; split <;> omega

/-- A quotient above one rounds to a value above one. -/
theorem roundDouble_gt_one (a b : Nat) (hb : 0 < b) (hab : b < a)
    (ha : a ≤ 4503599627370496) :
    (roundDouble a b).den < (roundDouble a b).num := by
  obtain ⟨u, d, m, e, hud, s1, s2, s4, hm⟩ := roundDouble_view a b (by omega) hb
  have hQ : 0 < 2 ^ d * b := Nat.mul_pos (Nat.two_pow_pos d) hb
  obtain ⟨m1, m2, m3, m4⟩ := mantissa_bounds hQ s1 s2 hm
  rw [e]
  simp only []
  have hd1 : 1 ≤ 2 ^ d := Nat.one_le_two_pow
  rcases Nat.eq_zero_or_pos u with hu | hu
  · rw [hu]
    calc 2 ^ 0 = 1 := rfl
      _ < 1 * 4503599627370496 := by norm_num
      _ ≤ 2 ^ d * m := Nat.mul_le_mul hd1 (le_trans m1 m3)
  · have hd : d = 0 := by rcases hud with h | h; omega; exact h
    subst hd
    simp only [pow_zero, one_mul] at s1 s2 m1 m3 ⊢
    have hbu : b ≤ 2 ^ u := by
      by_contra hc
      have : 2 ^ u * a ≤ 2 ^ u * 4503599627370496 := Nat.mul_le_mul_left _ ha
      have : 4503599627370496 * (2 ^ u + 1) ≤ 4503599627370496 * b :=
        Nat.mul_le_mul_left _ (by omega)
      nlinarith
    have : 2 ^ u + 1 ≤ 2 ^ u * a / b := by
      rw [Nat.le_div_iff_mul_le hb]
      nlinarith
    omega

/-- Rounding is monotone in the numerator. -/
theorem roundDouble_mono (a a1 b : Nat) (hb : 0 < b) (h : a ≤ a1)
    (ha : a1 < 9007199254740992 * b) :
    (roundDouble a b).num * (roundDouble a1 b).den
      ≤ (roundDouble a1 b).num * (roundDouble a b).den := by
  rcases Nat.eq_zero_or_pos a with h0 | hpos
  · subst h0
    simp [roundDouble]
  obtain ⟨u, d, m, e, hud, s1, s2, s4, hm⟩ := roundDouble_view a b hpos hb
  obtain ⟨u1, d1, m1, e1, hud1, t1, t2, t4, hm1⟩ := roundDouble_view a1 b (by omega) hb
  have hd : d = 0 := by
    rcases hud with hu | hd
    · subst hu
      by_contra hc
      have : 2 ≤ 2 ^ d := by
        calc 2 = 2 ^ 1 := rfl
          _ ≤ 2 ^ d := Nat.pow_le_pow_right (by norm_num) (by omega)
      simp only [pow_zero, one_mul] at s1
      nlinarith
    · exact hd
  have hd1 : d1 = 0 := by
    rcases hud1 with hu | hd
    · subst hu
      by_contra hc
      have : 2 ≤ 2 ^ d1 := by
        calc 2 = 2 ^ 1 := rfl
          _ ≤ 2 ^ d1 := Nat.pow_le_pow_right (by norm_num) (by omega)
      simp only [pow_zero, one_mul] at t1
      nlinarith
    · exact hd
  subst hd; subst hd1
  simp only [pow_zero, one_mul] at s1 s2 hm t1 t2 hm1
  obtain ⟨b1, b2, b3, b4⟩ := mantissa_bounds hb s1 s2 hm
  obtain ⟨c1, c2, c3, c4⟩ := mantissa_bounds hb t1 t2 hm1
  rw [e, e1]
  simp only [pow_zero, one_mul]
  have hu1 : u1 ≤ u := by
    by_contra hc
    have h1 := t4 u (by omega)
    have h2 : 2 ^ u * a ≤ 2 ^ u * a1 := Nat.mul_le_mul_left _ h
    omega
  rcases Nat.eq_or_lt_of_le hu1 with heq | hlt
  · subst heq
    have hdiv : 2 ^ u1 * a / b ≤ 2 ^ u1 * a1 / b :=
      Nat.div_le_div_right (Nat.mul_le_mul_left _ h)
    rcases Nat.eq_or_lt_of_le hdiv with hdeq | hdlt
    · have hmod : 2 ^ u1 * a % b ≤ 2 ^ u1 * a1 % b := by
        have x1 := Nat.div_add_mod (2 ^ u1 * a) b
        have x2 := Nat.div_add_mod (2 ^ u1 * a1) b
        have x3 : 2 ^ u1 * a ≤ 2 ^ u1 * a1 := Nat.mul_le_mul_left _ h
        rw [hdeq] at x1
        omega
      have : m ≤ m1 := by
        rw [hm, hm1, hdeq]
        split
        · next hc =>
          rw [if_pos]
          rcases hc with hc | hc
          · left; omega
          · rcases Nat.eq_or_lt_of_le hmod with hme | hml
            · right; rw [← hme]; exact hc
            · left; omega
        · split <;> omega
      exact Nat.mul_le_mul this (le_refl _)
    · have : m ≤ m1 := by omega
      exact Nat.mul_le_mul this (le_refl _)
  · have hp : 2 * 2 ^ u1 ≤ 2 ^ u := by
      calc 2 * 2 ^ u1 = 2 ^ (u1 + 1) := by rw [pow_succ]; ring
        _ ≤ 2 ^ u := Nat.pow_le_pow_right (by norm_num) hlt
    have hm2 : m ≤ 9007199254740992 := by omega
    have hm3 : 4503599627370496 ≤ m1 := by omega
    calc m * 2 ^ u1 ≤ 9007199254740992 * 2 ^ u1 := Nat.mul_le_mul_right _ hm2
      _ = 4503599627370496 * (2 * 2 ^ u1) := by ring
      _ ≤ 4503599627370496 * 2 ^ u := Nat.mul_le_mul_left _ hp
      _ ≤ m1 * 2 ^ u := Nat.mul_le_mul_right _ hm3

/-- A `double` above one is at least `1 + 2^-52`. -/
theorem isDouble_gap {f : Frac} (hd : f.IsDouble) (hden : 0 < f.den) (hnum : f.den < f.num) :
    f.den ≤ 4503599627370496 * (f.num - f.den) := by
  obtain ⟨u, d, m, e, hud, s1, s2, s4, hm⟩ := roundDouble_view f.num f.den (by omega) hden
  unfold Frac.IsDouble at hd
  rw [e] at hd
  simp only [] at hd
  rcases Nat.eq_zero_or_pos u with hu | hu
  · subst hu
    simp only [pow_zero, one_mul] at s1
    have h1 : 1 ≤ 2 ^ d := Nat.one_le_two_pow
    have h2 : 4503599627370496 * f.den ≤ f.num := by nlinarith
    have : f.den ≤ f.num - f.den := by omega
    calc f.den ≤ f.num - f.den := this
      _ ≤ 4503599627370496 * (f.num - f.den) := Nat.le_mul_of_pos_left _ (by norm_num)
  · have hd0 : d = 0 := by rcases hud with h | h; omega; exact h
    subst hd0
    simp only [pow_zero, one_mul] at hd s1
    have hu52 : u ≤ 52 := by
      by_contra hc
      have := s4 52 (by omega)
      norm_num at this
      omega
    have hpu : 2 ^ u ≤ 4503599627370496 := by
      calc 2 ^ u ≤ 2 ^ 52 := Nat.pow_le_pow_right (by norm_num) hu52
        _ = 4503599627370496 := by norm_num
    have hmu : 2 ^ u < m := by
      by_contra hc
      have : m * f.den ≤ 2 ^ u * f.den := Nat.mul_le_mul_right _ (by omega)
      have : 2 ^ u * f.den < 2 ^ u * f.num :=
        Nat.mul_lt_mul_of_pos_left hnum (Nat.two_pow_pos u)
      nlinarith
    have h3 : (2 ^ u + 1) * f.den ≤ f.num * 2 ^ u := by
      rw [← hd]; exact Nat.mul_le_mul_right _ hmu
    have h4 : f.den ≤ 2 ^ u * (f.num - f.den) := by
      rw [Nat.mul_sub]
      have h5 : (2 ^ u + 1) * f.den = 2 ^ u * f.den + f.den := by ring
      have h6 : f.num * 2 ^ u = 2 ^ u * f.num := by ring
      rw [h5, h6] at h3
      omega
    calc f.den ≤ 2 ^ u * (f.num - f.den) := h4
      _ ≤ 4503599627370496 * (f.num - f.den) := Nat.mul_le_mul_right _ hpu

/-- The ceiling of a fraction with a positive denominator is at least any
natural number that is below the fraction. -/
theorem lt_ceil_of_lt {n d k : Nat} (hd : 0 < d) (h : k * d < n) : k < (n + d - 1) / d := by
  rw [Nat.lt_iff_add_one_le, Nat.le_div_iff_mul_le hd]
  have : (k + 1) * d = k * d + d := by ring
  omega

/-- Growth by a `double` factor above one: the new size, when it is below
`2^53`, is above the old one. -/
theorem lt_ceilMul (size : Nat) (f : Frac) (hden : 0 < f.den) (hnum : f.den < f.num)
    (hdb : f.IsDouble) (hsize : 0 < size) (hlt : ceilMul size f < 9007199254740992) :
    size < ceilMul size f := by
  have hgap := isDouble_gap hdb hden hnum
  obtain ⟨u, d, m, e, hud, s1, s2, s4, hm⟩ :=
    roundDouble_view (size * f.num) f.den (Nat.mul_pos hsize (by omega)) hden
  have hQ : 0 < 2 ^ d * f.den := Nat.mul_pos (Nat.two_pow_pos d) hden
  obtain ⟨m1, m2, m3, m4⟩ := mantissa_bounds hQ s1 s2 hm
  unfold ceilMul at hlt ⊢
  rw [e] at hlt ⊢
  simp only [] at hlt ⊢
  have hU : 0 < 2 ^ u := Nat.two_pow_pos u
  rcases Nat.eq_zero_or_pos d with hd | hd
  · subst hd
    simp only [pow_zero, one_mul] at s1 s2 m1 m3 hlt ⊢
    apply lt_ceil_of_lt hU
    rcases Nat.lt_or_ge (size * 2 ^ u) 4503599627370496 with hs | hs
    · omega
    · have h5 : size * 2 ^ u + 1 ≤ 2 ^ u * (size * f.num) / f.den := by
        rw [Nat.le_div_iff_mul_le hden]
        have h6 : f.den ≤ size * 2 ^ u * (f.num - f.den) :=
          le_trans hgap (Nat.mul_le_mul_right _ hs)
        rw [Nat.mul_sub] at h6
        have h7 : size * 2 ^ u * f.den ≤ size * 2 ^ u * f.num :=
          Nat.mul_le_mul_left _ hnum.le
        have h8 : 2 ^ u * (size * f.num) = size * 2 ^ u * f.num := by ring
        rw [h8]
        have h9 : (size * 2 ^ u + 1) * f.den = size * 2 ^ u * f.den + f.den := by ring
        rw [h9]
        omega
      omega
  · have hu : u = 0 := by rcases hud with h | h; exact h; omega
    subst hu
    simp only [pow_zero] at hlt
    have h2 : 2 ≤ 2 ^ d := by
      calc 2 = 2 ^ 1 := rfl
        _ ≤ 2 ^ d := Nat.pow_le_pow_right (by norm_num) hd
    have h3 : 2 * 4503599627370496 ≤ 2 ^ d * m := Nat.mul_le_mul h2 (le_trans m1 m3)
    simp only [Nat.add_sub_cancel, Nat.div_one] at hlt
    omega


/-- Growth by a factor of one at least: the new size, when it is below `2^53`,
is not below the old one. -/
theorem le_ceilMul (size : Nat) (f : Frac) (hden : 0 < f.den) (hnum : f.den ≤ f.num)
    (hlt : ceilMul size f < 9007199254740992) : size ≤ ceilMul size f := by
  rcases Nat.eq_zero_or_pos size with h0 | hsize
  · omega
  obtain ⟨u, d, m, e, hud, s1, s2, s4, hm⟩ :=
    roundDouble_view (size * f.num) f.den (Nat.mul_pos hsize (by omega)) hden
  have hQ : 0 < 2 ^ d * f.den := Nat.mul_pos (Nat.two_pow_pos d) hden
  obtain ⟨m1, m2, m3, m4⟩ := mantissa_bounds hQ s1 s2 hm
  unfold ceilMul at hlt ⊢
  rw [e] at hlt ⊢
  simp only [] at hlt ⊢
  have hU : 0 < 2 ^ u := Nat.two_pow_pos u
  rcases Nat.eq_zero_or_pos d with hd | hd
  · subst hd
    simp only [pow_zero, one_mul] at s1 s2 m1 m3 hlt ⊢
    rw [Nat.le_div_iff_mul_le hU]
    have h5 : size * 2 ^ u ≤ 2 ^ u * (size * f.num) / f.den := by
      rw [Nat.le_div_iff_mul_le hden]
      calc size * 2 ^ u * f.den ≤ size * 2 ^ u * f.num := Nat.mul_le_mul_left _ hnum
        _ = 2 ^ u * (size * f.num) := by ring
    omega
  · have hu : u = 0 := by rcases hud with h | h; exact h; omega
    subst hu
    simp only [pow_zero] at hlt
    have h2 : 2 ≤ 2 ^ d := by
      calc 2 = 2 ^ 1 := rfl
        _ ≤ 2 ^ d := Nat.pow_le_pow_right (by norm_num) hd
    have h3 : 2 * 4503599627370496 ≤ 2 ^ d * m := Nat.mul_le_mul h2 (le_trans m1 m3)
    simp only [Nat.add_sub_cancel, Nat.div_one] at hlt
    omega

/-- The denominator of a rounded quotient is positive when the divisor is. -/
theorem roundDouble_den_pos (p q : Nat) (hq : 0 < q) : 0 < (roundDouble p q).den := by
  unfold roundDouble
  split
  · decide
  · rw [if_neg (by omega)]
    exact Nat.two_pow_pos _

/-- The test "the rounded quotient `a / b` is above the fraction `f`". -/
theorem quotient_le_of_le (f : Frac) (a a1 b : Nat) (hb : 0 < b) (h : a ≤ a1)
    (ha : a1 < 9007199254740992 * b)
    (h1 : (roundDouble a1 b).num * f.den ≤ f.num * (roundDouble a1 b).den) :
    (roundDouble a b).num * f.den ≤ f.num * (roundDouble a b).den := by
  have hm := roundDouble_mono a a1 b hb h ha
  have hd1 := roundDouble_den_pos a1 b hb
  have hd := roundDouble_den_pos a b hb
  apply Nat.le_of_mul_le_mul_right _ hd1
  calc (roundDouble a b).num * f.den * (roundDouble a1 b).den
      = (roundDouble a b).num * (roundDouble a1 b).den * f.den := by ring
    _ ≤ (roundDouble a1 b).num * (roundDouble a b).den * f.den := Nat.mul_le_mul_right _ hm
    _ = (roundDouble a1 b).num * f.den * (roundDouble a b).den := by ring
    _ ≤ f.num * (roundDouble a1 b).den * (roundDouble a b).den := Nat.mul_le_mul_right _ h1
    _ = f.num * (roundDouble a b).den * (roundDouble a1 b).den := by ring

/-- The capacity that `GrowTable` computes, when it fits `unsigned`, is not
below the old capacity. -/
theorem le_newSize (size : Nat) (f : Frac) (hden : 0 < f.den) (hnum : f.den ≤ f.num)
    (hN : GetClosestPrime (ceilMul size f) < 4294967296) :
    size ≤ GetClosestPrime (ceilMul size f) := by
  have hC := GetClosestPrime_spec (ceilMul size f)
  exact le_trans (le_ceilMul size f hden hnum (by omega)) hC.2.1

/-- The capacity that `GrowTable` computes from a `double` growth factor above
one, when it fits `unsigned`, is above the old capacity. -/
theorem lt_newSize (size : Nat) (f : Frac) (hden : 0 < f.den) (hnum : f.den < f.num)
    (hdb : f.IsDouble) (hN : GetClosestPrime (ceilMul size f) < 4294967296) :
    size < GetClosestPrime (ceilMul size f) := by
  have hC := GetClosestPrime_spec (ceilMul size f)
  rcases Nat.eq_zero_or_pos size with h | h
  · subst h; exact hC.1.pos
  · exact lt_of_lt_of_le (lt_ceilMul size f hden hnum hdb h (by omega)) hC.2.1

/-- The load test of `insert` fails exactly when the quotient of the count
plus one by the capacity, computed in `double` arithmetic, is within the load
factor. -/
theorem loadExceeded_eq_false_iff (t : OAHashTable T) :
    loadExceeded t = false
      ↔ withinLoad t.config.MaxLoadFactor_ (u32 (t.stats.Count_ + 1)) t.stats.TableSize_ := by
  unfold loadExceeded withinLoad
  simp

/-- A smaller count is within the load factor when a larger one is. -/
theorem withinLoad_mono (f : Frac) {a a1 size : Nat} (hs : 0 < size) (h : a ≤ a1)
    (ha : a1 ≤ 4294967296) (h1 : withinLoad f a1 size) : withinLoad f a size :=
  quotient_le_of_le f a a1 size hs h
    (lt_of_le_of_lt ha (lt_of_lt_of_le (by norm_num) (Nat.le_mul_of_pos_right _ hs))) h1

/-- A count within a load factor of at most one is at most the capacity. -/
theorem le_of_withinLoad (f : Frac) {a size : Nat} (hs : 0 < size) (hf : f.num ≤ f.den)
    (hd : 0 < f.den) (ha : a ≤ 4294967296) (h : withinLoad f a size) : a ≤ size := by
  by_contra hc
  have h1 := roundDouble_gt_one a size hs (by omega) (by omega)
  unfold withinLoad at h
  have h2 : f.num * (roundDouble a size).den ≤ f.den * (roundDouble a size).den :=
    Nat.mul_le_mul_right _ hf
  have h3 : (roundDouble a size).den * f.den < (roundDouble a size).num * f.den :=
    Nat.mul_lt_mul_of_pos_right h1 hd
  have h4 : f.den * (roundDouble a size).den = (roundDouble a size).den * f.den :=
    Nat.mul_comm _ _
  omega

/-- When the load test fails on a table of positive capacity with a load factor
of at most one, the count plus one, in `unsigned`, is at most the capacity. -/
theorem succ_count_le_of_not_loadExceeded (t : OAHashTable T) (hs : 0 < t.stats.TableSize_)
    (hf : t.config.MaxLoadFactor_.num ≤ t.config.MaxLoadFactor_.den)
    (hd : 0 < t.config.MaxLoadFactor_.den) (hl : loadExceeded t = false) :
    u32 (t.stats.Count_ + 1) ≤ t.stats.TableSize_ :=
  le_of_withinLoad _ hs hf hd (Nat.le_of_lt (u32_lt _)) ((loadExceeded_eq_false_iff t).1 hl)

/-! ## Frame of `insert` -/

/-- The two ways `insertBody` ends: a duplicate, the table unchanged but for the
probe counter, or the key stored in some slot. -/
theorem insertBody_cases (src : Option Nat) (t : OAHashTable T) (Key : List Nat) (Data : T) :
    (∃ p, insertBody src t Key Data
        = (some .E_DUPLICATE, { t with stats := { t.stats with Probes_ := p } }))
    ∨ (∃ p idx, insertBody src t Key Data
        = (none, store src { t with stats := { t.stats with Probes_ := p } } idx Key Data)) := by
  unfold insertBody
  simp only []
  split
  · split
    · exact Or.inl ⟨_, rfl⟩
    · split
      · next probes heq => exact Or.inl ⟨probes, rfl⟩
      · next targetIndex probes heq => exact Or.inr ⟨probes, targetIndex, rfl⟩
  · exact Or.inr ⟨_, _, rfl⟩

/-- Without growth `insert` is `insertBody`, whatever the fuel. -/
theorem insert_of_not_loadExceeded (alloc : Allocator T) (fuel : Nat) (src : Option Nat)
    (t : OAHashTable T) (Key : List Nat) (Data : T) (h : loadExceeded t = false) :
    insert alloc fuel src t Key Data = some (insertBody src t Key Data) := by
  cases fuel <;> simp [insert, h]

/-- What `insertBody` leaves unchanged, and the bound on the count. -/
theorem insertBody_frame (src : Option Nat) (t : OAHashTable T) (Key : List Nat) (Data : T) :
    (insertBody src t Key Data).2.config = t.config
    ∧ (insertBody src t Key Data).2.stats.TableSize_ = t.stats.TableSize_
    ∧ (insertBody src t Key Data).2.stats.Expansions_ = t.stats.Expansions_
    ∧ ((insertBody src t Key Data).1 = none →
        (insertBody src t Key Data).2.stats.Count_ = u32 (t.stats.Count_ + 1))
    ∧ ((insertBody src t Key Data).1 ≠ none →
        (insertBody src t Key Data).2.stats.Count_ = t.stats.Count_) := by
  rcases insertBody_cases src t Key Data with ⟨p, hp⟩ | ⟨p, idx, hp⟩
  · rw [hp]; simp
  · rw [hp]; simp [store]

/-- A property that is reflexive, transitive and holds across every insertion
holds across the loop that moves the slots over. -/
theorem moveSlots_induct (ins : OAHashTable T → List Nat → T → Option (Outcome T))
    (old : Nat → OAHTSlot T) (P : OAHashTable T → OAHashTable T → Prop)
    (hrefl : ∀ t, P t t) (htrans : ∀ a b c, P a b → P b c → P a c)
    (hins : ∀ t k d r, ins t k d = some r → P t r.2) :
    ∀ rem i t r, moveSlots ins old rem i t = some r → P t r.2 := by
  intro rem
  induction rem with
  | zero =>
    intro i t r h
    simp only [moveSlots, Option.some.injEq] at h
    subst h
    exact hrefl t
  | succ rem ih =>
    intro i t r h
    unfold moveSlots at h
    split at h
    · split at h
      · cases h
      · next e t1 heq =>
        simp only [Option.some.injEq] at h
        subst h
        exact hins _ _ _ _ heq
      · next t1 heq =>
        exact htrans _ _ _ (hins _ _ _ _ heq) (ih _ _ _ h)
    · exact ih _ _ _ h

/-- After `GrowTable` the capacity is a prime that is at least the closest
prime to the scaled old capacity, which fits `unsigned`, whatever the insertions
did, when each of them kept the configuration, did not shrink the table and
left its capacity unchanged or prime. -/
theorem GrowTableWith_post (ins : OAHashTable T → List Nat → T → Option (Outcome T))
    (alloc : Allocator T) (c : OAHTConfig)
    (hins : ∀ t k d r, t.config = c → ins t k d = some r →
      r.2.config = t.config ∧ t.stats.TableSize_ ≤ r.2.stats.TableSize_
        ∧ (r.2.stats.TableSize_ = t.stats.TableSize_ ∨ Nat.Prime r.2.stats.TableSize_))
    (t : OAHashTable T) (r : Outcome T) (hc : t.config = c)
    (h : GrowTableWith ins alloc t = some r) :
    r.2.config = t.config
    ∧ GetClosestPrime (ceilMul t.stats.TableSize_ t.config.GrowthFactor_) ≤ r.2.stats.TableSize_
    ∧ Nat.Prime r.2.stats.TableSize_
    ∧ GetClosestPrime (ceilMul t.stats.TableSize_ t.config.GrowthFactor_) < 4294967296 := by
  have hP := moveSlots_induct ins t.table
    (fun a b => a.config = c → b.config = a.config ∧ a.stats.TableSize_ ≤ b.stats.TableSize_
      ∧ (b.stats.TableSize_ = a.stats.TableSize_ ∨ Nat.Prime b.stats.TableSize_))
    (fun a _ => ⟨rfl, le_refl _, Or.inl rfl⟩)
    (fun a b c' hab hbc ha => by
      obtain ⟨hab1, hab2, hab3⟩ := hab ha
      obtain ⟨hbc1, hbc2, hbc3⟩ := hbc (hab1.trans ha)
      refine ⟨hbc1.trans hab1, le_trans hab2 hbc2, ?_⟩
      rcases hbc3 with h1 | h1
      · rcases hab3 with h2 | h2
        · exact Or.inl (h1.trans h2)
        · exact Or.inr (h1 ▸ h2)
      · exact Or.inr h1)
    (fun t k d r hr ht => hins t k d r ht hr)
  have hprime := (GetClosestPrime_spec (ceilMul t.stats.TableSize_ t.config.GrowthFactor_)).1
  unfold GrowTableWith at h
  simp only [] at h
  by_cases hN : 4294967296 ≤ GetClosestPrime (ceilMul t.stats.TableSize_ t.config.GrowthFactor_)
  · rw [if_pos hN] at h; cases h
  rw [if_neg hN] at h
  split at h
  · simp only [Option.some.injEq] at h
    subst h
    exact ⟨rfl, le_refl _, hprime, by omega⟩
  · next mem hmem =>
    split at h
    · cases h
    · next e t1 heq =>
      simp only [Option.some.injEq] at h
      subst h
      obtain ⟨h1, h2, h3⟩ := hP _ _ _ _ heq hc
      refine ⟨h1, h2, ?_, by omega⟩
      rcases h3 with h3 | h3
      · simp only [] at h3 ⊢; rw [h3]; exact hprime
      · exact h3
    · next t1 heq =>
      simp only [Option.some.injEq] at h
      subst h
      obtain ⟨h1, h2, h3⟩ := hP _ _ _ _ heq hc
      refine ⟨h1, h2, ?_, by omega⟩
      rcases h3 with h3 | h3
      · simp only [] at h3 ⊢; rw [h3]; exact hprime
      · exact h3

/-- A call of `insert` keeps the configuration and never shrinks the table; the
capacity is unchanged when the load factor is not exceeded, and otherwise it
becomes a prime that is at least the closest prime to the scaled capacity. -/
theorem insert_post (alloc : Allocator T) (c : OAHTConfig)
    (hgf : 0 < c.GrowthFactor_.den ∧ c.GrowthFactor_.den < c.GrowthFactor_.num) :
    ∀ (fuel : Nat) (src : Option Nat) (t : OAHashTable T) (Key : List Nat) (Data : T)
      (r : Outcome T), t.config = c → insert alloc fuel src t Key Data = some r →
      r.2.config = t.config ∧ t.stats.TableSize_ ≤ r.2.stats.TableSize_
      ∧ (loadExceeded t = false → r.2.stats.TableSize_ = t.stats.TableSize_
          ∧ r.2.stats.Expansions_ = t.stats.Expansions_)
      ∧ (loadExceeded t = true →
          GetClosestPrime (ceilMul t.stats.TableSize_ t.config.GrowthFactor_)
            ≤ r.2.stats.TableSize_ ∧ Nat.Prime r.2.stats.TableSize_) := by
  intro fuel
  induction fuel with
  | zero =>
    intro src t Key Data r hc h
    unfold insert at h
    split at h
    · cases h
    · next hl =>
      simp only [Option.some.injEq] at h
      subst h
      obtain ⟨h1, h2, h3, -⟩ := insertBody_frame src t Key Data
      exact ⟨h1, by omega, fun _ => ⟨h2, h3⟩, fun hl' => absurd hl' hl⟩
  | succ fuel ih =>
    intro src t Key Data r hc h
    unfold insert at h
    split at h
    · next hl =>
      have hins : ∀ (t : OAHashTable T) k d r, t.config = c →
          insert alloc fuel none t k d = some r →
          r.2.config = t.config ∧ t.stats.TableSize_ ≤ r.2.stats.TableSize_
            ∧ (r.2.stats.TableSize_ = t.stats.TableSize_ ∨ Nat.Prime r.2.stats.TableSize_) := by
        intro t k d r hc hr
        obtain ⟨h1, h2, h3, h4⟩ := ih none t k d r hc hr
        refine ⟨h1, h2, ?_⟩
        cases hl : loadExceeded t
        · exact Or.inl (h3 hl).1
        · exact Or.inr (h4 hl).2
      split at h
      · cases h
      · next e t1 heq =>
        simp only [Option.some.injEq] at h
        subst h
        obtain ⟨h1, h2, h3, h4⟩ := GrowTableWith_post _ alloc c hins t _ hc heq
        have hle := le_newSize t.stats.TableSize_ t.config.GrowthFactor_ (hc ▸ hgf.1)
          (hc ▸ hgf.2.le) h4
        exact ⟨h1, (by simp only [] at h2 ⊢; omega), fun hl' => (by rw [hl] at hl'; cases hl'),
          fun _ => ⟨h2, h3⟩⟩
      · next t1 heq =>
        split at h
        · simp only [Option.some.injEq] at h
          subst h
          obtain ⟨h1, h2, h3, h4⟩ := GrowTableWith_post _ alloc c hins t _ hc heq
          have hle := le_newSize t.stats.TableSize_ t.config.GrowthFactor_ (hc ▸ hgf.1)
            (hc ▸ hgf.2.le) h4
          obtain ⟨g1, g2, -⟩ := insertBody_frame none t1 Key Data
          simp only [] at h1 h2 h3
          refine ⟨g1.trans h1, (by rw [g2]; omega), fun hl' => (by rw [hl] at hl'; cases hl'),
            fun _ => ⟨by rw [g2]; exact h2, by rw [g2]; exact h3⟩⟩
        · cases h
    · next hl =>
      simp only [Option.some.injEq] at h
      subst h
      obtain ⟨h1, h2, h3, -⟩ := insertBody_frame src t Key Data
      exact ⟨h1, by omega, fun _ => ⟨h2, h3⟩, fun hl' => absurd hl' hl⟩

/-- When the load test fails for every count that the occupied slots still to
move can bring about, the loop that moves the slots over ends without growing
the table again. -/
theorem moveSlots_noregrow (alloc : Allocator T) (fuel : Nat) (old : Nat → OAHTSlot T) :
    ∀ (rem i : Nat) (t : OAHashTable T),
      (∀ c, c < t.stats.Count_ + numOccupied old rem i →
        withinLoad t.config.MaxLoadFactor_ (u32 (c + 1)) t.stats.TableSize_) →
      ∃ r, moveSlots (insert alloc fuel none) old rem i t = some r
        ∧ r.2.config = t.config ∧ r.2.stats.TableSize_ = t.stats.TableSize_
        ∧ r.2.stats.Count_ ≤ t.stats.Count_ + numOccupied old rem i
        ∧ r.2.stats.Expansions_ = t.stats.Expansions_ := by
  intro rem
  induction rem with
  | zero =>
    intro i t _
    exact ⟨(none, t), rfl, rfl, rfl, by simp [numOccupied], rfl⟩
  | succ rem ih =>
    intro i t h
    unfold moveSlots
    by_cases hocc : (old i).State = .OCCUPIED
    · rw [if_pos hocc]
      have hn : numOccupied old (rem + 1) i = 1 + numOccupied old rem (i + 1) := by
        simp [numOccupied, hocc]
      rw [hn] at h ⊢
      have hl : loadExceeded t = false :=
        (loadExceeded_eq_false_iff t).2 (h _ (by omega))
      rw [insert_of_not_loadExceeded alloc fuel none t _ _ hl]
      obtain ⟨f1, f2, f3, f4, f5⟩ := insertBody_frame none t (old i).Key (old i).Data
      generalize insertBody none t (old i).Key (old i).Data = res at f1 f2 f3 f4 f5
      obtain ⟨e, t1⟩ := res
      cases e with
      | some e =>
        refine ⟨(some e, t1), rfl, f1, f2, ?_, f3⟩
        have := f5 (by simp)
        simp only [] at this ⊢
        omega
      | none =>
        simp only [] at f1 f2 f3 f4 f5 ⊢
        have hc := f4 trivial
        have hle : t1.stats.Count_ ≤ t.stats.Count_ + 1 := by rw [hc]; exact u32_le _
        obtain ⟨r, hr, r1, r2, r3, r4⟩ := ih (i + 1) t1 (by
          intro c hc
          rw [f1, f2]
          exact h c (by omega))
        exact ⟨r, hr, r1.trans f1, r2.trans f2, by omega, r4.trans f3⟩
    · rw [if_neg hocc]
      have hn : numOccupied old (rem + 1) i = numOccupied old rem (i + 1) := by
        simp [numOccupied, hocc]
      rw [hn] at h ⊢
      exact ih (i + 1) t h

/-- When the new capacity fits `unsigned` and the load test fails on it for
every count below the number of occupied slots of the old array, `GrowTable`
ends with that capacity. -/
theorem GrowTableWith_noregrow (alloc : Allocator T) (fuel : Nat) (t : OAHashTable T)
    (hN : GetClosestPrime (ceilMul t.stats.TableSize_ t.config.GrowthFactor_) < 4294967296)
    (h : ∀ c, c < numOccupied t.table t.stats.TableSize_ 0 →
      withinLoad t.config.MaxLoadFactor_ (u32 (c + 1))
        (GetClosestPrime (ceilMul t.stats.TableSize_ t.config.GrowthFactor_))) :
    ∃ r, GrowTableWith (insert alloc fuel none) alloc t = some r
      ∧ r.2.config = t.config
      ∧ r.2.stats.TableSize_ = GetClosestPrime (ceilMul t.stats.TableSize_ t.config.GrowthFactor_)
      ∧ (r.1 = none → r.2.stats.Count_ ≤ numOccupied t.table t.stats.TableSize_ 0
          ∧ r.2.stats.Expansions_ = u32 (t.stats.Expansions_ + 1)) := by
  unfold GrowTableWith
  simp only []
  rw [if_neg (by omega)]
  cases hal : alloc (GetClosestPrime (ceilMul t.stats.TableSize_ t.config.GrowthFactor_)) with
  | none => exact ⟨_, rfl, rfl, rfl, by simp⟩
  | some mem =>
    simp only []
    obtain ⟨r, hr, r1, r2, r3, r4⟩ := moveSlots_noregrow alloc fuel t.table t.stats.TableSize_ 0
      { t with
        table := fun i =>
          if i < GetClosestPrime (ceilMul t.stats.TableSize_ t.config.GrowthFactor_) then
            { mem i with State := .UNOCCUPIED, probes := 0 }
          else mem i
        stats := { t.stats with
          TableSize_ := GetClosestPrime (ceilMul t.stats.TableSize_ t.config.GrowthFactor_)
          Count_ := 0 } } (by simpa using h)
    rw [hr]
    obtain ⟨e, t1⟩ := r
    cases e with
    | some e => exact ⟨_, rfl, r1, r2, by simp⟩
    | none =>
      refine ⟨_, rfl, r1, r2, fun _ => ⟨?_, ?_⟩⟩
      · simpa using r3
      · simp only [] at r4 ⊢; rw [r4]

/-- A call of `insert` that grows the table, when the new capacity fits
`unsigned` and the load test fails on it for every count below the number of
occupied slots of the old array: the call ends with the new capacity. -/
theorem insert_noregrow (alloc : Allocator T) (fuel : Nat)
    (t : OAHashTable T) (Key : List Nat) (Data : T) (hl : loadExceeded t = true)
    (hN : GetClosestPrime (ceilMul t.stats.TableSize_ t.config.GrowthFactor_) < 4294967296)
    (h : ∀ c, c < numOccupied t.table t.stats.TableSize_ 0 →
      withinLoad t.config.MaxLoadFactor_ (u32 (c + 1))
        (GetClosestPrime (ceilMul t.stats.TableSize_ t.config.GrowthFactor_))) :
    ∃ r, insert alloc (fuel + 1) none t Key Data = some r
      ∧ r.2.config = t.config
      ∧ r.2.stats.TableSize_ = GetClosestPrime (ceilMul t.stats.TableSize_ t.config.GrowthFactor_)
      ∧ (r.1 = none → r.2.stats.Count_ ≤ numOccupied t.table t.stats.TableSize_ 0 + 1
          ∧ r.2.stats.Expansions_ = u32 (t.stats.Expansions_ + 1)) := by
  obtain ⟨r, hr, r1, r2, r3⟩ := GrowTableWith_noregrow alloc fuel t hN h
  unfold insert
  rw [if_pos hl, hr]
  obtain ⟨e, t1⟩ := r
  cases e with
  | some e => exact ⟨_, rfl, r1, r2, by simp⟩
  | none =>
    obtain ⟨f1, f2, f3, f4, -⟩ := insertBody_frame none t1 Key Data
    simp only [] at r1 r2 r3 ⊢
    obtain ⟨r3a, r3b⟩ := r3 trivial
    refine ⟨_, rfl, f1.trans r1, f2.trans r2, fun hnone => ⟨?_, f3.trans r3b⟩⟩
    rw [f4 hnone]
    exact le_trans (u32_le _) (by omega)

/-- The load test of `insert`, read on the rationals: the rounded quotient is
above the load factor. -/
theorem loadExceeded_iff (t : OAHashTable T) (hsize : 0 < t.stats.TableSize_)
    (hden : 0 < t.config.MaxLoadFactor_.den) :
    loadExceeded t = true ↔
      (roundDouble (u32 (t.stats.Count_ + 1)) t.stats.TableSize_).toRat
        > t.config.MaxLoadFactor_.toRat := by
  have hd := roundDouble_den_pos (u32 (t.stats.Count_ + 1)) t.stats.TableSize_ hsize
  unfold loadExceeded Frac.toRat
  have hd1 : (0 : ℚ) < ((roundDouble (u32 (t.stats.Count_ + 1)) t.stats.TableSize_).den : ℚ) := by
    exact_mod_cast hd
  have hd2 : (0 : ℚ) < (t.config.MaxLoadFactor_.den : ℚ) := by exact_mod_cast hden
  rw [decide_eq_true_eq, gt_iff_lt, gt_iff_lt, div_lt_div_iff hd2 hd1]
  exact_mod_cast Iff.rfl

/-! ## Searches for a key that no slot holds -/

/-- Probe indices lie within a positive capacity. -/
theorem probe_lt (PIndex i SIndex n : Nat) (h : 0 < n) : probe PIndex i SIndex n < n :=
  Nat.mod_lt _ h

/-- The search loop of `find` finds nothing when no probed slot holds the key. -/
theorem findLoop_absent (t : OAHashTable T) (Key : List Nat) (PIndex SIndex : Nat)
    (habs : ∀ j, (t.table (probe PIndex j SIndex t.stats.TableSize_)).State = .OCCUPIED →
      strncmp Key (t.table (probe PIndex j SIndex t.stats.TableSize_)).Key t.config.MAX_KEYLEN
        = false) :
    ∀ rem i probes, (findLoop t Key PIndex SIndex rem i probes).1 = none := by
  intro rem
  induction rem with
  | zero => intro i probes; rfl
  | succ rem ih =>
    intro i probes
    unfold findLoop
    simp only []
    split
    · next h => have := habs i h.1; rw [h.2] at this; cases this
    · split
      · rfl
      · exact ih _ _

/-- The search loop of `remove` throws `E_ITEM_NOT_FOUND`, changing the probe
counter only, when no probed slot holds the key. -/
theorem removeLoop_absent (alloc : Allocator T) (fuel : Nat) (Key : List Nat)
    (PIndex SIndex : Nat) :
    ∀ (rem i : Nat) (t : OAHashTable T),
      (∀ j, (t.table (probe PIndex j SIndex t.stats.TableSize_)).State = .OCCUPIED →
        strncmp Key (t.table (probe PIndex j SIndex t.stats.TableSize_)).Key t.config.MAX_KEYLEN
          = false) →
      ∃ p, removeLoop alloc fuel Key PIndex SIndex rem i t
        = some (some .E_ITEM_NOT_FOUND, { t with stats := { t.stats with Probes_ := p } }) := by
  intro rem
  induction rem with
  | zero => intro i t _; exact ⟨t.stats.Probes_, rfl⟩
  | succ rem ih =>
    intro i t habs
    unfold removeLoop
    simp only []
    split
    · exact ⟨_, rfl⟩
    · split
      · next h => have := habs i h.1; rw [h.2] at this; cases this
      · obtain ⟨p, hp⟩ := ih (i + 1)
          { t with stats := { t.stats with Probes_ := u32 (t.stats.Probes_ + 1) } } habs
        exact ⟨p, hp⟩

/-- A key that no slot holds is not held by a probed slot. -/
theorem absent_probe (t : OAHashTable T) (Key : List Nat) (habs : ¬ holds t Key)
    (hsize : 0 < t.stats.TableSize_) (PIndex SIndex j : Nat) :
    (t.table (probe PIndex j SIndex t.stats.TableSize_)).State = .OCCUPIED →
      strncmp Key (t.table (probe PIndex j SIndex t.stats.TableSize_)).Key t.config.MAX_KEYLEN
        = false := by
  intro hocc
  by_contra hne
  exact habs ⟨_, probe_lt _ _ _ _ hsize, hocc, by simpa using hne⟩

/-- A freshly constructed table holds no key. -/
theorem not_holds_construct (Config : OAHTConfig) (alloc : Allocator T) (t : OAHashTable T)
    (h : construct Config alloc = .ok t) (Key : List Nat) : ¬ holds t Key := by
  unfold construct at h
  split at h
  · cases h
  · next mem hmem =>
    cases h
    rintro ⟨i, hi, hocc, -⟩
    simp only [] at hi hocc
    rw [if_pos hi] at hocc
    cases hocc

/-! ## Reachability of the tables of the worked examples -/

/-- An optional value mapped to `true` by a test is some value passing the test. -/
theorem exists_of_map_eq_true {α : Type} {o : Option α} {p : α → Bool}
    (h : o.map p = some true) : ∃ a, o = some a ∧ p a = true := by
  cases o with
  | none => simp at h
  | some a => exact ⟨a, rfl, by simpa using h⟩

/-- The table of `fresh` is the one the constructor returns. -/
theorem construct_of_fresh {c : OAHTConfig} {t : OAHashTable Nat} (h : fresh c = some t) :
    construct c zeroAlloc = .ok t := by
  unfold fresh at h
  split at h
  · next t0 h0 => cases h; exact h0
  · simp at h

/-- The configuration `markConfig` is valid. -/
theorem validConfig_markConfig : ValidConfig markConfig :=
  ⟨by norm_num [markConfig], by decide, by decide, by decide, by decide⟩

/-- The hash of `markConfig` is in range. -/
theorem hashInRange_markConfig : HashInRange markConfig :=
  ⟨fun _ _ hm => hm, fun h hh => by simp [markConfig] at hh⟩

/-- The configuration `packConfig` is valid. -/
theorem validConfig_packConfig : ValidConfig packConfig :=
  ⟨by norm_num [packConfig, markConfig], by decide, by decide, by decide, by decide⟩

/-- The hashes of `packConfig` are in range. -/
theorem hashInRange_packConfig : HashInRange packConfig := by
  refine ⟨fun _ _ hm => hm, fun h hh k m hm => ?_⟩
  simp only [packConfig, Option.some.injEq] at hh
  subst hh
  simp only []
  split
  · exact Nat.mod_lt _ hm
  · exact hm

/-- The configuration `slowGrowthConfig` is valid. -/
theorem validConfig_slowGrowthConfig : ValidConfig slowGrowthConfig :=
  ⟨by norm_num [slowGrowthConfig, markConfig], by decide, by decide, by decide, by decide⟩

/-- The hash of `slowGrowthConfig` is in range. -/
theorem hashInRange_slowGrowthConfig : HashInRange slowGrowthConfig :=
  ⟨fun _ _ hm => hm, fun h hh => by simp [slowGrowthConfig, markConfig] at hh⟩

/-- The configuration `roundingConfig` is valid. -/
theorem validConfig_roundingConfig : ValidConfig roundingConfig :=
  ⟨by norm_num [roundingConfig, markConfig], by decide, by decide, by decide, by decide⟩

/-- The hash of `roundingConfig` is in range. -/
theorem hashInRange_roundingConfig : HashInRange roundingConfig :=
  ⟨fun _ _ hm => hm, fun h hh => by simp [roundingConfig, markConfig] at hh⟩

/-- A freshly constructed table is reachable. -/
theorem Reachable.of_fresh {c : OAHTConfig} {t : OAHashTable Nat} (h : fresh c = some t) :
    Reachable c t := by
  unfold fresh at h
  split at h
  · next t0 h0 =>
    cases h
    exact Reachable.construct zeroAlloc _ h0
  · simp at h

/-- Replaying calls on a reachable table gives a reachable table. -/
theorem Reachable.of_replay {T : Type} {c : OAHTConfig} (alloc : Allocator T) (fuel : Nat) :
    ∀ (cs : List (Call T)) (s s' : OAHashTable T × List (List Nat × T)),
      Reachable c s.1 → replay alloc fuel cs s = some s' → Reachable c s'.1 := by
  intro cs
  induction cs with
  | nil => intro s s' hs h; simp [replay] at h; subst h; exact hs
  | cons call cs ih =>
    intro s s' hs h
    obtain ⟨t, m⟩ := s
    cases call with
    | insert Key Data =>
      simp only [replay] at h
      split at h
      · simp at h
      · next t1 heq => exact ih _ _ (Reachable.insert alloc fuel Key Data t _ hs heq) h
      · next e t1 heq => exact ih _ _ (Reachable.insert alloc fuel Key Data t _ hs heq) h
    | remove Key =>
      simp only [replay] at h
      split at h
      · simp at h
      · next t1 heq => exact ih _ _ (Reachable.remove alloc fuel Key t _ hs heq) h
      · next e t1 heq => exact ih _ _ (Reachable.remove alloc fuel Key t _ hs heq) h

/-- The table after a sequence of calls on a fresh table is reachable. -/
theorem Reachable.of_runCalls {c : OAHTConfig} (fuel : Nat) (cs : List (Call Nat))
    {t : OAHashTable Nat} (h : (fresh c).bind (runCalls zeroAlloc fuel cs) = some t) :
    Reachable c t := by
  cases h0 : fresh c with
  | none => simp [h0] at h
  | some t0 =>
    simp only [h0, Option.some_bind, runCalls, Option.map_eq_some'] at h
    obtain ⟨s', hs', rfl⟩ := h
    exact Reachable.of_replay zeroAlloc fuel cs (t0, []) s' (Reachable.of_fresh h0) hs'


/-- No slot of the table holding "a" and "b" holds the key "c". -/
theorem not_holds_tableAB_keyC : ¬ holds tableAB keyC := by
  rintro ⟨i, hi, hocc, hcmp⟩
  have hi' : i < 7 := hi
  interval_cases i <;>
    first
    | exact absurd hocc (by decide)
    | exact absurd hcmp (by decide)

/-! ## The claims on the hash table -/

/-- Claim C1, evaluated on the code: `markConfig` is a valid configuration with
a hash in range; on a fresh table the calls insert("a", 1), insert("b", 2),
remove("a"), insert("b", 3), remove("b") all return normally, the reference map
kept beside the table no longer has the key "b" after them, and yet find("b")
succeeds on the table, with the value 2. -/
theorem find_disagrees_with_replay :
    ValidConfig markConfig ∧ HashInRange markConfig
      ∧ ∃ (t0 t : OAHashTable Nat) (m : List (List Nat × Nat)),
        construct markConfig zeroAlloc = .ok t0
        ∧ replay zeroAlloc 0
            [.insert keyA 1, .insert keyB 2, .remove keyA, .insert keyB 3, .remove keyB]
            (t0, []) = some (t, m)
        ∧ m.lookup keyB = none
        ∧ (find t keyB).1 = .ok 2 := by
  refine ⟨validConfig_markConfig, hashInRange_markConfig, ?_⟩
  obtain ⟨t0, h0, hp⟩ := exists_of_map_eq_true
    (o := fresh markConfig)
    (p := fun t0 =>
      match replay zeroAlloc 0
        [.insert keyA 1, .insert keyB 2, .remove keyA, .insert keyB 3, .remove keyB]
        (t0, []) with
      | some s => decide (s.2.lookup keyB = none) && decide ((find s.1 keyB).1 = .ok 2)
      | none => false)
    (by decide)
  split at hp
  · next s heq =>
    simp only [Bool.and_eq_true, decide_eq_true_eq] at hp
    exact ⟨t0, s.1, s.2, construct_of_fresh h0, heq, hp.1, hp.2⟩
  · simp at hp

/-- Claim C2, evaluated on the code: after insert("a", 1), insert("b", 2) and
remove("a") under the MARK policy, the key "b" is held by the occupied slot 1,
and yet insert("b", 3) returns normally and the count goes up by one. -/
theorem insert_held_key_succeeds :
    ∃ t t' : OAHashTable Nat, Reachable markConfig t ∧ holdsAt t keyB 1
      ∧ insert zeroAlloc 0 none t keyB 3 = some (none, t')
      ∧ t'.stats.Count_ = t.stats.Count_ + 1 := by
  obtain ⟨t, ht, hp⟩ := exists_of_map_eq_true
    (o := (fresh markConfig).bind
      (runCalls zeroAlloc 0 [.insert keyA 1, .insert keyB 2, .remove keyA]))
    (p := fun t => decide (1 < t.stats.TableSize_) && decide ((t.table 1).State = .OCCUPIED)
      && strncmp keyB (t.table 1).Key t.config.MAX_KEYLEN
      && (match insert zeroAlloc 0 none t keyB 3 with
          | some (none, t') => decide (t'.stats.Count_ = t.stats.Count_ + 1)
          | _ => false)) (by decide)
  simp only [Bool.and_eq_true, decide_eq_true_eq] at hp
  obtain ⟨⟨⟨h1, h2⟩, h3⟩, h4⟩ := hp
  split at h4
  · next t' heq =>
    exact ⟨t, t', Reachable.of_runCalls 0 _ ht, ⟨h1, h2, h3⟩, heq, by simpa using h4⟩
  · simp at h4

/-- Claim C3, evaluated on the code: after insert("a", 1), insert("b", 2),
remove("a") and insert("b", 3) under the MARK policy, the occupied slots 0 and
1 both hold the key "b". -/
theorem duplicate_keys_reachable :
    ∃ t : OAHashTable Nat, Reachable markConfig t ∧ holdsAt t keyB 0 ∧ holdsAt t keyB 1 := by
  obtain ⟨t, ht, hp⟩ := exists_of_map_eq_true
    (o := (fresh markConfig).bind
      (runCalls zeroAlloc 0 [.insert keyA 1, .insert keyB 2, .remove keyA, .insert keyB 3]))
    (p := fun t => decide (1 < t.stats.TableSize_)
      && decide ((t.table 0).State = .OCCUPIED)
      && strncmp keyB (t.table 0).Key t.config.MAX_KEYLEN
      && decide ((t.table 1).State = .OCCUPIED)
      && strncmp keyB (t.table 1).Key t.config.MAX_KEYLEN) (by decide)
  simp only [Bool.and_eq_true, decide_eq_true_eq] at hp
  obtain ⟨⟨⟨⟨h1, h2⟩, h3⟩, h4⟩, h5⟩ := hp
  exact ⟨t, Reachable.of_runCalls 0 _ ht, ⟨by omega, h2, h3⟩, ⟨h1, h4, h5⟩⟩

/-- Claim C4, evaluated on the code: under the valid `packConfig`, PACK policy
with a secondary hash that gives "a" the step 1 and "b" the step 3, after insert("a", 1) and
insert("b", 2) the call find("b") returns 2; remove("a") succeeds, and
afterwards find("b") throws `E_ITEM_NOT_FOUND`. -/
theorem pack_remove_loses_key :
    ValidConfig packConfig ∧ HashInRange packConfig
      ∧ ∃ t t' : OAHashTable Nat, Reachable packConfig t ∧ (find t keyB).1 = .ok 2
        ∧ remove zeroAlloc 7 t keyA = some (none, t')
        ∧ (find t' keyB).1 = .error .E_ITEM_NOT_FOUND := by
  refine ⟨validConfig_packConfig, hashInRange_packConfig, ?_⟩
  obtain ⟨t, ht, hp⟩ := exists_of_map_eq_true
    (o := (fresh packConfig).bind (runCalls zeroAlloc 0 [.insert keyA 1, .insert keyB 2]))
    (p := fun t => decide ((find t keyB).1 = .ok 2)
      && (match remove zeroAlloc 7 t keyA with
          | some (none, t') => decide ((find t' keyB).1 = .error .E_ITEM_NOT_FOUND)
          | _ => false)) (by decide)
  simp only [Bool.and_eq_true, decide_eq_true_eq] at hp
  obtain ⟨h1, h2⟩ := hp
  split at h2
  · next t' heq => exact ⟨t, t', Reachable.of_runCalls 0 _ ht, h1, heq, by simpa using h2⟩
  · simp at h2

/-- Claim C5, evaluated on the code: on the table of capacity 7 holding "a",
"b" and "c" (load factor 1/2, growth factor 2), insert("d", 4) with a failing
allocator throws `E_NO_MEMORY` and leaves `TableSize_` at 17. -/
theorem failed_growth_changes_capacity :
    ∃ t t' : OAHashTable Nat, Reachable markConfig t ∧ t.stats.TableSize_ = 7
      ∧ insert failAlloc 1 none t keyD 4 = some (some .E_NO_MEMORY, t')
      ∧ t'.stats.TableSize_ = 17 := by
  obtain ⟨t, ht, hp⟩ := exists_of_map_eq_true
    (o := (fresh markConfig).bind
      (runCalls zeroAlloc 0 [.insert keyA 1, .insert keyB 2, .insert keyC 3]))
    (p := fun t => decide (t.stats.TableSize_ = 7)
      && (match insert failAlloc 1 none t keyD 4 with
          | some (some .E_NO_MEMORY, t') => decide (t'.stats.TableSize_ = 17)
          | _ => false)) (by decide)
  simp only [Bool.and_eq_true, decide_eq_true_eq] at hp
  obtain ⟨h1, h2⟩ := hp
  split at h2
  · next t' heq => exact ⟨t, t', Reachable.of_runCalls 0 _ ht, h1, heq, by simpa using h2⟩
  · simp at h2

/-- Claim C6 fails as stated: on the table of capacity 7 holding "a", "b" and
"c" (load factor 1/2), insert("a", 9) throws `E_DUPLICATE` after the table has
grown: the capacity went from 7 to 17 and `Expansions_` from 0 to 1. -/
theorem duplicate_after_growth_changes_table :
    ∃ t t' : OAHashTable Nat, Reachable markConfig t ∧ holdsAt t keyA 0
      ∧ insert zeroAlloc 1 none t keyA 9 = some (some .E_DUPLICATE, t')
      ∧ t.stats.TableSize_ = 7 ∧ t'.stats.TableSize_ = 17
      ∧ t.stats.Expansions_ = 0 ∧ t'.stats.Expansions_ = 1 := by
  obtain ⟨t, ht, hp⟩ := exists_of_map_eq_true
    (o := (fresh markConfig).bind
      (runCalls zeroAlloc 0 [.insert keyA 1, .insert keyB 2, .insert keyC 3]))
    (p := fun t => decide (0 < t.stats.TableSize_ ∧ (t.table 0).State = .OCCUPIED
        ∧ strncmp keyA (t.table 0).Key t.config.MAX_KEYLEN = true)
      && (match insert zeroAlloc 1 none t keyA 9 with
          | some (some .E_DUPLICATE, t') => decide (t.stats.TableSize_ = 7
              ∧ t'.stats.TableSize_ = 17 ∧ t.stats.Expansions_ = 0 ∧ t'.stats.Expansions_ = 1)
          | _ => false)) (by decide)
  simp only [Bool.and_eq_true, decide_eq_true_eq] at hp
  obtain ⟨h1, h2⟩ := hp
  split at h2
  · next t' heq =>
    simp only [decide_eq_true_eq] at h2
    exact ⟨t, t', Reachable.of_runCalls 0 _ ht, h1, heq, h2⟩
  · simp at h2

/-- Claim C6, amended: for every table and key, when the call triggers no
growth and `insert` throws `E_DUPLICATE`, the table after the call is the table
before it with another value of `Probes_`: capacity, count, expansions and every
slot are unchanged. -/
theorem insert_duplicate_without_growth (alloc : Allocator T) (fuel : Nat)
    (t t' : OAHashTable T) (Key : List Nat) (Data : T)
    (hload : loadExceeded t = false)
    (h : insert alloc fuel none t Key Data = some (some .E_DUPLICATE, t')) :
    ∃ p, t' = { t with stats := { t.stats with Probes_ := p } } := by
  rw [insert_of_not_loadExceeded alloc fuel none t Key Data hload] at h
  rcases insertBody_cases none t Key Data with ⟨p, hp⟩ | ⟨p, idx, hp⟩
  · rw [hp] at h
    simp only [Option.some.injEq, Prod.mk.injEq, true_and] at h
    exact ⟨p, h.symm⟩
  · rw [hp] at h
    simp at h

/-- The amended claim C6 on the table holding "a" and "b": insert("b", 9)
triggers no growth and throws `E_DUPLICATE` after two probes. -/
theorem insert_duplicate_without_growth_witness :
    loadExceeded tableAB = false
      ∧ insert zeroAlloc 0 none tableAB keyB 9
        = some (some .E_DUPLICATE, { tableAB with stats := { tableAB.stats with Probes_ := 5 } })
      ∧ ∃ p, ({ tableAB with stats := { tableAB.stats with Probes_ := 5 } } : OAHashTable Nat)
        = { tableAB with stats := { tableAB.stats with Probes_ := p } } :=
  ⟨by decide, rfl,
    insert_duplicate_without_growth zeroAlloc 0 tableAB _ keyB 9 (by decide) rfl⟩

/-- Claim C7, evaluated on the code: with `MAX_KEYLEN = 10`, inserting the
ten-character key "0123456789" into a fresh table succeeds with count 1, but
the slot stores only the first nine characters, the stored key does not compare
equal to the caller's key over `MAX_KEYLEN` characters, and the following find
throws `E_ITEM_NOT_FOUND`. -/
theorem full_length_key_not_found :
    ∃ t t' : OAHashTable Nat, fresh markConfig = some t
      ∧ keyTen.length = t.config.MAX_KEYLEN
      ∧ insert zeroAlloc 0 none t keyTen 5 = some (none, t')
      ∧ t'.stats.Count_ = 1
      ∧ (t'.table 0).State = .OCCUPIED
      ∧ (t'.table 0).Key = [48, 49, 50, 51, 52, 53, 54, 55, 56, 0]
      ∧ strncmp keyTen (t'.table 0).Key t'.config.MAX_KEYLEN = false
      ∧ (find t' keyTen).1 = .error .E_ITEM_NOT_FOUND := by
  obtain ⟨t, ht, hp⟩ := exists_of_map_eq_true
    (o := fresh markConfig)
    (p := fun t => decide (keyTen.length = t.config.MAX_KEYLEN)
      && (match insert zeroAlloc 0 none t keyTen 5 with
          | some (none, t') => decide (t'.stats.Count_ = 1
              ∧ (t'.table 0).State = .OCCUPIED
              ∧ (t'.table 0).Key = [48, 49, 50, 51, 52, 53, 54, 55, 56, 0]
              ∧ strncmp keyTen (t'.table 0).Key t'.config.MAX_KEYLEN = false
              ∧ (find t' keyTen).1 = .error .E_ITEM_NOT_FOUND)
          | _ => false)) (by decide)
  simp only [Bool.and_eq_true, decide_eq_true_eq] at hp
  obtain ⟨h1, h2⟩ := hp
  split at h2
  · next t' heq =>
    simp only [decide_eq_true_eq] at h2
    exact ⟨t, t', ht, h1, heq, h2⟩
  · simp at h2

/-- A growth that has a result computed a capacity that fits `unsigned`. -/
theorem GrowTableWith_fits {ins : OAHashTable T → List Nat → T → Option (Outcome T)}
    {alloc : Allocator T} {t : OAHashTable T} {r : Outcome T}
    (h : GrowTableWith ins alloc t = some r) :
    GetClosestPrime (ceilMul t.stats.TableSize_ t.config.GrowthFactor_) < 4294967296 := by
  unfold GrowTableWith at h
  simp only [] at h
  by_cases hN : 4294967296 ≤ GetClosestPrime (ceilMul t.stats.TableSize_ t.config.GrowthFactor_)
  · rw [if_pos hN] at h; cases h
  · omega

/-- A call of `insert` that grows the table and has a result computed a
capacity that fits `unsigned`. -/
theorem insert_fits {alloc : Allocator T} {fuel : Nat} {src : Option Nat} {t : OAHashTable T}
    {Key : List Nat} {Data : T} {r : Outcome T} (hl : loadExceeded t = true)
    (h : insert alloc fuel src t Key Data = some r) :
    GetClosestPrime (ceilMul t.stats.TableSize_ t.config.GrowthFactor_) < 4294967296 := by
  cases fuel with
  | zero => simp [insert, hl] at h
  | succ fuel =>
    unfold insert at h
    rw [if_pos hl] at h
    split at h
    · cases h
    · next heq => exact GrowTableWith_fits heq
    · next heq => exact GrowTableWith_fits heq

/-- Claim C8 fails as stated.  Under the valid `slowGrowthConfig` (capacity 7,
load factor 1/16, growth factor 9/8) the first insert on the fresh table
succeeds after one growth to capacity 11, and then `Count / Capacity = 1/11` is
above the load factor.  Under the valid `roundingConfig` (capacity 3, load
factor the `double` nearest to 1/3) the first insert on the fresh table
succeeds without growth, the quotient `1 / 3.0` being the load factor itself,
and then `Count / Capacity = 1/3` is above the load factor. -/
theorem load_factor_exceeded_after_insert :
    (ValidConfig slowGrowthConfig ∧ HashInRange slowGrowthConfig
      ∧ ∃ t t' : OAHashTable Nat, Reachable slowGrowthConfig t
        ∧ insert zeroAlloc 1 none t keyA 1 = some (none, t')
        ∧ ¬ ((t'.stats.Count_ : ℚ) / (t'.stats.TableSize_ : ℚ)
            ≤ t'.config.MaxLoadFactor_.toRat))
    ∧ (ValidConfig roundingConfig ∧ HashInRange roundingConfig
      ∧ ∃ t t' : OAHashTable Nat, Reachable roundingConfig t
        ∧ insert zeroAlloc 1 none t keyA 1 = some (none, t')
        ∧ t'.stats.TableSize_ = t.stats.TableSize_
        ∧ ¬ ((t'.stats.Count_ : ℚ) / (t'.stats.TableSize_ : ℚ)
            ≤ t'.config.MaxLoadFactor_.toRat)) := by
  refine ⟨⟨validConfig_slowGrowthConfig, hashInRange_slowGrowthConfig, ?_⟩,
    ⟨validConfig_roundingConfig, hashInRange_roundingConfig, ?_⟩⟩
  · obtain ⟨t, ht, hp⟩ := exists_of_map_eq_true
      (o := (fresh slowGrowthConfig).bind (runCalls zeroAlloc 0 []))
      (p := fun t => match insert zeroAlloc 1 none t keyA 1 with
        | some (none, t') => decide (t'.stats.Count_ = 1 ∧ t'.stats.TableSize_ = 11
            ∧ t'.config.MaxLoadFactor_ = ⟨1, 16⟩)
        | _ => false) (by decide)
    split at hp
    · next t' heq =>
      simp only [decide_eq_true_eq] at hp
      obtain ⟨h1, h2, h3⟩ := hp
      refine ⟨t, t', Reachable.of_runCalls 0 _ ht, heq, ?_⟩
      rw [h1, h2, h3]
      norm_num [Frac.toRat]
    · simp at hp
  · obtain ⟨t, ht, hp⟩ := exists_of_map_eq_true
      (o := (fresh roundingConfig).bind (runCalls zeroAlloc 0 []))
      (p := fun t => match insert zeroAlloc 1 none t keyA 1 with
        | some (none, t') => decide (t'.stats.Count_ = 1 ∧ t'.stats.TableSize_ = 3
            ∧ t.stats.TableSize_ = 3
            ∧ t'.config.MaxLoadFactor_ = ⟨6004799503160661, 18014398509481984⟩)
        | _ => false) (by decide)
    split at hp
    · next t' heq =>
      simp only [decide_eq_true_eq] at hp
      obtain ⟨h1, h2, h3, h4⟩ := hp
      refine ⟨t, t', Reachable.of_runCalls 0 _ ht, heq, h2.trans h3.symm, ?_⟩
      rw [h1, h2, h4]
      norm_num [Frac.toRat]
    · simp at hp

/-- Claim C8, amended: for every table of positive capacity whose count, an
`unsigned`, is at least the number of its occupied slots, after a successful
insert the capacity is positive and `Count / Capacity`, computed in `double`
arithmetic as the load test of `insert` computes it, is within the load factor,
provided that the call did not grow the table or that on the capacity it grows
to, the closest prime to the scaled capacity, the quotient
`(Count + 1) / newCapacity` so computed is within the load factor. -/
theorem load_factor_after_insert (alloc : Allocator T) (fuel : Nat) (t t' : OAHashTable T)
    (Key : List Nat) (Data : T)
    (hsize : 0 < t.stats.TableSize_) (hcount : t.stats.Count_ < 4294967296)
    (hocc : numOccupied t.table t.stats.TableSize_ 0 ≤ t.stats.Count_)
    (hroom : loadExceeded t = true →
      withinLoad t.config.MaxLoadFactor_ (t.stats.Count_ + 1)
        (GetClosestPrime (ceilMul t.stats.TableSize_ t.config.GrowthFactor_)))
    (h : insert alloc fuel none t Key Data = some (none, t')) :
    0 < t'.stats.TableSize_
      ∧ withinLoad t'.config.MaxLoadFactor_ t'.stats.Count_ t'.stats.TableSize_ := by
  cases hl : loadExceeded t with
  | false =>
    rw [insert_of_not_loadExceeded alloc fuel none t Key Data hl] at h
    obtain ⟨f1, f2, -, f4, -⟩ := insertBody_frame none t Key Data
    simp only [Option.some.injEq] at h
    rw [h] at f1 f2 f4
    simp only [] at f1 f2 f4
    have hc := f4 trivial
    refine ⟨by omega, ?_⟩
    rw [f1, f2, hc]
    exact (loadExceeded_eq_false_iff t).1 hl
  | true =>
    have hN := insert_fits hl h
    have hC := (GetClosestPrime_spec (ceilMul t.stats.TableSize_ t.config.GrowthFactor_)).1
    cases fuel with
    | zero => simp [insert, hl] at h
    | succ fuel =>
      obtain ⟨r, hr, r1, r2, r3⟩ := insert_noregrow alloc fuel t Key Data hl hN
        (fun c hc => withinLoad_mono _ hC.pos (le_trans (u32_le _) (by omega)) (by omega)
          (hroom hl))
      rw [h] at hr
      simp only [Option.some.injEq] at hr
      subst hr
      simp only [] at r1 r2 r3
      obtain ⟨r3, -⟩ := r3 trivial
      refine ⟨by rw [r2]; exact hC.pos, ?_⟩
      rw [r1, r2]
      exact withinLoad_mono _ hC.pos (by omega) (by omega) (hroom hl)

/-- The amended claim C8 on the table of capacity 7 holding "a", "b" and "c"
(load factor 1/2, growth factor 2): insert("d", 4) grows the table to capacity
17 and succeeds with count 4, and 4/17 is within the load factor. -/
theorem load_factor_after_insert_witness :
    insert zeroAlloc 1 none tableABC keyD 4 = some (none, tableABCD)
      ∧ loadExceeded tableABC = true
      ∧ tableABCD.stats.Count_ = 4 ∧ tableABCD.stats.TableSize_ = 17
      ∧ (0 < tableABCD.stats.TableSize_
        ∧ withinLoad tableABCD.config.MaxLoadFactor_ tableABCD.stats.Count_
            tableABCD.stats.TableSize_) :=
  ⟨rfl, by decide, by decide, by decide,
    load_factor_after_insert zeroAlloc 1 tableABC tableABCD keyD 4 (by decide) (by decide)
      (by decide) (fun _ => by decide) rfl⟩

/-- Claim C9: for every table and every key that no occupied slot holds, remove
and find both throw `E_ITEM_NOT_FOUND`, and the table after the failed call is
the table before it with another value of `Probes_` (count, capacity, expansions
and every slot are unchanged); and remove on a freshly constructed table throws
`E_ITEM_NOT_FOUND`. -/
theorem remove_find_absent (alloc : Allocator T) (fuel : Nat) (t : OAHashTable T)
    (Key : List Nat) (habs : ¬ holds t Key) :
    (∃ p, remove alloc fuel t Key
        = some (some .E_ITEM_NOT_FOUND, { t with stats := { t.stats with Probes_ := p } }))
    ∧ (∃ p, find t Key
        = (.error .E_ITEM_NOT_FOUND, { t with stats := { t.stats with Probes_ := p } }))
    ∧ (∀ (Config : OAHTConfig) (alloc0 : Allocator T) (t0 : OAHashTable T),
        construct Config alloc0 = .ok t0 →
        ∃ p, remove alloc fuel t0 Key
          = some (some .E_ITEM_NOT_FOUND, { t0 with stats := { t0.stats with Probes_ := p } })) := by
  have key : ∀ t : OAHashTable T, ¬ holds t Key →
      (∃ p, remove alloc fuel t Key
          = some (some .E_ITEM_NOT_FOUND, { t with stats := { t.stats with Probes_ := p } }))
      ∧ (∃ p, find t Key
          = (.error .E_ITEM_NOT_FOUND, { t with stats := { t.stats with Probes_ := p } })) := by
    intro t habs
    rcases Nat.eq_zero_or_pos t.stats.TableSize_ with h0 | hpos
    · constructor
      · refine ⟨t.stats.Probes_, ?_⟩
        have key : ∀ n P S, n = 0 → removeLoop alloc fuel Key P S n 0 t
            = some (some .E_ITEM_NOT_FOUND, t) := by
          intro n P S hn; subst hn; rfl
        exact key _ _ _ h0
      · refine ⟨t.stats.Probes_, ?_⟩
        have key : ∀ n P S, n = 0 → findLoop t Key P S n 0 t.stats.Probes_
            = (none, t.stats.Probes_) := by
          intro n P S hn; subst hn; rfl
        unfold find
        simp only []
        rw [key _ _ _ h0]
    · constructor
      · exact removeLoop_absent alloc fuel Key _ _ _ 0 t (absent_probe t Key habs hpos _ _)
      · unfold find
        have h := findLoop_absent t Key
          (t.stats.PrimaryHashFunc_ (c_str Key) t.stats.TableSize_)
          (stepOf t.stats.SecondaryHashFunc_ Key t.stats.TableSize_)
          (absent_probe t Key habs hpos _ _) t.stats.TableSize_ 0 t.stats.Probes_
        simp only []
        split
        · next d probes heq => rw [heq] at h; cases h
        · next probes heq => exact ⟨probes, rfl⟩
  exact ⟨(key t habs).1, (key t habs).2,
    fun Config alloc0 t0 h0 => (key t0 (not_holds_construct Config alloc0 t0 h0 Key)).1⟩

/-- Claim C9 on the table holding "a" and "b": no slot holds "c"; remove("c")
and find("c") throw `E_ITEM_NOT_FOUND` after three probes each. -/
theorem remove_find_absent_witness :
    ¬ holds tableAB keyC
      ∧ remove zeroAlloc 0 tableAB keyC = some (some .E_ITEM_NOT_FOUND,
          { tableAB with stats := { tableAB.stats with Probes_ := 6 } })
      ∧ (∃ p, remove zeroAlloc 0 tableAB keyC = some (some .E_ITEM_NOT_FOUND,
          { tableAB with stats := { tableAB.stats with Probes_ := p } }))
      ∧ (∃ p, find tableAB keyC = (.error .E_ITEM_NOT_FOUND,
          { tableAB with stats := { tableAB.stats with Probes_ := p } })) :=
  ⟨not_holds_tableAB_keyC, rfl,
    (remove_find_absent zeroAlloc 0 tableAB keyC not_holds_tableAB_keyC).1,
    (remove_find_absent zeroAlloc 0 tableAB keyC not_holds_tableAB_keyC).2.1⟩

/-- Claim C10 fails as stated.  Under the valid `slowGrowthConfig` (load factor
1/16, growth factor 9/8), on the table of capacity 11 holding "a", the call
insert("b", 2) grows the table, and the capacity after the call is 17, not
`GetClosestPrime(ceil(11 * 9/8)) = 13`: re-inserting "a" grew the table again.
Under the valid `roundingConfig` (capacity 3, load factor the `double` nearest
to 1/3, growth factor the `double` nearest to 5/3), on the fresh table
`(Count + 1) / Capacity = 1/3` is above the load factor and insert("a", 1) does
not grow the table; and on the table it leaves, insert("b", 2) grows the table
to capacity 5, below `ceil(3 * GrowthFactor) = 6`. -/
theorem growth_test_and_capacity_differ :
    (ValidConfig slowGrowthConfig ∧ HashInRange slowGrowthConfig
      ∧ ∃ t t' : OAHashTable Nat, Reachable slowGrowthConfig t
        ∧ loadExceeded t = true
        ∧ insert zeroAlloc 2 none t keyB 2 = some (none, t')
        ∧ GetClosestPrime (ceilMul t.stats.TableSize_ t.config.GrowthFactor_) = 13
        ∧ t'.stats.TableSize_ = 17)
    ∧ (ValidConfig roundingConfig ∧ HashInRange roundingConfig
      ∧ ∃ t t1 t2 : OAHashTable Nat, Reachable roundingConfig t
        ∧ ((t.stats.Count_ + 1 : ℕ) : ℚ) / (t.stats.TableSize_ : ℚ)
            > t.config.MaxLoadFactor_.toRat
        ∧ insert zeroAlloc 1 none t keyA 1 = some (none, t1)
        ∧ t1.stats.TableSize_ = t.stats.TableSize_ ∧ t1.stats.Expansions_ = t.stats.Expansions_
        ∧ insert zeroAlloc 1 none t1 keyB 2 = some (none, t2)
        ∧ t2.stats.Expansions_ = t1.stats.Expansions_ + 1
        ∧ (t2.stats.TableSize_ : ℤ)
            < ⌈(t1.stats.TableSize_ : ℚ) * t1.config.GrowthFactor_.toRat⌉) := by
  refine ⟨⟨validConfig_slowGrowthConfig, hashInRange_slowGrowthConfig, ?_⟩,
    ⟨validConfig_roundingConfig, hashInRange_roundingConfig, ?_⟩⟩
  · obtain ⟨t, ht, hp⟩ := exists_of_map_eq_true
      (o := (fresh slowGrowthConfig).bind (runCalls zeroAlloc 1 [.insert keyA 1]))
      (p := fun t => loadExceeded t
        && decide (GetClosestPrime (ceilMul t.stats.TableSize_ t.config.GrowthFactor_) = 13)
        && (match insert zeroAlloc 2 none t keyB 2 with
            | some (none, t') => decide (t'.stats.TableSize_ = 17)
            | _ => false)) (by decide)
    simp only [Bool.and_eq_true, decide_eq_true_eq] at hp
    obtain ⟨⟨h1, h2⟩, h3⟩ := hp
    split at h3
    · next t' heq =>
      exact ⟨t, t', Reachable.of_runCalls 1 _ ht, h1, heq, h2, by simpa using h3⟩
    · simp at h3
  · obtain ⟨t, ht, hp⟩ := exists_of_map_eq_true
      (o := (fresh roundingConfig).bind (runCalls zeroAlloc 0 []))
      (p := fun t => decide (t.stats.Count_ = 0 ∧ t.stats.TableSize_ = 3
          ∧ t.config.MaxLoadFactor_ = ⟨6004799503160661, 18014398509481984⟩)
        && (match insert zeroAlloc 1 none t keyA 1 with
            | some (none, t1) => decide (t1.stats.TableSize_ = t.stats.TableSize_
                ∧ t1.stats.Expansions_ = t.stats.Expansions_ ∧ t1.stats.TableSize_ = 3
                ∧ t1.config.GrowthFactor_ = ⟨7505999378950827, 4503599627370496⟩)
              && (match insert zeroAlloc 1 none t1 keyB 2 with
                  | some (none, t2) => decide (t2.stats.Expansions_ = t1.stats.Expansions_ + 1
                      ∧ t2.stats.TableSize_ = 5)
                  | _ => false)
            | _ => false)) (by decide)
    simp only [Bool.and_eq_true, decide_eq_true_eq] at hp
    obtain ⟨⟨h1, h2, h3⟩, h4⟩ := hp
    split at h4
    · next t1 heq1 =>
      simp only [Bool.and_eq_true, decide_eq_true_eq] at h4
      obtain ⟨⟨g1, g2, g3, g4⟩, h5⟩ := h4
      split at h5
      · next t2 heq2 =>
        simp only [decide_eq_true_eq] at h5
        obtain ⟨k1, k2⟩ := h5
        refine ⟨t, t1, t2, Reachable.of_runCalls 0 _ ht, ?_, heq1, g1, g2, heq2, k1, ?_⟩
        · rw [h1, h2, h3]
          norm_num [Frac.toRat]
        · rw [k2, g3, g4, Int.lt_ceil]
          norm_num [Frac.toRat]
      · simp at h5
    · simp at h4

/-- Claim C10, amended: for a table of positive capacity, a load factor with a
positive denominator and a `double` growth factor above one, a call of `insert`
grows the table if and only if the quotient `(Count + 1) / Capacity`, computed
in `double` arithmetic, is above the load factor when it is called.  If not,
the call returns with capacity and expansions unchanged.  If so,
`GetClosestPrime(ceil(Capacity * GrowthFactor))`, with the product computed in
`double` arithmetic, is the smallest prime from that ceiling on, and is larger
than the old capacity when it fits `unsigned`; when the call returns, that
prime fits `unsigned` and the capacity after the call is a prime that is at
least that prime; and the call returns with that prime as the new capacity
when the prime fits `unsigned` and re-inserting the old entries cannot exceed
the load factor again, that is when the count, an `unsigned`, is at least the
number of occupied slots and `Count / GetClosestPrime(..)`, computed in `double`
arithmetic, is within the load factor. -/
theorem insert_grows_iff (alloc : Allocator T) (fuel : Nat) (t : OAHashTable T)
    (Key : List Nat) (Data : T)
    (hmlf : 0 < t.config.MaxLoadFactor_.den)
    (hgf : 0 < t.config.GrowthFactor_.den ∧ t.config.GrowthFactor_.den < t.config.GrowthFactor_.num)
    (hdb : t.config.GrowthFactor_.IsDouble)
    (hsize : 0 < t.stats.TableSize_) :
    (¬ (roundDouble (u32 (t.stats.Count_ + 1)) t.stats.TableSize_).toRat
          > t.config.MaxLoadFactor_.toRat →
      ∃ r, insert alloc fuel none t Key Data = some r
        ∧ r.2.stats.TableSize_ = t.stats.TableSize_
        ∧ r.2.stats.Expansions_ = t.stats.Expansions_)
    ∧ ((roundDouble (u32 (t.stats.Count_ + 1)) t.stats.TableSize_).toRat
          > t.config.MaxLoadFactor_.toRat →
      (Nat.Prime (GetClosestPrime (ceilMul t.stats.TableSize_ t.config.GrowthFactor_))
        ∧ ceilMul t.stats.TableSize_ t.config.GrowthFactor_
            ≤ GetClosestPrime (ceilMul t.stats.TableSize_ t.config.GrowthFactor_)
        ∧ (∀ q : ℕ, Nat.Prime q → ceilMul t.stats.TableSize_ t.config.GrowthFactor_ ≤ q →
            GetClosestPrime (ceilMul t.stats.TableSize_ t.config.GrowthFactor_) ≤ q)
        ∧ (GetClosestPrime (ceilMul t.stats.TableSize_ t.config.GrowthFactor_) < 4294967296 →
            t.stats.TableSize_
              < GetClosestPrime (ceilMul t.stats.TableSize_ t.config.GrowthFactor_)))
      ∧ (∀ r, insert alloc fuel none t Key Data = some r →
          GetClosestPrime (ceilMul t.stats.TableSize_ t.config.GrowthFactor_) < 4294967296
            ∧ GetClosestPrime (ceilMul t.stats.TableSize_ t.config.GrowthFactor_)
              ≤ r.2.stats.TableSize_
            ∧ Nat.Prime r.2.stats.TableSize_)
      ∧ (GetClosestPrime (ceilMul t.stats.TableSize_ t.config.GrowthFactor_) < 4294967296 →
          t.stats.Count_ < 4294967296 →
          numOccupied t.table t.stats.TableSize_ 0 ≤ t.stats.Count_ →
          withinLoad t.config.MaxLoadFactor_ t.stats.Count_
            (GetClosestPrime (ceilMul t.stats.TableSize_ t.config.GrowthFactor_)) →
          ∃ r, insert alloc (fuel + 1) none t Key Data = some r
            ∧ r.2.stats.TableSize_
              = GetClosestPrime (ceilMul t.stats.TableSize_ t.config.GrowthFactor_)
            ∧ (r.1 = none → r.2.stats.Expansions_ = u32 (t.stats.Expansions_ + 1)))) := by
  have hC := GetClosestPrime_spec (ceilMul t.stats.TableSize_ t.config.GrowthFactor_)
  constructor
  · intro hno
    have hl : loadExceeded t = false := by
      cases hl : loadExceeded t with
      | false => rfl
      | true => exact absurd ((loadExceeded_iff t hsize hmlf).1 hl) hno
    refine ⟨_, insert_of_not_loadExceeded alloc fuel none t Key Data hl, ?_⟩
    obtain ⟨-, f2, f3, -⟩ := insertBody_frame none t Key Data
    exact ⟨f2, f3⟩
  · intro hyes
    have hl : loadExceeded t = true := (loadExceeded_iff t hsize hmlf).2 hyes
    refine ⟨⟨hC.1, hC.2.1, hC.2.2, fun hN => lt_newSize _ _ hgf.1 hgf.2 hdb hN⟩, ?_, ?_⟩
    · intro r hr
      exact ⟨insert_fits hl hr,
        (insert_post alloc t.config hgf fuel none t Key Data r rfl hr).2.2.2 hl⟩
    · intro hN hcount hocc hroom
      obtain ⟨r, hr, -, r2, r3⟩ := insert_noregrow alloc fuel t Key Data hl hN
        (fun c hc => withinLoad_mono _ hC.1.pos (le_trans (u32_le _) (by omega)) (by omega)
          hroom)
      exact ⟨r, hr, r2, fun hn => (r3 hn).2⟩

/-- The amended claim C10 with capacity 7, load factor 1/2 and growth factor 2:
the capacities after four inserts on a fresh table are 7, 7, 7 and 17; the
third insert, made on the table holding "a" and "b", does not grow it, and the
fourth, made on the table holding "a", "b" and "c", grows it to capacity 17. -/
theorem insert_grows_iff_witness :
    (fresh markConfig).map
        (capacities 1 [.insert keyA 1, .insert keyB 2, .insert keyC 3, .insert keyD 4])
      = some [7, 7, 7, 17]
    ∧ (∃ r, insert zeroAlloc 0 none tableAB keyC 3 = some r
        ∧ r.2.stats.TableSize_ = 7 ∧ r.2.stats.Expansions_ = 0)
    ∧ (∃ r, insert zeroAlloc 1 none tableABC keyD 4 = some r
        ∧ r.2.stats.TableSize_ = 17 ∧ (r.1 = none → r.2.stats.Expansions_ = 1)) :=
  ⟨by decide,
    (insert_grows_iff zeroAlloc 0 tableAB keyC 3 (by decide) (by decide) (by decide)
      (by decide)).1
      (fun h => absurd
        ((loadExceeded_iff tableAB (by decide) (by decide)).2 h) (by decide)),
    ((insert_grows_iff zeroAlloc 0 tableABC keyD 4 (by decide) (by decide) (by decide)
      (by decide)).2
      ((loadExceeded_iff tableABC (by decide) (by decide)).1 (by decide))).2.2
      (by decide) (by decide) (by decide) (by decide)⟩

/-- The loop of `clear`: the slots `i .. i + rem - 1` are made unoccupied, the
data of those that were occupied is logged when a free procedure is
configured, and nothing else changes. -/
theorem clearLoop_spec : ∀ (rem i : Nat) (t : OAHashTable T),
    (clearLoop rem i t).config = t.config ∧ (clearLoop rem i t).stats = t.stats
    ∧ (∀ j, (clearLoop rem i t).table j
        = if i ≤ j ∧ j < i + rem then { t.table j with State := .UNOCCUPIED } else t.table j)
    ∧ (clearLoop rem i t).freed
        = t.freed ++ (if t.config.FreeProc_ then occupiedData t.table rem i else []) := by
  intro rem
  induction rem with
  | zero =>
    intro i t
    refine ⟨rfl, rfl, fun j => ?_, ?_⟩
    · rw [if_neg (by omega)]; rfl
    · simp [clearLoop, occupiedData]
  | succ rem ih =>
    intro i t
    unfold clearLoop
    simp only []
    obtain ⟨h1, h2, h3, h4⟩ := ih (i + 1)
      { t with
        table := setSlot t.table i { t.table i with State := .UNOCCUPIED }
        freed := if t.config.FreeProc_ && decide ((t.table i).State = .OCCUPIED)
          then t.freed ++ [(t.table i).Data] else t.freed }
    refine ⟨h1, h2, fun j => ?_, ?_⟩
    · rw [h3 j]
      simp only [setSlot]
      by_cases hj : j = i
      · subst hj
        have h1 : ¬ (j + 1 ≤ j ∧ j < j + 1 + rem) := by omega
        have h2 : j ≤ j ∧ j < j + (rem + 1) := by omega
        rw [if_neg h1, if_pos rfl, if_pos h2]
      · rw [if_neg hj]
        by_cases hr : i + 1 ≤ j ∧ j < i + 1 + rem
        · have h2 : i ≤ j ∧ j < i + (rem + 1) := by omega
          rw [if_pos hr, if_pos h2]
        · have h2 : ¬ (i ≤ j ∧ j < i + (rem + 1)) := by omega
          rw [if_neg hr, if_neg h2]
    · rw [h4]
      simp only []
      have hocc : occupiedData (setSlot t.table i { t.table i with State := .UNOCCUPIED }) rem (i + 1)
          = occupiedData t.table rem (i + 1) := by
        have : ∀ (n k : Nat), i < k →
            occupiedData (setSlot t.table i { t.table i with State := .UNOCCUPIED }) n k
              = occupiedData t.table n k := by
          intro n
          induction n with
          | zero => intro k _; rfl
          | succ n ihn =>
            intro k hk
            have hki : ¬ k = i := by omega
            simp only [occupiedData, setSlot, if_neg hki]
            rw [ihn (k + 1) (by omega)]
        exact this rem (i + 1) (by omega)
      rw [hocc]
      cases hf : t.config.FreeProc_ with
      | false => simp
      | true =>
        by_cases ho : (t.table i).State = .OCCUPIED
        · simp [occupiedData, ho]
        · simp [occupiedData, ho]

/-- Claim C12: for every table, after `clear` the count is 0, each of the
`TableSize_` slots is unoccupied, the capacity, the expansion count and the
configuration are unchanged, and the log of the free procedure has grown, when
a free procedure is configured, by exactly the data of the slots that were
occupied before the call, one entry per such slot in index order (so nothing
is logged for an unoccupied or deleted slot). -/
theorem clear_spec (t : OAHashTable T) :
    (clear t).stats.Count_ = 0
    ∧ (∀ i, i < t.stats.TableSize_ → ((clear t).table i).State = .UNOCCUPIED)
    ∧ (clear t).stats.TableSize_ = t.stats.TableSize_
    ∧ (clear t).stats.Expansions_ = t.stats.Expansions_
    ∧ (clear t).config = t.config
    ∧ (clear t).freed
        = t.freed ++ (if t.config.FreeProc_ then occupiedData t.table t.stats.TableSize_ 0 else []) := by
  obtain ⟨h1, h2, h3, h4⟩ := clearLoop_spec t.stats.TableSize_ 0 t
  refine ⟨rfl, fun i hi => ?_, ?_, ?_, h1, h4⟩
  · show ((clearLoop t.stats.TableSize_ 0 t).table i).State = .UNOCCUPIED
    have hr : 0 ≤ i ∧ i < 0 + t.stats.TableSize_ := by omega
    rw [h3 i, if_pos hr]
  · show (clearLoop t.stats.TableSize_ 0 t).stats.TableSize_ = _
    rw [h2]
  · show (clearLoop t.stats.TableSize_ 0 t).stats.Expansions_ = _
    rw [h2]

/-- The search loop of `find` returns the data of an occupied slot on the probe
sequence whose key compares equal to the searched key. -/
theorem findLoop_some (t : OAHashTable T) (Key : List Nat) (PIndex SIndex : Nat) :
    ∀ (rem i probes : Nat) (v : T), (findLoop t Key PIndex SIndex rem i probes).1 = some v →
      ∃ j, (t.table (probe PIndex j SIndex t.stats.TableSize_)).State = .OCCUPIED
        ∧ strncmp Key (t.table (probe PIndex j SIndex t.stats.TableSize_)).Key
            t.config.MAX_KEYLEN = true
        ∧ (t.table (probe PIndex j SIndex t.stats.TableSize_)).Data = v := by
  intro rem
  induction rem with
  | zero => intro i probes v h; simp [findLoop] at h
  | succ rem ih =>
    intro i probes v h
    unfold findLoop at h
    simp only [] at h
    split at h
    · next hc =>
      simp only [Option.some.injEq] at h
      exact ⟨i, hc.1, hc.2, h⟩
    · split at h
      · simp at h
      · exact ih _ _ _ h

/-- Claim C13: for every table and key, `find` leaves a table that differs from
the table before the call in `Probes_` at most (capacity, count, expansions and
every slot are unchanged); a value it returns is the data of an occupied slot
whose key compares equal to the searched key, and the only exception it throws
is `E_ITEM_NOT_FOUND`. -/
theorem find_frame (t : OAHashTable T) (Key : List Nat) :
    (∃ p, (find t Key).2 = { t with stats := { t.stats with Probes_ := p } })
    ∧ (∀ v, (find t Key).1 = .ok v → ∃ i, holdsAt t Key i ∧ (t.table i).Data = v)
    ∧ (∀ e, (find t Key).1 = .error e → e = .E_ITEM_NOT_FOUND) := by
  unfold find
  simp only []
  split
  · next d probes heq =>
    refine ⟨⟨probes, rfl⟩, fun v hv => ?_, fun e he => by simp at he⟩
    simp only [Except.ok.injEq] at hv
    subst hv
    have h1 : (findLoop t Key (t.stats.PrimaryHashFunc_ (c_str Key) t.stats.TableSize_)
        (stepOf t.stats.SecondaryHashFunc_ Key t.stats.TableSize_) t.stats.TableSize_ 0
        t.stats.Probes_).1 = some d := by rw [heq]
    obtain ⟨j, hj1, hj2, hj3⟩ := findLoop_some t Key _ _ _ _ _ _ h1
    rcases Nat.eq_zero_or_pos t.stats.TableSize_ with h0 | hpos
    · have key : ∀ n P S, n = 0 → (findLoop t Key P S n 0 t.stats.Probes_).1 = none := by
        intro n P S hn; subst hn; rfl
      rw [key _ _ _ h0] at h1
      cases h1
    · exact ⟨_, ⟨Nat.mod_lt _ hpos, hj1, hj2⟩, hj3⟩
  · next probes heq =>
    refine ⟨⟨probes, rfl⟩, fun v hv => by simp at hv, fun e he => ?_⟩
    simp only [Except.error.injEq] at he
    exact he.symm

/-- The fields of a table given by an explicit record that keeps the
configuration and changes the count and the probe counter only among the
statistics. -/
theorem fields_of_eq {t t' : OAHashTable T} {c p : Nat} {tb : Nat → OAHTSlot T} {fr : List T}
    (h : ({ config := t.config, stats := { t.stats with Count_ := c, Probes_ := p },
            table := tb, freed := fr } : OAHashTable T) = t') :
    t'.table = tb ∧ t'.config = t.config ∧ t'.stats.Count_ = c
      ∧ t'.stats.TableSize_ = t.stats.TableSize_
      ∧ t'.stats.Expansions_ = t.stats.Expansions_
      ∧ t'.stats.PrimaryHashFunc_ = t.stats.PrimaryHashFunc_
      ∧ t'.stats.SecondaryHashFunc_ = t.stats.SecondaryHashFunc_
      ∧ t'.freed = fr := by
  subst h
  exact ⟨rfl, rfl, rfl, rfl, rfl, rfl, rfl, rfl⟩

/-- Under MARK a successful `remove` found, on the probe sequence of the key, an
occupied slot holding the key; the table afterwards differs in that slot's
state, the probe counter, the count and the log of freed values only. -/
theorem removeLoop_mark (alloc : Allocator T) (fuel : Nat) (Key : List Nat)
    (PIndex SIndex : Nat) :
    ∀ (rem i : Nat) (t t' : OAHashTable T), t.config.DeletionPolicy_ = .MARK →
      removeLoop alloc fuel Key PIndex SIndex rem i t = some (none, t') →
      ∃ j, (t.table (probe PIndex j SIndex t.stats.TableSize_)).State = .OCCUPIED
        ∧ strncmp Key (t.table (probe PIndex j SIndex t.stats.TableSize_)).Key
            t.config.MAX_KEYLEN = true
        ∧ t'.table = setSlot t.table (probe PIndex j SIndex t.stats.TableSize_)
              { t.table (probe PIndex j SIndex t.stats.TableSize_) with State := .DELETED }
        ∧ t'.config = t.config
        ∧ t'.stats.Count_ = u32 (t.stats.Count_ + 4294967295)
        ∧ t'.stats.TableSize_ = t.stats.TableSize_
        ∧ t'.stats.Expansions_ = t.stats.Expansions_
        ∧ t'.stats.PrimaryHashFunc_ = t.stats.PrimaryHashFunc_
        ∧ t'.stats.SecondaryHashFunc_ = t.stats.SecondaryHashFunc_
        ∧ t'.freed = (if t.config.FreeProc_
              then t.freed ++ [(t.table (probe PIndex j SIndex t.stats.TableSize_)).Data]
              else t.freed) := by
  intro rem
  induction rem with
  | zero => intro i t t' _ h; simp [removeLoop] at h
  | succ rem ih =>
    intro i t t' hpol h
    unfold removeLoop at h
    simp only [] at h
    split at h
    · simp at h
    · split at h
      · next hc =>
        rw [hpol] at h
        simp only [Option.some.injEq, Prod.mk.injEq, true_and] at h
        exact ⟨i, hc.1, hc.2, fields_of_eq h⟩
      · exact ih (i + 1)
          { t with stats := { t.stats with Probes_ := u32 (t.stats.Probes_ + 1) } } t' hpol h

/-- The search of `find` gives the same result on two slot arrays that differ
in one slot only, occupied with a key other than the searched one in the first
array and deleted in the second. -/
theorem findLoop_congr_deleted (t t' : OAHashTable T) (Key : List Nat) (PIndex SIndex q : Nat)
    (hsize : t'.stats.TableSize_ = t.stats.TableSize_)
    (hmax : t'.config.MAX_KEYLEN = t.config.MAX_KEYLEN)
    (hq : (t.table q).State = .OCCUPIED)
    (hkey : strncmp Key (t.table q).Key t.config.MAX_KEYLEN = false)
    (htab : t'.table = setSlot t.table q { t.table q with State := .DELETED }) :
    ∀ rem i probes, findLoop t' Key PIndex SIndex rem i probes
      = findLoop t Key PIndex SIndex rem i probes := by
  intro rem
  induction rem with
  | zero => intro i probes; rfl
  | succ rem ih =>
    intro i probes
    unfold findLoop
    simp only [hsize, hmax, htab]
    by_cases hi : probe PIndex i SIndex t.stats.TableSize_ = q
    · simp only [setSlot, hi, if_true]
      rw [if_neg (by simp), if_neg (by simp), if_neg (by simp [hkey]), if_neg (by simp [hq])]
      simp only [htab] at ih
      exact ih _ _
    · simp only [setSlot, if_neg hi]
      simp only [htab] at ih
      rw [ih]

/-- A key that differs from a second key differs from the slot keys that
compare equal to the second key. -/
theorem strncmp_trans_false (K K' buf : List Nat) (n : Nat) (h1 : strncmp K buf n = true)
    (h2 : strncmp K' K n = false) : strncmp K' buf n = false := by
  unfold strncmp at *
  simp only [beq_iff_eq, beq_eq_false_iff_ne, ne_eq] at *
  rw [← h1]
  exact h2

/-- The result of `find` is read off the result of its search loop. -/
theorem find_fst (t : OAHashTable T) (Key : List Nat) :
    (find t Key).1
      = match (findLoop t Key (t.stats.PrimaryHashFunc_ (c_str Key) t.stats.TableSize_)
          (stepOf t.stats.SecondaryHashFunc_ Key t.stats.TableSize_)
          t.stats.TableSize_ 0 t.stats.Probes_).1 with
        | some d => .ok d
        | none => .error .E_ITEM_NOT_FOUND := by
  unfold find
  simp only []
  rcases findLoop t Key (t.stats.PrimaryHashFunc_ (c_str Key) t.stats.TableSize_)
      (stepOf t.stats.SecondaryHashFunc_ Key t.stats.TableSize_)
      t.stats.TableSize_ 0 t.stats.Probes_ with ⟨_ | d, p⟩ <;> rfl

/-- The result of the search loop of `find` does not depend on the probe
counter it starts from. -/
theorem findLoop_fst_probes (t : OAHashTable T) (Key : List Nat) (PIndex SIndex : Nat) :
    ∀ rem i p q, (findLoop t Key PIndex SIndex rem i p).1 = (findLoop t Key PIndex SIndex rem i q).1 := by
  intro rem
  induction rem with
  | zero => intro i p q; rfl
  | succ rem ih =>
    intro i p q
    unfold findLoop
    simp only []
    split
    · rfl
    · split
      · rfl
      · exact ih _ _ _

/-- Claim C19: under MARK, for every table and every key `Key` whose `remove`
succeeds, some slot held `Key`, the slot array afterwards is the one before with
that slot's state set to DELETED (its key and data, and every other slot, are
unchanged), and for every key that the key comparison of the table tells apart
from `Key` the result of `find` after the call is its result before the call. -/
theorem remove_mark_spec (alloc : Allocator T) (fuel : Nat) (t t' : OAHashTable T)
    (Key : List Nat) (hpol : t.config.DeletionPolicy_ = .MARK)
    (h : remove alloc fuel t Key = some (none, t')) :
    ∃ p, holdsAt t Key p
      ∧ t'.table = setSlot t.table p { t.table p with State := .DELETED }
      ∧ (∀ K', strncmp K' Key t.config.MAX_KEYLEN = false → (find t' K').1 = (find t K').1) := by
  have hpos : 0 < t.stats.TableSize_ := by
    rcases Nat.eq_zero_or_pos t.stats.TableSize_ with h0 | hpos
    · have key : ∀ n P S, n = 0 → removeLoop alloc fuel Key P S n 0 t
          = some (some .E_ITEM_NOT_FOUND, t) := by
        intro n P S hn; subst hn; rfl
      unfold remove at h
      simp only [] at h
      rw [key _ _ _ h0] at h
      simp at h
    · exact hpos
  obtain ⟨j, h1, h2, htab, hcfg, -, hsize, -, hs1, hs2, -⟩ :=
    removeLoop_mark alloc fuel Key _ _ _ _ t t' hpol h
  refine ⟨_, ⟨Nat.mod_lt _ hpos, h1, h2⟩, htab, fun K' hK' => ?_⟩
  have hne := strncmp_trans_false Key K' _ _ h2 hK'
  have hcongr := findLoop_congr_deleted t t' K'
    (t.stats.PrimaryHashFunc_ (c_str K') t.stats.TableSize_)
    (stepOf t.stats.SecondaryHashFunc_ K' t.stats.TableSize_) _
    hsize (by rw [hcfg]) h1 hne htab
  rw [find_fst, find_fst, hs1, hs2, hsize, hcongr,
    findLoop_fst_probes t K' _ _ _ _ t'.stats.Probes_ t.stats.Probes_]

/-- Claim C19 on the table holding "a" and "b" under MARK: remove("a") succeeds. -/
theorem remove_mark_spec_witness :
    tableAB.config.DeletionPolicy_ = .MARK
      ∧ remove zeroAlloc 0 tableAB keyA
          = some (none, tableAfter tableAB (remove zeroAlloc 0 tableAB keyA))
      ∧ ∃ p, holdsAt tableAB keyA p
        ∧ (tableAfter tableAB (remove zeroAlloc 0 tableAB keyA)).table
            = setSlot tableAB.table p { tableAB.table p with State := .DELETED }
        ∧ (∀ K', strncmp K' keyA tableAB.config.MAX_KEYLEN = false →
            (find (tableAfter tableAB (remove zeroAlloc 0 tableAB keyA)) K').1
              = (find tableAB K').1) :=
  ⟨rfl, rfl, remove_mark_spec zeroAlloc 0 tableAB _ keyA rfl rfl⟩

end OAHashTable

/-! ## Properties of `longest_increasing_subsequence` -/

namespace Lis

/-- Claim C16, evaluated on the code: on the sequence 3, 4, 1, 2 the answer is
the indices 0, 3, whose values 3, 2 are not increasing. -/
theorem lis_indices_not_increasing :
    ([3, 4, 1, 2] : List Int) ≠ []
      ∧ longest_increasing_subsequence [3, 4, 1, 2] = some [0, 3]
      ∧ ([0, 3].map (fun i => ([3, 4, 1, 2] : List Int).getD i 0)) = [3, 2]
      ∧ ¬ IsIncreasingAt [3, 4, 1, 2] [0, 3] := by decide

/-- Reading a vector after an assignment to one of its elements. -/
theorem getD_set (l : List Nat) (i k v : Nat) :
    (l.set i v).getD k 0 = if k = i ∧ i < l.length then v else l.getD k 0 := by
  simp only [List.getD_eq_getElem?_getD, List.getElem?_set]
  by_cases h : i = k
  · subst h
    by_cases h2 : i < l.length
    · simp [h2]
    · simp [h2]
      rw [List.getElem?_eq_none (by omega)]
      rfl
  · have h3 : ¬ k = i := fun e => h e.symm
    simp [h, h3]

/-- The inner loop changes the entry `i` only; the entry becomes the largest of
its old value and the values `lis[j] + 1` over the indices `j` it visits whose
sequence value is below that of `i`. -/
theorem innerLoop_spec (sequence : List Int) (i : Nat) :
    ∀ (rem j : Nat) (lis : List Nat), j + rem = i → i < lis.length →
      (∀ k, k < i → lis.getD k 0 + 1 < 4294967296) →
      (innerLoop sequence i rem j lis).length = lis.length
      ∧ (∀ k, k ≠ i → (innerLoop sequence i rem j lis).getD k 0 = lis.getD k 0)
      ∧ lis.getD i 0 ≤ (innerLoop sequence i rem j lis).getD i 0
      ∧ ((innerLoop sequence i rem j lis).getD i 0 = lis.getD i 0
          ∨ ∃ k, j ≤ k ∧ k < i ∧ sequence.getD k 0 < sequence.getD i 0
            ∧ (innerLoop sequence i rem j lis).getD i 0 = lis.getD k 0 + 1)
      ∧ (∀ k, j ≤ k → k < i → sequence.getD k 0 < sequence.getD i 0 →
          lis.getD k 0 + 1 ≤ (innerLoop sequence i rem j lis).getD i 0) := by
  intro rem
  induction rem with
  | zero =>
    intro j lis hj _ _
    refine ⟨rfl, fun _ _ => rfl, le_refl _, Or.inl rfl, fun k h1 h2 => ?_⟩
    omega
  | succ rem ih =>
    intro j lis hj hi hb
    have hji : j < i := by omega
    have hu : u32 (lis.getD j 0 + 1) = lis.getD j 0 + 1 := Nat.mod_eq_of_lt (hb j hji)
    unfold innerLoop
    rw [hu]
    by_cases hc : sequence.getD i 0 > sequence.getD j 0 ∧ lis.getD i 0 < lis.getD j 0 + 1
    · rw [if_pos hc]
      have hlen : (lis.set i (lis.getD j 0 + 1)).length = lis.length := List.length_set _ _ _
      have hget : ∀ k, k ≠ i → (lis.set i (lis.getD j 0 + 1)).getD k 0 = lis.getD k 0 := by
        intro k hk
        rw [getD_set, if_neg (fun h => hk h.1)]
      have hgeti : (lis.set i (lis.getD j 0 + 1)).getD i 0 = lis.getD j 0 + 1 := by
        rw [getD_set, if_pos ⟨rfl, hi⟩]
      obtain ⟨h1, h2, h3, h4, h5⟩ := ih (j + 1) (lis.set i (lis.getD j 0 + 1)) (by omega)
        (by rw [hlen]; exact hi)
        (fun k hk => by rw [hget k (by omega)]; exact hb k hk)
      refine ⟨by rw [h1, hlen], fun k hk => by rw [h2 k hk, hget k hk], ?_, ?_, ?_⟩
      · rw [hgeti] at h3; omega
      · rcases h4 with h4 | ⟨k, hk1, hk2, hk3, hk4⟩
        · exact Or.inr ⟨j, le_refl _, hji, hc.1, by rw [h4, hgeti]⟩
        · exact Or.inr ⟨k, by omega, hk2, hk3, by rw [hk4, hget k (by omega)]⟩
      · intro k hk1 hk2 hk3
        rcases Nat.eq_or_lt_of_le hk1 with e | hlt
        · subst e; rw [hgeti] at h3; exact h3
        · have := h5 k hlt hk2 hk3
          rw [hget k (by omega)] at this
          exact this
    · rw [if_neg hc]
      obtain ⟨h1, h2, h3, h4, h5⟩ := ih (j + 1) lis (by omega) hi hb
      refine ⟨h1, h2, h3, ?_, ?_⟩
      · rcases h4 with h4 | ⟨k, hk1, hk2, hk3, hk4⟩
        · exact Or.inl h4
        · exact Or.inr ⟨k, by omega, hk2, hk3, hk4⟩
      · intro k hk1 hk2 hk3
        rcases Nat.eq_or_lt_of_le hk1 with e | hlt
        · subst e
          have : ¬ lis.getD j 0 < lis.getD j 0 + 1 ∨ True := Or.inr trivial
          have hc2 : ¬ lis.getD i 0 < lis.getD j 0 + 1 := fun h => hc ⟨hk3, h⟩
          omega
        · exact h5 k hlt hk2 hk3


/-- The outer loop makes the remaining entries of the table final. -/
theorem outerLoop_spec (sequence : List Int) :
    ∀ (rem i : Nat) (lis : List Nat), i + rem = lis.length → lis.length < 4294967296 →
      TableOK sequence lis i →
      (outerLoop sequence rem i lis).length = lis.length
      ∧ TableOK sequence (outerLoop sequence rem i lis) (i + rem) := by
  intro rem
  induction rem with
  | zero => intro i lis _ _ h; exact ⟨rfl, h⟩
  | succ rem ih =>
    intro i lis hi hlen hok
    unfold outerLoop
    have hil : i < lis.length := by omega
    have hlen1 : (lis.set i 1).length = lis.length := List.length_set _ _ _
    have hget : ∀ k, k ≠ i → (lis.set i 1).getD k 0 = lis.getD k 0 := by
      intro k hk
      rw [getD_set, if_neg (fun h => hk h.1)]
    have hgeti : (lis.set i 1).getD i 0 = 1 := by rw [getD_set, if_pos ⟨rfl, hil⟩]
    obtain ⟨h1, h2, h3, h4, h5⟩ := innerLoop_spec sequence i i 0 (lis.set i 1) (by omega)
      (by rw [hlen1]; exact hil)
      (fun k hk => by rw [hget k (by omega)]; have := (hok k hk).2.1; omega)
    have hok1 : TableOK sequence (innerLoop sequence i i 0 (lis.set i 1)) (i + 1) := by
      intro k hk
      rcases Nat.eq_or_lt_of_le (Nat.lt_succ_iff.1 hk) with e | hlt
      · subst e
        rw [hgeti] at h3 h4
        refine ⟨h3, ?_, ?_, ?_⟩
        · rcases h4 with h4 | ⟨j, _, hj2, _, hj4⟩
          · omega
          · rw [hj4, hget j (by omega)]
            have := (hok j hj2).2.1
            omega
        · rcases h4 with h4 | ⟨j, _, hj2, hj3, hj4⟩
          · exact Or.inl h4
          · exact Or.inr ⟨j, hj2, hj3, by rw [hj4, h2 j (by omega)]⟩
        · intro j hj1 hj2
          have := h5 j (Nat.zero_le _) hj1 hj2
          rw [h2 j (by omega), hget j (by omega)]
          rw [hget j (by omega)] at this
          exact this
      · obtain ⟨a1, a2, a3, a4⟩ := hok k hlt
        have hk1 : (innerLoop sequence i i 0 (lis.set i 1)).getD k 0 = lis.getD k 0 := by
          rw [h2 k (by omega), hget k (by omega)]
        have hk2 : ∀ j, j < k → (innerLoop sequence i i 0 (lis.set i 1)).getD j 0
            = lis.getD j 0 := by
          intro j hj
          rw [h2 j (by omega), hget j (by omega)]
        rw [hk1]
        refine ⟨a1, a2, ?_, ?_⟩
        · rcases a3 with a3 | ⟨j, hj1, hj2, hj3⟩
          · exact Or.inl a3
          · exact Or.inr ⟨j, hj1, hj2, by rw [hk2 j hj1]; exact hj3⟩
        · intro j hj1 hj2
          rw [hk2 j hj1]
          exact a4 j hj1 hj2
    obtain ⟨g1, g2⟩ := ih (i + 1) (innerLoop sequence i i 0 (lis.set i 1))
      (by rw [h1, hlen1]; omega) (by rw [h1, hlen1]; exact hlen) hok1
    refine ⟨by rw [g1, h1, hlen1], ?_⟩
    have e : i + (rem + 1) = i + 1 + rem := by omega
    rw [e]
    exact g2


/-- An increasing selection of indices that ends at `i` has at most `lis[i]`
elements. -/
theorem length_le_of_tableOK (sequence : List Int) (lis : List Nat) (n : Nat)
    (hok : TableOK sequence lis n) :
    ∀ i, i < n → ∀ init, IsIncreasingAt sequence (init ++ [i]) → init.length + 1 ≤ lis.getD i 0 := by
  intro i
  induction i using Nat.strong_induction_on with
  | _ i ih =>
    intro hi init hinc
    rcases List.eq_nil_or_concat init with e | ⟨init1, j, e⟩
    · subst e
      exact (hok i hi).1
    · rw [List.concat_eq_append] at e
      subst e
      obtain ⟨p1, p2, p3⟩ := hinc
      rw [List.pairwise_append] at p1
      rw [List.map_append, List.pairwise_append] at p3
      have hji : j < i := p1.2.2 j (by simp) i (by simp)
      have hv : sequence.getD j 0 < sequence.getD i 0 :=
        p3.2.2 _ (by simp) _ (by simp)
      have h1 := ih j hji (by omega) init1
        ⟨p1.1, fun x hx => p2 x (by simp at hx ⊢; tauto), p3.1⟩
      have h2 := (hok i hi).2.2.2 j hji hv
      simp only [List.length_append, List.length_singleton]
      omega

/-- For every entry of the table there is an increasing selection of indices
that ends at `i` and has `lis[i]` elements. -/
theorem exists_of_tableOK (sequence : List Int) (lis : List Nat) (n : Nat)
    (hn : n ≤ sequence.length) (hok : TableOK sequence lis n) :
    ∀ i, i < n → ∃ init, IsIncreasingAt sequence (init ++ [i]) ∧ init.length + 1 = lis.getD i 0
      ∧ ∀ x ∈ init, x < i ∧ sequence.getD x 0 < sequence.getD i 0 := by
  intro i
  induction i using Nat.strong_induction_on with
  | _ i ih =>
    intro hi
    obtain ⟨_, _, h3, _⟩ := hok i hi
    rcases h3 with h3 | ⟨j, hj1, hj2, hj3⟩
    · refine ⟨[], ⟨by simp, ?_, by simp⟩, by rw [h3]; rfl, by simp⟩
      intro x hx
      simp at hx
      omega
    · obtain ⟨init, ⟨p1, p2, p3⟩, hl, hx⟩ := ih j hj1 (by omega)
      refine ⟨init ++ [j], ⟨?_, ?_, ?_⟩, ?_, ?_⟩
      · rw [List.pairwise_append]
        refine ⟨p1, by simp, ?_⟩
        intro a ha b hb
        simp at hb
        subst hb
        simp at ha
        rcases ha with ha | ha
        · have := (hx a ha).1; omega
        · omega
      · intro x hx2
        simp at hx2
        rcases hx2 with hx2 | hx2 | hx2
        · have := (hx x hx2).1; omega
        · omega
        · omega
      · rw [List.map_append, List.pairwise_append]
        refine ⟨p3, List.pairwise_singleton _ _, ?_⟩
        intro a ha b hb
        rw [List.map_singleton, List.mem_singleton] at hb
        subst hb
        rw [List.map_append, List.mem_append, List.map_singleton, List.mem_singleton] at ha
        rcases ha with ha | ha
        · obtain ⟨x, hx2, rfl⟩ := List.mem_map.1 ha
          exact lt_trans (hx x hx2).2 hj2
        · rw [ha]; exact hj2
      · simp only [List.length_append, List.length_singleton]
        omega
      · intro x hx2
        simp at hx2
        rcases hx2 with hx2 | hx2
        · have := hx x hx2; omega
        · subst hx2; exact ⟨hj1, hj2⟩

/-- The loop that fills the answer keeps `left` at an entry that is largest
among the entries seen, and the answer one shorter than that entry. -/
theorem collectLoop_spec (sequence : List Int) (lis : List Nat) (n : Nat)
    (hok : TableOK sequence lis n) :
    ∀ (rem right left : Nat) (answer : List Nat), right + rem = n → left < right →
      (∀ j, j < right → lis.getD j 0 ≤ lis.getD left 0) → answer.length + 1 = lis.getD left 0 →
      (collectLoop lis rem right left answer).2 < n
      ∧ (∀ j, j < n → lis.getD j 0 ≤ lis.getD (collectLoop lis rem right left answer).2 0)
      ∧ (collectLoop lis rem right left answer).1.length + 1
          = lis.getD (collectLoop lis rem right left answer).2 0 := by
  intro rem
  induction rem with
  | zero =>
    intro right left answer hr hl hmax hlen
    have e : right = n := by omega
    subst e
    exact ⟨hl, hmax, hlen⟩
  | succ rem ih =>
    intro right left answer hr hl hmax hlen
    unfold collectLoop
    obtain ⟨_, _, h3, _⟩ := hok right (by omega)
    split
    · next heq =>
      refine ih (right + 1) right answer (by omega) (by omega) (fun j hj => ?_) (by omega)
      rcases Nat.eq_or_lt_of_le (Nat.lt_succ_iff.1 hj) with e | hlt
      · subst e; exact le_refl _
      · have := hmax j hlt; omega
    · split
      · next hne hlt =>
        have hstep : lis.getD right 0 = lis.getD left 0 + 1 := by
          rcases h3 with h3 | ⟨j, hj1, _, hj3⟩
          · omega
          · have := hmax j hj1; omega
        refine ih (right + 1) right (answer ++ [left]) (by omega) (by omega) (fun j hj => ?_) ?_
        · rcases Nat.eq_or_lt_of_le (Nat.lt_succ_iff.1 hj) with e | hlt2
          · subst e; exact le_refl _
          · have := hmax j hlt2; omega
        · simp only [List.length_append, List.length_singleton]
          omega
      · next hne hnlt =>
        refine ih (right + 1) left answer (by omega) (by omega) (fun j hj => ?_) hlen
        rcases Nat.eq_or_lt_of_le (Nat.lt_succ_iff.1 hj) with e | hlt2
        · subst e; omega
        · exact hmax j hlt2

/-- The amended claim C17: for every non-empty sequence of fewer than `2^32`
integers, `longest_increasing_subsequence` returns an answer whose number of
indices is the length of a longest strictly increasing subsequence: some
increasing selection of indices has that many elements and none has more. -/
theorem lis_length_spec (sequence : List Int) (hne : sequence ≠ [])
    (hlen : sequence.length < 4294967296) :
    ∃ answer, longest_increasing_subsequence sequence = some answer
      ∧ (∃ idx, IsIncreasingAt sequence idx ∧ idx.length = answer.length)
      ∧ ∀ idx, IsIncreasingAt sequence idx → idx.length ≤ answer.length := by
  have hpos : 0 < sequence.length := List.length_pos.2 hne
  have hsize : u32 sequence.length = sequence.length := Nat.mod_eq_of_lt hlen
  unfold longest_increasing_subsequence
  simp only [hsize]
  rw [if_neg (by omega)]
  have hl0 : ((List.replicate sequence.length 0).set 0 1).length = sequence.length := by simp
  have hok0 : TableOK sequence ((List.replicate sequence.length 0).set 0 1) 1 := by
    intro i hi
    have e : i = 0 := by omega
    subst e
    rw [getD_set, if_pos ⟨rfl, by simpa using hpos⟩]
    exact ⟨le_refl _, by omega, Or.inl rfl, fun j hj => by omega⟩
  obtain ⟨h1, h2⟩ := outerLoop_spec sequence (sequence.length - 1) 1
    ((List.replicate sequence.length 0).set 0 1) (by rw [hl0]; omega) (by rw [hl0]; exact hlen) hok0
  have e : 1 + (sequence.length - 1) = sequence.length := by omega
  rw [e] at h2
  generalize outerLoop sequence (sequence.length - 1) 1
    ((List.replicate sequence.length 0).set 0 1) = lis at h1 h2 ⊢
  obtain ⟨c1, c2, c3⟩ := collectLoop_spec sequence lis sequence.length h2
    (sequence.length - 1) 1 0 [] (by omega) (by omega)
    (fun j hj => by have : j = 0 := by omega
                    subst this; exact le_refl _)
    (by have := (h2 0 hpos); simp only [List.length_nil]; omega)
  generalize collectLoop lis (sequence.length - 1) 1 0 [] = r at c1 c2 c3 ⊢
  refine ⟨_, rfl, ?_, ?_⟩
  · obtain ⟨init, hinc, hl, _⟩ := exists_of_tableOK sequence lis sequence.length (le_refl _) h2 r.2 c1
    refine ⟨init ++ [r.2], hinc, ?_⟩
    simp only [List.length_append, List.length_singleton]
    omega
  · intro idx hinc
    rcases List.eq_nil_or_concat idx with e | ⟨init, i, e⟩
    · subst e; simp
    · rw [List.concat_eq_append] at e
      subst e
      have hi : i < sequence.length := hinc.2.1 i (by simp)
      have := length_le_of_tableOK sequence lis sequence.length h2 i hi init hinc
      have := c2 i hi
      simp only [List.length_append, List.length_singleton]
      omega

/-- The amended claim C17 on the sequence 1, 3, 2, 4, 0, 5: the answer has four
indices. -/
theorem lis_length_spec_witness :
    ([1, 3, 2, 4, 0, 5] : List Int) ≠ [] ∧ ([1, 3, 2, 4, 0, 5] : List Int).length < 4294967296
      ∧ longest_increasing_subsequence [1, 3, 2, 4, 0, 5] = some [0, 2, 3, 5]
      ∧ ∃ answer, longest_increasing_subsequence [1, 3, 2, 4, 0, 5] = some answer
        ∧ (∃ idx, IsIncreasingAt [1, 3, 2, 4, 0, 5] idx ∧ idx.length = answer.length)
        ∧ ∀ idx, IsIncreasingAt [1, 3, 2, 4, 0, 5] idx → idx.length ≤ answer.length :=
  ⟨by decide, by decide, by decide, lis_length_spec [1, 3, 2, 4, 0, 5] (by decide) (by decide)⟩

/-- On a sequence of `2^32 + 1` elements that starts with 0, 1 the converted
size is 1 and the answer is the single index 0, while the indices 0, 1 pick out
an increasing subsequence. -/
theorem lis_of_long (tail : List Int) (h : tail.length = 4294967295) :
    longest_increasing_subsequence (0 :: 1 :: tail) = some [0]
      ∧ IsIncreasingAt (0 :: 1 :: tail) [0, 1] := by
  constructor
  · have hs : u32 (0 :: 1 :: tail).length = 1 := by
      simp only [List.length_cons, h]
      rfl
    unfold longest_increasing_subsequence
    simp only [hs]
    rfl
  · refine ⟨by simp, ?_, by simp⟩
    intro i hi
    simp only [List.length_cons, h]
    simp at hi
    omega

/-- Claim C17 fails as stated: on the sequence 0, 1, 0, 0, .. of `2^32 + 1`
elements the answer is the single index 0, while the indices 0, 1 pick out an
increasing subsequence of two elements. -/
theorem lis_length_truncated :
    (0 :: 1 :: List.replicate 4294967295 (0 : Int)) ≠ []
      ∧ longest_increasing_subsequence (0 :: 1 :: List.replicate 4294967295 (0 : Int)) = some [0]
      ∧ IsIncreasingAt (0 :: 1 :: List.replicate 4294967295 (0 : Int)) [0, 1]
      ∧ [0, 1].length ≠ [0].length :=
  ⟨List.cons_ne_nil _ _, (lis_of_long _ (List.length_replicate _ _)).1,
    (lis_of_long _ (List.length_replicate _ _)).2, by decide⟩

end Lis

/-! ## Properties of `knapsack_brute_force` -/

namespace Knapsack

/-- Claim C18, evaluated on the code: for the single item of weight 5 and value
10 and the weight limit 3, the only subset within the limit is the empty one,
but `knapsack_brute_force` returns the selection of the item, of total weight
5; and when none of three items fits, it returns the selection of the last one. -/
theorem knapsack_selects_overweight :
    knapsack_brute_force [⟨5, 10⟩] 3 = some [true]
      ∧ selectedWeight [⟨5, 10⟩] [true] = 5
      ∧ ¬ selectedWeight [⟨5, 10⟩] [true] ≤ 3
      ∧ knapsack_brute_force [⟨10, 1⟩, ⟨30, 4⟩, ⟨40, 5⟩] 5 = some [false, false, true]
      ∧ selectedWeight [⟨10, 1⟩, ⟨30, 4⟩, ⟨40, 5⟩] [false, false, true] = 40 := by decide

/-! ### The calls of `GreyCode::Next` -/

/-- For `s <= 30` the shift `1 << s` does not leave the range of `int`. -/
theorem shl1_eq (s : Nat) (h : s ≤ 30) : (shl1 s).toNat = 2 ^ s := by
  have h1 : 2 ^ s ≤ 2 ^ 30 := Nat.pow_le_pow_right (by decide) h
  have h2 : (2:Nat) ^ 30 = 1073741824 := by norm_num
  unfold shl1
  rw [Nat.mod_eq_of_lt (by omega), if_pos (by omega)]
  exact Int.toNat_natCast _

/-- The count of trailing zero bits: `2 ^ ctz x` is the largest power of 2
dividing a positive `x` below `2 ^ fuel`. -/
theorem ctz_spec : ∀ (fuel x : Nat), 0 < x → x < 2 ^ fuel →
    2 ^ ctz fuel x ∣ x ∧ ¬ 2 ^ (ctz fuel x + 1) ∣ x := by
  intro fuel
  induction fuel with
  | zero => intro x h1 h2; simp at h2; omega
  | succ fuel ih =>
    intro x h1 h2
    unfold ctz
    by_cases hodd : x % 2 = 1
    · rw [if_pos hodd]
      refine ⟨by simp, ?_⟩
      simp only [Nat.zero_add, Nat.pow_one]
      omega
    · rw [if_neg hodd]
      have hx : x = 2 * (x / 2) := by omega
      obtain ⟨a, b⟩ := ih (x / 2) (by omega) (by rw [Nat.pow_succ] at h2; omega)
      constructor
      · rw [Nat.add_comm, Nat.pow_succ, hx, Nat.mul_comm]
        simp only [Nat.mul_div_cancel_left _ (show 0 < 2 by decide)]
        exact Nat.mul_dvd_mul_left 2 a
      · intro hd
        apply b
        have e : 2 ^ (1 + ctz fuel (x / 2) + 1) = 2 * 2 ^ (ctz fuel (x / 2) + 1) := by
          rw [Nat.add_comm 1, Nat.pow_succ, Nat.mul_comm]
        rw [e, hx] at hd
        simp only [Nat.mul_div_cancel_left _ (show 0 < 2 by decide)] at hd
        exact Nat.dvd_of_mul_dvd_mul_left (by decide) hd

/-- The bits of an odd multiple of a power of 2. -/
theorem testBit_odd_mul (p m j : Nat) :
    (2 ^ p * (2 * m + 1)).testBit j
      = if j < p then false else if j = p then true else m.testBit (j - p - 1) := by
  have h := Nat.testBit_mul_pow_two_add (2 * m + 1) (Nat.two_pow_pos p) j
  rw [Nat.add_zero] at h
  rw [h]
  by_cases h1 : j < p
  · simp [h1]
  · rw [if_neg h1, if_neg h1]
    by_cases h2 : j = p
    · rw [if_pos h2, h2, Nat.sub_self, Nat.testBit_zero]
      simp only [decide_eq_true_eq]
      omega
    · rw [if_neg h2]
      obtain ⟨d, hd⟩ : ∃ d, j - p = d + 1 := ⟨j - p - 1, by omega⟩
      rw [hd, Nat.testBit_succ]
      have e : (2 * m + 1) / 2 = m := by omega
      rw [e]
      simp

/-- The bits of the predecessor of an odd multiple of a power of 2. -/
theorem testBit_odd_mul_pred (p m j : Nat) :
    (2 ^ p * (2 * m + 1) - 1).testBit j
      = if j < p then true else if j = p then false else m.testBit (j - p - 1) := by
  have hp : 0 < 2 ^ p := Nat.two_pow_pos p
  have e0 : 2 ^ p * (2 * m + 1) - 1 = 2 ^ p * (2 * m) + (2 ^ p - 1) := by
    rw [Nat.mul_succ]
    omega
  rw [e0, Nat.testBit_mul_pow_two_add (2 * m) (by omega : 2 ^ p - 1 < 2 ^ p) j]
  by_cases h1 : j < p
  · simp [h1, Nat.testBit_two_pow_sub_one]
  · rw [if_neg h1, if_neg h1]
    by_cases h2 : j = p
    · rw [if_pos h2, h2, Nat.sub_self, Nat.testBit_zero]
      simp
    · rw [if_neg h2]
      obtain ⟨d, hd⟩ : ∃ d, j - p = d + 1 := ⟨j - p - 1, by omega⟩
      rw [hd, Nat.testBit_succ]
      have e : 2 * m / 2 = m := by omega
      rw [e]
      simp

/-- Consecutive numbers of the reflected code differ in the bit at the count of
trailing zeros of the larger index. -/
theorem gray_step (k p m : Nat) (h : k + 1 = 2 ^ p * (2 * m + 1)) :
    ((k + 1) >>> 1) ^^^ (k + 1) = ((k >>> 1) ^^^ k) ^^^ 2 ^ p := by
  have hk : k = 2 ^ p * (2 * m + 1) - 1 := by omega
  apply Nat.eq_of_testBit_eq
  intro j
  rw [Nat.testBit_xor, Nat.testBit_xor, Nat.testBit_xor, Nat.testBit_shiftRight,
    Nat.testBit_shiftRight, Nat.testBit_two_pow, h]
  rw [hk]
  rw [testBit_odd_mul, testBit_odd_mul, testBit_odd_mul_pred, testBit_odd_mul_pred]
  by_cases h1 : 1 + j < p
  · have h2 : j < p := by omega
    have h3 : ¬ p = j := by omega
    simp [h1, h2, h3]
  · by_cases h2 : 1 + j = p
    · have h3 : j < p := by omega
      have h4 : ¬ p = j := by omega
      simp [h2, h3, h4]
    · by_cases h3 : j = p
      · have h4 : ¬ 1 + p < p := by omega
        have h5 : ¬ 1 + p = p := by omega
        subst h3
        simp [h4, h5]
      · have h4 : ¬ j < p := by omega
        have h5 : ¬ p = j := fun e => h3 e.symm
        have e : 1 + j - p - 1 = j - p - 1 + 1 := by omega
        simp only [h1, h2, h3, h4, h5, if_false, decide_False, Bool.xor_false]

/-- Below `2 ^ n` the only index whose code number is `2 ^ (n - 1)` is the last
one. -/
theorem gray_eq_top (n x : Nat) (hn : 1 ≤ n) (hx : x < 2 ^ n) :
    (x >>> 1) ^^^ x = 2 ^ (n - 1) ↔ x = 2 ^ n - 1 := by
  have hbit : ∀ j, ((x >>> 1) ^^^ x).testBit j = (x.testBit (1 + j) ^^ x.testBit j) := by
    intro j
    rw [Nat.testBit_xor, Nat.testBit_shiftRight]
  have hhigh : ∀ j, n ≤ j → x.testBit j = false := by
    intro j hj
    exact Nat.testBit_lt_two_pow (lt_of_lt_of_le hx (Nat.pow_le_pow_right (by decide) hj))
  constructor
  · intro h
    have hlow : ∀ d, d < n → x.testBit (n - 1 - d) = true := by
      intro d
      induction d with
      | zero =>
        intro _
        have := hbit (n - 1)
        rw [h, Nat.testBit_two_pow_self, hhigh (1 + (n - 1)) (by omega)] at this
        simpa using this.symm
      | succ d ih =>
        intro hd
        have := hbit (n - 1 - (d + 1))
        have e : 1 + (n - 1 - (d + 1)) = n - 1 - d := by omega
        rw [h, Nat.testBit_two_pow_of_ne (by omega), e, ih (by omega)] at this
        simpa using this.symm
    apply Nat.eq_of_testBit_eq
    intro j
    rw [Nat.testBit_two_pow_sub_one]
    by_cases hj : j < n
    · have := hlow (n - 1 - j) (by omega)
      have e : n - 1 - (n - 1 - j) = j := by omega
      rw [e] at this
      rw [this]; simp [hj]
    · rw [hhigh j (by omega)]; simp [hj]
  · intro h
    apply Nat.eq_of_testBit_eq
    intro j
    rw [hbit, h, Nat.testBit_two_pow_sub_one, Nat.testBit_two_pow_sub_one, Nat.testBit_two_pow]
    by_cases h1 : 1 + j < n
    · have h2 : j < n := by omega
      have h3 : ¬ n - 1 = j := by omega
      simp [h1, h2, h3]
    · by_cases h2 : j < n
      · have h3 : n - 1 = j := by omega
        simp [h1, h2, h3]
      · have h3 : ¬ n - 1 = j := by omega
        simp [h1, h2, h3]

/-- Reading the bits from a start value. -/
theorem foldl_binVal (l : List Nat) : ∀ a,
    l.foldl (fun a b => 2 * a + b) a = a * 2 ^ l.length + binVal l := by
  unfold binVal
  induction l with
  | nil => intro a; simp
  | cons b l ih =>
    intro a
    simp only [List.foldl_cons, List.length_cons]
    rw [ih (2 * a + b), ih (2 * 0 + b), Nat.pow_succ]
    ring

/-- A vector that holds the `n` bits of a number below `2 ^ n`, most
significant first, reads as that number. -/
theorem binVal_bits : ∀ (l : List Nat) (x : Nat), x < 2 ^ l.length →
    (∀ i, i < l.length → l.getD i 0 = if x.testBit (l.length - 1 - i) then 1 else 0) →
    binVal l = x := by
  intro l
  induction l with
  | nil =>
    intro x hx _
    simp at hx
    simp [binVal, hx]
  | cons b l ih =>
    intro x hx hbits
    simp only [List.length_cons] at hx hbits
    have hb := hbits 0 (by omega)
    simp only [List.getD_cons_zero, Nat.sub_zero, Nat.add_sub_cancel] at hb
    have hrest := ih (x % 2 ^ l.length) (Nat.mod_lt _ (Nat.two_pow_pos _)) (fun i hi => by
      have := hbits (i + 1) (by omega)
      simp only [List.getD_cons_succ, Nat.add_sub_cancel] at this
      rw [this, Nat.testBit_mod_two_pow]
      have e : l.length - (i + 1) = l.length - 1 - i := by omega
      have h2 : l.length - 1 - i < l.length := by omega
      rw [e]
      simp [h2])
    have hfold : binVal (b :: l) = b * 2 ^ l.length + binVal l := by
      have := foldl_binVal l (2 * 0 + b)
      unfold binVal at this ⊢
      simp only [List.foldl_cons]
      rw [this]
      simp
    rw [hfold, hrest, hb, Nat.testBit_to_div_mod]
    have hq : x / 2 ^ l.length < 2 := by
      rw [Nat.div_lt_iff_lt_mul (Nat.two_pow_pos _)]
      rw [Nat.pow_succ] at hx
      omega
    have hdm := Nat.div_add_mod x (2 ^ l.length)
    generalize x / 2 ^ l.length = q at hq hdm ⊢
    generalize 2 ^ l.length = w at hdm ⊢
    generalize x % w = r at hdm ⊢
    have hq2 : q = 0 ∨ q = 1 := by omega
    rcases hq2 with h0 | h1
    · subst h0
      simp at hdm ⊢
      exact hdm
    · subst h1
      simp at hdm ⊢
      exact hdm

/-- The result of `Next` when the position is inside the code vector and
`numbers` holds two entries at least. -/
theorem Next_eq (g : GreyCode) (first next : Nat) (rest : List Nat)
    (hpos : ctz 64 (g.count + 1) < g.n) (hnum : g.numbers = first :: next :: rest) :
    ∃ g1, g.Next = some ((!decide (next = 2 ^ (g.n - 1)),
        decide (g1.code.getD (g.n - 1 - ctz 64 (g.count + 1)) 0 ≠ 0),
        ctz 64 (g.count + 1)), g1)
      ∧ g1.n = g.n ∧ g1.count = g.count + 1
      ∧ g1.code = g.code.set (g.n - 1 - ctz 64 (g.count + 1))
          (if g.code.getD (g.n - 1 - ctz 64 (g.count + 1)) 0 = 0 then 1 else 0)
      ∧ g1.numbers = next :: rest := by
  refine ⟨{ g with
      count := g.count + 1
      code := g.code.set (g.n - 1 - ctz 64 (g.count + 1))
        (if g.code.getD (g.n - 1 - ctz 64 (g.count + 1)) 0 = 0 then 1 else 0)
      numbers := next :: rest
      save := g.save ++ [first] }, ?_, rfl, rfl, rfl, rfl⟩
  unfold GreyCode.Next
  simp only []
  rw [if_pos hpos]
  simp only [hnum]

/-- The entry of the code vector at the position of a toggled bit, and the
other entries, after the toggle. -/
theorem bits_toggle (code : List Nat) (n x p : Nat) (hlen : code.length = n) (hp : p < n)
    (hbits : ∀ i, i < n → code.getD i 0 = if x.testBit (n - 1 - i) then 1 else 0) :
    ((code.set (n - 1 - p) (if code.getD (n - 1 - p) 0 = 0 then 1 else 0)).getD (n - 1 - p) 0
        = if x.testBit p then 0 else 1)
    ∧ ∀ i, i < n →
      (code.set (n - 1 - p) (if code.getD (n - 1 - p) 0 = 0 then 1 else 0)).getD i 0
        = if (x ^^^ 2 ^ p).testBit (n - 1 - i) then 1 else 0 := by
  have hold : code.getD (n - 1 - p) 0 = if x.testBit p then 1 else 0 := by
    rw [hbits _ (by omega)]
    have e : n - 1 - (n - 1 - p) = p := by omega
    rw [e]
  constructor
  · rw [Lis.getD_set, if_pos ⟨rfl, by omega⟩, hold]
    by_cases hb : x.testBit p = true
    · simp [hb]
    · simp [hb]
  · intro i hi
    rw [Lis.getD_set, Nat.testBit_xor, Nat.testBit_two_pow]
    by_cases hi2 : i = n - 1 - p
    · rw [if_pos ⟨hi2, by omega⟩, hold]
      have e : n - 1 - i = p := by omega
      rw [e]
      by_cases hb : x.testBit p = true
      · simp [hb]
      · simp [hb]
    · rw [if_neg (fun h => hi2 h.1), hbits i hi]
      have e : ¬ p = n - 1 - i := by omega
      simp [e]

/-- One call of `Next` on the object left by `k` calls, when `k + 1` is below
`2 ^ n`: the call returns, the position is the count of trailing zeros of
`k + 1`, the entry `n - 1 - pos` of the code vector is toggled and no other, the
flag `add` tells whether the entry is now 1, the continue flag is false exactly
for the last index, and the object is the one left by `k + 1` calls. -/
theorem Next_step (g : GreyCode) (n k : Nat) (hg : g.At n k) (hn1 : 1 ≤ n) (hn : n ≤ 63)
    (hk : k + 1 < 2 ^ n) :
    ∃ g1 add pos, g.Next = some ((decide (k + 1 ≠ 2 ^ n - 1), add, pos), g1)
      ∧ 2 ^ pos ∣ k + 1 ∧ ¬ 2 ^ (pos + 1) ∣ k + 1 ∧ pos < n
      ∧ g1.code = g.code.set (n - 1 - pos) (if g.code.getD (n - 1 - pos) 0 = 0 then 1 else 0)
      ∧ (add = true ↔ g1.code.getD (n - 1 - pos) 0 = 1)
      ∧ g1.At n (k + 1) := by
  obtain ⟨e1, e2, e3, e4, e5⟩ := hg
  have h64 : k + 1 < 2 ^ 64 :=
    lt_of_lt_of_le hk (Nat.pow_le_pow_right (by decide) (by omega))
  obtain ⟨c1, c2⟩ := ctz_spec 64 (k + 1) (by omega) h64
  have hne := Next_eq g
  rw [e1, e2] at hne
  generalize ctz 64 (k + 1) = p at c1 c2 hne
  have hpos : p < n := by
    by_contra hc
    have h1 : 2 ^ n ∣ k + 1 := Nat.dvd_trans (Nat.pow_dvd_pow 2 (by omega)) c1
    have := Nat.le_of_dvd (by omega) h1
    omega
  have hm : ∃ m, k + 1 = 2 ^ p * (2 * m + 1) := by
    obtain ⟨q, hq⟩ := c1
    have hodd : q % 2 = 1 := by
      by_contra hc
      apply c2
      refine ⟨q / 2, ?_⟩
      rw [hq, Nat.pow_succ, Nat.mul_assoc]
      congr 1
      omega
    refine ⟨q / 2, ?_⟩
    have : 2 * (q / 2) + 1 = q := by omega
    rw [this]; exact hq
  obtain ⟨m, hm⟩ := hm
  have hstep := gray_step k p m hm
  have hlen : ((List.range (2 ^ n)).map (fun i => (i >>> 1) ^^^ i)).length = 2 ^ n := by
    rw [List.length_map, List.length_range]
  have hd1 := List.drop_eq_getElem_cons (l := (List.range (2 ^ n)).map (fun i => (i >>> 1) ^^^ i))
    (n := k) (by rw [hlen]; omega)
  have hd2 := List.drop_eq_getElem_cons (l := (List.range (2 ^ n)).map (fun i => (i >>> 1) ^^^ i))
    (n := k + 1) (by rw [hlen]; omega)
  have hlt0 : k < ((List.range (2 ^ n)).map (fun i => (i >>> 1) ^^^ i)).length := by
    rw [hlen]; omega
  have hlt1 : k + 1 < ((List.range (2 ^ n)).map (fun i => (i >>> 1) ^^^ i)).length := by
    rw [hlen]; omega
  have hnext : ((List.range (2 ^ n)).map (fun i => (i >>> 1) ^^^ i))[k + 1]
      = ((k + 1) >>> 1) ^^^ (k + 1) := by
    rw [List.getElem_map, List.getElem_range]
  rw [hnext] at hd2
  have hlast : (!decide (((k + 1) >>> 1) ^^^ (k + 1) = 2 ^ (n - 1)))
      = decide (k + 1 ≠ 2 ^ n - 1) := by
    have := gray_eq_top n (k + 1) hn1 hk
    by_cases h : k + 1 = 2 ^ n - 1
    · have h2 := this.2 h
      rw [decide_eq_true h2]
      simp [h]
    · have h2 : ¬ ((k + 1) >>> 1) ^^^ (k + 1) = 2 ^ (n - 1) := fun e => h (this.1 e)
      simp [h, h2]
  have hnum : g.numbers
      = ((List.range (2 ^ n)).map (fun i => (i >>> 1) ^^^ i))[k]
        :: (((k + 1) >>> 1) ^^^ (k + 1))
        :: ((List.range (2 ^ n)).map (fun i => (i >>> 1) ^^^ i)).drop (k + 1 + 1) :=
    e5.trans (hd1.trans (congrArg (List.cons _) hd2))
  obtain ⟨g1, hcall, f1, f2, f3, f4⟩ := hne _ _ _ hpos hnum
  rw [hlast] at hcall
  obtain ⟨b1, b2⟩ := bits_toggle g.code n ((k >>> 1) ^^^ k) p e3 hpos e4
  refine ⟨g1, _, p, hcall, c1, c2, hpos, f3, ?_, f1, f2, ?_, fun i hi => ?_, ?_⟩
  · rw [f3, b1]
    by_cases hb : ((k >>> 1) ^^^ k).testBit p = true
    · simp [hb]
    · simp [hb]
  · rw [f3, List.length_set]; exact e3
  · rw [f3, hstep]
    exact b2 i hi
  · rw [f4]
    exact hd2.symm

/-- The first `k` calls of `Next` on `GreyCode(n)` return, for `n <= 30` and
`k < 2 ^ n`, and leave the counter at `k`, the bits of `k >> 1 ^ k` in the
code vector and the numbers from index `k` on in `numbers`. -/
theorem after_at (n : Nat) (hn1 : 1 ≤ n) (hn : n ≤ 30) :
    ∀ k, k < 2 ^ n → ∃ g, GreyCode.after k (GreyCode.new n) = some g ∧ g.At n k := by
  intro k
  induction k with
  | zero =>
    intro _
    refine ⟨GreyCode.new n, rfl, rfl, rfl, by simp [GreyCode.new], fun i hi => ?_, ?_⟩
    · simp [GreyCode.new, List.getD_eq_getElem?_getD, hi]
    · simp [GreyCode.new, shl1_eq n hn]
  | succ k ih =>
    intro hk
    obtain ⟨g, h1, h2⟩ := ih (by omega)
    obtain ⟨g1, add, pos, h3, -, -, -, -, -, h4⟩ := Next_step g n k h2 hn1 (by omega) hk
    refine ⟨g1, ?_, h4⟩
    unfold GreyCode.after
    rw [h1]
    simp only [h3]

/-- Claim C27 fails as stated for `n = 31`: `1 << 31` is negative in `int`, the
two loops of the constructor make no iteration, `numbers` is empty and the
first call of `Next` reads `numbers[0]` outside the container. -/
theorem greycode_31_has_no_numbers :
    shl1 31 = -2147483648 ∧ (GreyCode.new 31).numbers = []
      ∧ (GreyCode.new 31).GetSave = [] ∧ (GreyCode.new 31).Next = none
      ∧ 1 ≤ 2 ^ 31 - 1 := by
  refine ⟨by decide, by decide, by decide, ?_, by decide⟩
  unfold GreyCode.Next
  have h1 : (GreyCode.new 31).numbers = [] := by decide
  simp only [h1]
  simp

/-- The amended claim C27: for every `n` with `1 <= n <= 30` and every `k` with
`1 <= k <= 2^n - 1`, the first `k` calls of `Next` on `GreyCode(n)` return; the
`k`-th call reports the position `pos` that is the number of trailing zero bits
of `k`, toggles the entry `n - 1 - pos` of the code vector between 0 and 1 and
changes no other entry, reports `add` true exactly when the entry is now 1, and
returns the continue flag false exactly when `k = 2^n - 1`; the code vector
read as a binary number, entry 0 most significant, is then `k xor (k >> 1)`,
which is the entry `k` of the vector that `GetSave` returns for the fresh
object. -/
theorem greycode_next_spec (n k : Nat) (hn1 : 1 ≤ n) (hn : n ≤ 30) (hk1 : 1 ≤ k)
    (hk : k ≤ 2 ^ n - 1) :
    ∃ g0 g1 add pos, GreyCode.after (k - 1) (GreyCode.new n) = some g0
      ∧ g0.Next = some ((decide (k ≠ 2 ^ n - 1), add, pos), g1)
      ∧ GreyCode.after k (GreyCode.new n) = some g1
      ∧ 2 ^ pos ∣ k ∧ ¬ 2 ^ (pos + 1) ∣ k ∧ pos < n
      ∧ g0.code.length = n ∧ (∀ i, i < n → g0.code.getD i 0 ≤ 1)
      ∧ g1.code = g0.code.set (n - 1 - pos) (if g0.code.getD (n - 1 - pos) 0 = 0 then 1 else 0)
      ∧ (add = true ↔ g1.code.getD (n - 1 - pos) 0 = 1)
      ∧ binVal g1.code = k ^^^ (k >>> 1)
      ∧ (GreyCode.new n).GetSave.get? k = some (k ^^^ (k >>> 1)) := by
  have hpow : 0 < 2 ^ n := Nat.two_pow_pos n
  obtain ⟨k0, rfl⟩ : ∃ k0, k = k0 + 1 := ⟨k - 1, by omega⟩
  have hk0 : k0 + 1 < 2 ^ n := by omega
  obtain ⟨g0, a1, a2⟩ := after_at n hn1 hn k0 (by omega)
  obtain ⟨g1, add, pos, b1, b2, b3, b4, b5, b6, b7⟩ := Next_step g0 n k0 a2 hn1 (by omega) hk0
  have hG : (k0 + 1) ^^^ ((k0 + 1) >>> 1) < 2 ^ n :=
    Nat.xor_lt_two_pow hk0 (lt_of_le_of_lt (by
      rw [Nat.shiftRight_eq_div_pow]; exact Nat.div_le_self _ _) hk0)
  refine ⟨g0, g1, add, pos, by rw [Nat.add_sub_cancel]; exact a1, b1, ?_, b2, b3, b4, a2.length,
    fun i hi => ?_, b5, b6, ?_, ?_⟩
  · unfold GreyCode.after
    rw [a1]
    simp only [b1]
  · rw [a2.bits i hi]
    split <;> omega
  · rw [Nat.xor_comm]
    refine binVal_bits g1.code _ (by rw [b7.length, Nat.xor_comm]; exact hG) (fun i hi => ?_)
    rw [b7.length] at hi ⊢
    exact b7.bits i hi
  · show ((List.range (shl1 n).toNat).map (fun i => (i >>> 1) ^^^ i)).get? (k0 + 1) = _
    rw [shl1_eq n hn, List.get?_eq_getElem?, List.getElem?_map,
      List.getElem?_range (by omega)]
    simp [Nat.xor_comm]

/-- The amended claim C27 for `n = 3` and `k = 6`: the sixth call of `Next`
reports the position 1 (6 has one trailing zero bit), clears the entry 1 of the
code vector, which becomes 1, 0, 1, that is `6 xor 3 = 5`, and asks to continue. -/
theorem greycode_next_spec_witness :
    ((GreyCode.after 6 (GreyCode.new 3)).map (fun g => g.code)) = some [1, 0, 1]
      ∧ ((GreyCode.after 5 (GreyCode.new 3)).bind (fun g => g.Next)).map (fun r => r.1)
          = some (true, false, 1)
      ∧ ∃ g0 g1 add pos, GreyCode.after (6 - 1) (GreyCode.new 3) = some g0
        ∧ g0.Next = some ((decide (6 ≠ 2 ^ 3 - 1), add, pos), g1)
        ∧ GreyCode.after 6 (GreyCode.new 3) = some g1
        ∧ 2 ^ pos ∣ 6 ∧ ¬ 2 ^ (pos + 1) ∣ 6 ∧ pos < 3
        ∧ g0.code.length = 3 ∧ (∀ i, i < 3 → g0.code.getD i 0 ≤ 1)
        ∧ g1.code = g0.code.set (3 - 1 - pos) (if g0.code.getD (3 - 1 - pos) 0 = 0 then 1 else 0)
        ∧ (add = true ↔ g1.code.getD (3 - 1 - pos) 0 = 1)
        ∧ binVal g1.code = 6 ^^^ (6 >>> 1)
        ∧ (GreyCode.new 3).GetSave.get? 6 = some (6 ^^^ (6 >>> 1)) :=
  ⟨by decide, by decide, greycode_next_spec 3 6 (by decide) (by decide) (by decide) (by decide)⟩

end Knapsack

/-! ## Properties of `mergesort` -/

namespace Mergesort

/-- The elements of an array from an offset, one at a time. -/
theorem slice_succ (a : Nat → Int) (off n : Nat) :
    slice a off (n + 1) = a off :: slice a (off + 1) n := by
  unfold slice
  rw [List.range_succ_eq_map, List.map_cons, List.map_map]
  refine congrArg₂ _ rfl (List.map_congr_left fun i _ => ?_)
  show a (off + (i + 1)) = a (off + 1 + i)
  rw [Nat.add_assoc, Nat.add_comm 1 i]

/-- A range of an array splits in two. -/
theorem slice_append (a : Nat → Int) : ∀ (m off n : Nat),
    slice a off (m + n) = slice a off m ++ slice a (off + m) n := by
  intro m
  induction m with
  | zero => intro off n; simp [slice]
  | succ m ih =>
    intro off n
    have e : m + 1 + n = (m + n) + 1 := by omega
    rw [e, slice_succ, slice_succ, ih (off + 1) n, List.cons_append]
    have e2 : off + 1 + m = off + (m + 1) := by omega
    rw [e2]

/-- Arrays that agree on a range have the same elements there. -/
theorem slice_congr (a b : Nat → Int) (off len : Nat)
    (h : ∀ k, off ≤ k → k < off + len → a k = b k) : slice a off len = slice b off len := by
  unfold slice
  refine List.map_congr_left fun i hi => ?_
  rw [List.mem_range] at hi
  exact h _ (by omega) (by omega)

/-- The number of elements of a range. -/
theorem length_slice (a : Nat → Int) (off len : Nat) : (slice a off len).length = len := by
  simp [slice]

/-- A copying loop copies `n` elements and changes nothing else. -/
theorem copyLoop_spec (x : Nat → Int) : ∀ (n s d : Nat) (y : Nat → Int),
    slice (copyLoop x n s d y) d n = slice x s n
      ∧ ∀ k, (k < d ∨ d + n ≤ k) → copyLoop x n s d y k = y k := by
  intro n
  induction n with
  | zero => intro s d y; exact ⟨rfl, fun _ _ => rfl⟩
  | succ n ih =>
    intro s d y
    obtain ⟨h1, h2⟩ := ih (s + 1) (d + 1) (write y d (x s))
    have hd : copyLoop x (n + 1) s d y d = x s := by
      show copyLoop x n (s + 1) (d + 1) (write y d (x s)) d = x s
      rw [h2 d (by omega)]
      simp [write]
    refine ⟨?_, fun k hk => ?_⟩
    · rw [slice_succ, slice_succ, hd]
      exact congrArg _ h1
    · show copyLoop x n (s + 1) (d + 1) (write y d (x s)) k = y k
      rw [h2 k (by omega)]
      have : ¬ k = d := by omega
      simp [write, this]

/-- Merging two sorted lists with the comparison of `merge` gives a sorted list. -/
theorem pairwise_merge : ∀ (L R : List Int), L.Pairwise (· ≤ ·) → R.Pairwise (· ≤ ·) →
    (List.merge L R (fun a b => decide (a < b))).Pairwise (· ≤ ·) := by
  intro L
  induction L with
  | nil => intro R _ hR; rw [List.nil_merge]; exact hR
  | cons a l ihL =>
    intro R
    induction R with
    | nil => intro hL _; rw [List.merge_right]; exact hL
    | cons b r ihR =>
      intro hL hR
      rw [List.cons_merge_cons]
      rw [List.pairwise_cons] at hL hR
      by_cases hab : a < b
      · rw [if_pos (by simpa using hab), List.pairwise_cons]
        refine ⟨fun z hz => ?_, ihL (b :: r) hL.2 (List.pairwise_cons.2 hR)⟩
        rw [List.mem_merge, List.mem_cons] at hz
        rcases hz with hz | hz | hz
        · exact hL.1 z hz
        · rw [hz]; exact le_of_lt hab
        · exact le_trans (le_of_lt hab) (hR.1 z hz)
      · rw [if_neg (by simpa using hab), List.pairwise_cons]
        have hba : b ≤ a := not_lt.1 hab
        refine ⟨fun z hz => ?_, ihR (List.pairwise_cons.2 hL) hR.2⟩
        rw [List.mem_merge, List.mem_cons] at hz
        rcases hz with (hz | hz) | hz
        · rw [hz]; exact hba
        · exact le_trans hba (hL.1 z hz)
        · exact hR.1 z hz

/-- The first loop of `merge` ends within the iterations it is given, and with
the two copying loops after it the destination holds the merge of the two runs
of the source; nothing else of the destination changes. -/
theorem mergeLoop_spec (x : Nat → Int) (endL endR : Nat) :
    ∀ (fuel sL sR d : Nat) (y : Nat → Int), sL ≤ endL → sR ≤ endR →
      (endL - sL) + (endR - sR) ≤ fuel →
      ∃ r, mergeLoop x endL endR fuel sL sR d y = some r
        ∧ slice (copyLoop x (endR - r.2.1) r.2.1 (r.2.2.1 + (endL - r.1))
              (copyLoop x (endL - r.1) r.1 r.2.2.1 r.2.2.2)) d ((endL - sL) + (endR - sR))
            = List.merge (slice x sL (endL - sL)) (slice x sR (endR - sR))
                (fun a b => decide (a < b))
        ∧ ∀ k, (k < d ∨ d + ((endL - sL) + (endR - sR)) ≤ k) →
            copyLoop x (endR - r.2.1) r.2.1 (r.2.2.1 + (endL - r.1))
              (copyLoop x (endL - r.1) r.1 r.2.2.1 r.2.2.2) k = y k := by
  have done : ∀ (sL sR d : Nat) (y : Nat → Int), sL ≤ endL → sR ≤ endR →
      ¬ (sL < endL ∧ sR < endR) →
      slice (copyLoop x (endR - sR) sR (d + (endL - sL)) (copyLoop x (endL - sL) sL d y)) d
          ((endL - sL) + (endR - sR))
        = List.merge (slice x sL (endL - sL)) (slice x sR (endR - sR)) (fun a b => decide (a < b))
      ∧ ∀ k, (k < d ∨ d + ((endL - sL) + (endR - sR)) ≤ k) →
          copyLoop x (endR - sR) sR (d + (endL - sL)) (copyLoop x (endL - sL) sL d y) k = y k := by
    intro sL sR d y h1 h2 hc
    obtain ⟨a1, a2⟩ := copyLoop_spec x (endL - sL) sL d y
    obtain ⟨b1, b2⟩ := copyLoop_spec x (endR - sR) sR (d + (endL - sL))
      (copyLoop x (endL - sL) sL d y)
    refine ⟨?_, fun k hk => ?_⟩
    · rw [slice_append, b1]
      have : slice (copyLoop x (endR - sR) sR (d + (endL - sL)) (copyLoop x (endL - sL) sL d y))
          d (endL - sL) = slice x sL (endL - sL) := by
        rw [← a1]
        exact slice_congr _ _ _ _ (fun k hk1 hk2 => b2 k (Or.inl hk2))
      rw [this]
      rcases Nat.lt_or_ge sL endL with hl | hl
      · have hr : endR - sR = 0 := by
          have : ¬ sR < endR := fun h => hc ⟨hl, h⟩
          omega
        rw [hr]
        simp [slice, List.merge_right]
      · have hl0 : endL - sL = 0 := by omega
        rw [hl0]
        simp [slice, List.nil_merge]
    · rw [b2 k (by omega), a2 k (by omega)]
  intro fuel
  induction fuel with
  | zero =>
    intro sL sR d y h1 h2 hf
    have hc : ¬ (sL < endL ∧ sR < endR) := by omega
    refine ⟨(sL, sR, d, y), ?_, done sL sR d y h1 h2 hc⟩
    unfold mergeLoop
    rw [if_neg hc]
  | succ fuel ih =>
    intro sL sR d y h1 h2 hf
    by_cases hc : sL < endL ∧ sR < endR
    · obtain ⟨mL, hmL1, hmL2⟩ : ∃ m, endL - sL = m + 1 ∧ endL - (sL + 1) = m :=
        ⟨endL - sL - 1, by omega, by omega⟩
      obtain ⟨mR, hmR1, hmR2⟩ : ∃ m, endR - sR = m + 1 ∧ endR - (sR + 1) = m :=
        ⟨endR - sR - 1, by omega, by omega⟩
      unfold mergeLoop
      rw [if_pos hc]
      by_cases hlt : x sL < x sR
      · rw [if_pos hlt]
        obtain ⟨r, hr1, hr2, hr3⟩ := ih (sL + 1) sR (d + 1) (write y d (x sL)) (by omega) h2
          (by omega)
        refine ⟨r, hr1, ?_, fun k hk => ?_⟩
        · have hd := hr3 d (Or.inl (by omega))
          rw [hmL2] at hr2
          have e : endL - sL + (endR - sR) = (mL + (endR - sR)) + 1 := by omega
          rw [e, slice_succ, hr2, hd, hmL1, hmR1, slice_succ, slice_succ, List.cons_merge_cons,
            if_pos (by simpa using hlt)]
          simp [write]
        · rw [hr3 k (by omega)]
          have : ¬ k = d := by omega
          simp [write, this]
      · rw [if_neg hlt]
        obtain ⟨r, hr1, hr2, hr3⟩ := ih sL (sR + 1) (d + 1) (write y d (x sR)) h1 (by omega)
          (by omega)
        refine ⟨r, hr1, ?_, fun k hk => ?_⟩
        · have hd := hr3 d (Or.inl (by omega))
          rw [hmR2] at hr2
          have e : endL - sL + (endR - sR) = ((endL - sL) + mR) + 1 := by omega
          rw [e, slice_succ, hr2, hd, hmL1, hmR1, slice_succ, slice_succ, List.cons_merge_cons,
            if_neg (by simpa using hlt)]
          simp [write]
        · rw [hr3 k (by omega)]
          have : ¬ k = d := by omega
          simp [write, this]
    · refine ⟨(sL, sR, d, y), ?_, done sL sR d y h1 h2 hc⟩
      unfold mergeLoop
      rw [if_neg hc]

/-- The function `merge` returns, and the destination holds from `dest` the
merge of the two runs `start .. mid` and `mid .. stop` of the source; nothing
else of the destination changes. -/
theorem merge_spec (x : Nat → Int) (start mid stop dest : Nat) (y : Nat → Int)
    (h1 : start ≤ mid) (h2 : mid ≤ stop) :
    ∃ y1, merge x start mid stop dest y = some y1
      ∧ slice y1 dest ((mid - start) + (stop - mid))
          = List.merge (slice x start (mid - start)) (slice x mid (stop - mid))
              (fun a b => decide (a < b))
      ∧ ∀ k, (k < dest ∨ dest + ((mid - start) + (stop - mid)) ≤ k) → y1 k = y k := by
  obtain ⟨r, hr1, hr2, hr3⟩ := mergeLoop_spec x mid stop ((mid - start) + (stop - mid))
    start mid dest y h1 h2 (le_refl _)
  unfold merge
  rw [hr1]
  exact ⟨_, rfl, hr2, hr3⟩


/-- A list of at most one element is sorted. -/
theorem pairwise_of_length_le_one (l : List Int) (h : l.length ≤ 1) : l.Pairwise (· ≤ ·) := by
  match l, h with
  | [], _ => exact List.Pairwise.nil
  | [a], _ => exact List.pairwise_singleton _ _
  | _ :: _ :: _, h => simp at h

/-- With enough nesting depth `merge_rec` returns; when the two arrays hold the
same `len` elements from `off`, the destination array then holds these
elements sorted, and both arrays are unchanged outside that range. -/
theorem merge_rec_spec : ∀ (fuel : Nat) (x y : Nat → Int) (off len : Nat), len ≤ fuel + 1 →
    slice x off len = slice y off len →
    ∃ x1 y1, merge_rec fuel x y off len = some (x1, y1)
      ∧ (slice y1 off len).Pairwise (· ≤ ·)
      ∧ (slice y1 off len).Perm (slice x off len)
      ∧ (∀ k, (k < off ∨ off + len ≤ k) → x1 k = x k)
      ∧ (∀ k, (k < off ∨ off + len ≤ k) → y1 k = y k) := by
  intro fuel
  induction fuel with
  | zero =>
    intro x y off len hf heq
    have hlen : len < 2 := by omega
    refine ⟨x, y, ?_, ?_, ?_, fun _ _ => rfl, fun _ _ => rfl⟩
    · unfold merge_rec; rw [if_pos hlen]
    · exact pairwise_of_length_le_one _ (by rw [length_slice]; omega)
    · rw [heq]
  | succ fuel ih =>
    intro x y off len hf heq
    by_cases hlen : len < 2
    · refine ⟨x, y, ?_, ?_, ?_, fun _ _ => rfl, fun _ _ => rfl⟩
      · unfold merge_rec; rw [if_pos hlen]
      · exact pairwise_of_length_le_one _ (by rw [length_slice]; omega)
      · rw [heq]
    · obtain ⟨m, hm⟩ : ∃ m, len = len / 2 + m ∧ len - len / 2 = m := ⟨len - len / 2, by omega, rfl⟩
      have hhalf : len / 2 < len := by omega
      have hm0 : m ≤ fuel + 1 := by omega
      -- the two halves of the two arrays agree
      have heq2 := heq
      rw [hm.1, slice_append, slice_append] at heq2
      obtain ⟨e1, e2⟩ := List.append_inj heq2 (by rw [length_slice, length_slice])
      -- first call
      obtain ⟨y1, x1, c1, p1, q1, fy1, fx1⟩ := ih y x off (len / 2) (by omega) e1.symm
      -- second call
      have e3 : slice y1 (off + len / 2) m = slice x1 (off + len / 2) m := by
        rw [slice_congr y1 y _ _ (fun k h1 h2 => fy1 k (Or.inr h1)),
          slice_congr x1 x _ _ (fun k h1 h2 => fx1 k (Or.inr h1)), e2]
      obtain ⟨y2, x2, c2, p2, q2, fy2, fx2⟩ := ih y1 x1 (off + len / 2) m hm0 e3
      -- merge
      obtain ⟨y3, c3, s3, f3⟩ := merge_spec x2 off (off + len / 2) (off + len) off y2
        (by omega) (by omega)
      have a1 : off + len / 2 - off = len / 2 := by omega
      have a2 : off + len - (off + len / 2) = m := by omega
      rw [a1, a2, ← hm.1] at s3 f3
      have hx2 : slice x2 off (len / 2) = slice x1 off (len / 2) :=
        slice_congr _ _ _ _ (fun k h1 h2 => fx2 k (Or.inl h2))
      refine ⟨x2, y3, ?_, ?_, ?_, fun k hk => ?_, fun k hk => ?_⟩
      · unfold merge_rec
        rw [if_neg hlen]
        simp only [c1, hm.2, c2, c3]
      · rw [s3]
        exact pairwise_merge _ _ (by rw [hx2]; exact p1) p2
      · rw [s3]
        refine (List.merge_perm_append _).trans ?_
        rw [hx2]
        have hx : slice x off len = slice x off (len / 2) ++ slice x (off + len / 2) m := by
          conv_lhs => rw [hm.1]
          exact slice_append _ _ _ _
        rw [hx]
        refine List.Perm.append (q1.trans (by rw [e1])) (q2.trans ?_)
        rw [slice_congr y1 y _ _ (fun k h1 h2 => fy1 k (Or.inr h1)), e2]
      · rw [fx2 k (by omega), fx1 k (by omega)]
      · rw [f3 k hk, fy2 k (by omega), fy1 k (by omega)]

/-- Claim C14: for every array `a` and every length `r` (0 and 1 included),
`mergesort` returns, and afterwards the `r` elements of the array are in
non-decreasing order and are a permutation of the `r` elements before the
call; the elements from index `r` on are unchanged. -/
theorem mergesort_spec (a : Nat → Int) (r : Nat) :
    ∃ a1, mergesort a r = some a1
      ∧ (slice a1 0 r).Pairwise (· ≤ ·)
      ∧ (slice a1 0 r).Perm (slice a 0 r)
      ∧ ∀ k, r ≤ k → a1 k = a k := by
  by_cases hr : r ≤ 1
  · refine ⟨a, ?_, pairwise_of_length_le_one _ (by rw [length_slice]; exact hr),
      List.Perm.refl _, fun _ _ => rfl⟩
    unfold mergesort
    rw [if_pos hr]
  · have hcopy : slice (fun i => if i < r then a i else 0) 0 r = slice a 0 r :=
      slice_congr _ _ _ _ (fun k _ h2 => by
        have : k < r := by omega
        simp [this])
    obtain ⟨x1, y1, c, p, q, _, fy⟩ := merge_rec_spec r (fun i => if i < r then a i else 0) a 0 r
      (by omega) hcopy
    refine ⟨y1, ?_, p, q.trans (by rw [hcopy]), fun k hk => fy k (Or.inr (by omega))⟩
    unfold mergesort
    rw [if_neg hr]
    simp only [c, Option.map_some']

end Mergesort

/-! ## Properties of `quicksort` -/

namespace Quicksort

/-- An integer in the range of `int` is its own value as an `int`. -/
theorem toInt_eq (n : Int) (h1 : -2147483648 ≤ n) (h2 : n < 2147483648) : toInt n = n := by
  unfold toInt
  split
  · omega
  · rw [Int.negSucc_eq]; omega

/-- The value as an `int` lies in the range of `int` and differs from the
integer by a multiple of `2^32`. -/
theorem toInt_range (n : Int) :
    -2147483648 ≤ toInt n ∧ toInt n < 2147483648 ∧ (toInt n - n) % 4294967296 = 0 := by
  unfold toInt
  split
  · omega
  · rw [Int.negSucc_eq]; omega

/-- A non-negative `int` keeps its value when converted to `unsigned`. -/
theorem toUnsigned_eq (n : Int) (h1 : 0 ≤ n) (h2 : n < 2147483648) :
    ((toUnsigned n : Nat) : Int) = n := by
  unfold toUnsigned; omega

/-- The function `swap` composes the array with the transposition of the two indices. -/
theorem swap_eq (a : Int → Int) (i j k : Int) : swap a i j k = a (Equiv.swap i j k) := by
  unfold swap
  rw [Equiv.swap_apply_def]
  by_cases h1 : k = i
  · rw [if_pos h1, if_pos h1]
  · rw [if_neg h1, if_neg h1]
    by_cases h2 : k = j
    · rw [if_pos h2, if_pos h2]
    · rw [if_neg h2, if_neg h2]

/-- A permutation that moves no index outside a range maps the range to itself. -/
theorem perm_mem_range (σ : Equiv.Perm Int) (lo hi : Int)
    (h : ∀ k, ¬ (lo ≤ k ∧ k < hi) → σ k = k) (k : Int) (hk : lo ≤ k ∧ k < hi) :
    lo ≤ σ k ∧ σ k < hi := by
  by_contra hc
  have h1 := h (σ k) hc
  have h2 : σ k = k := σ.injective h1
  rw [h2] at hc
  exact hc hk

/-- The loop of `partition` ends within the iterations it is given; it keeps
the elements not above the pivot value at the positions `l + 1 .. i` and the
elements above it at the positions `i + 1 .. j - 1`, and permutes the elements
at the positions `l + 1 .. r - 1` only. -/
theorem partitionLoop_spec (start l r : Int) (hl : -2147483648 ≤ l) (hr : r < 2147483648) :
    ∀ (n : Nat) (j i : Int) (a : Int → Int), l ≤ i → i < j → j ≤ r → (r - j).toNat ≤ n →
      (∀ k, l < k → k ≤ i → a k ≤ start) → (∀ k, i < k → k < j → start < a k) →
      ∃ p b, partitionLoop start r n j i a = some (p, b)
        ∧ l ≤ p ∧ p < r
        ∧ (∀ k, l < k → k ≤ p → b k ≤ start) ∧ (∀ k, p < k → k < r → start < b k)
        ∧ ∃ σ : Equiv.Perm Int, (∀ k, ¬ (l < k ∧ k < r) → σ k = k) ∧ ∀ k, b k = a (σ k) := by
  intro n
  induction n with
  | zero =>
    intro j i a h1 h2 h3 h4 H1 H2
    have hj : ¬ j < r := by omega
    have hjr : j = r := by omega
    refine ⟨i, a, ?_, h1, by omega, H1, fun k hk1 hk2 => H2 k hk1 (by omega), 1,
      fun _ _ => rfl, fun _ => rfl⟩
    unfold partitionLoop
    rw [if_neg hj]
  | succ n ih =>
    intro j i a h1 h2 h3 h4 H1 H2
    by_cases hj : j < r
    · have ej : toInt (j + 1) = j + 1 := toInt_eq _ (by omega) (by omega)
      have ei : toInt (i + 1) = i + 1 := toInt_eq _ (by omega) (by omega)
      unfold partitionLoop
      rw [if_pos hj, ej, ei]
      by_cases hle : a j ≤ start
      · rw [if_pos hle]
        obtain ⟨p, b, c1, c2, c3, c4, c5, σ, s1, s2⟩ := ih (j + 1) (i + 1) (swap a (i + 1) j)
          (by omega) (by omega) (by omega) (by omega)
          (fun k hk1 hk2 => by
            unfold swap
            by_cases e : k = i + 1
            · rw [if_pos e]; exact hle
            · have : ¬ k = j := by omega
              rw [if_neg e, if_neg this]
              exact H1 k hk1 (by omega))
          (fun k hk1 hk2 => by
            unfold swap
            have e : ¬ k = i + 1 := by omega
            rw [if_neg e]
            by_cases e2 : k = j
            · rw [if_pos e2]; exact H2 (i + 1) (by omega) (by omega)
            · rw [if_neg e2]; exact H2 k (by omega) (by omega))
        refine ⟨p, b, c1, by omega, c3, ?_, c5, Equiv.swap (i + 1) j * σ, fun k hk => ?_,
          fun k => ?_⟩
        · intro k hk1 hk2
          exact c4 k hk1 hk2
        · rw [Equiv.Perm.mul_apply, s1 k hk]
          exact Equiv.swap_apply_of_ne_of_ne (by omega) (by omega)
        · rw [s2 k, swap_eq, Equiv.Perm.mul_apply]
      · rw [if_neg hle]
        obtain ⟨p, b, c1, c2, c3, c4, c5, σ, s1, s2⟩ := ih (j + 1) i a
          h1 (by omega) (by omega) (by omega) H1
          (fun k hk1 hk2 => by
            by_cases e : k = j
            · rw [e]; exact not_le.1 hle
            · exact H2 k hk1 (by omega))
        exact ⟨p, b, c1, c2, c3, c4, c5, σ, s1, s2⟩
    · have hjr : j = r := by omega
      refine ⟨i, a, ?_, h1, by omega, H1, fun k hk1 hk2 => H2 k hk1 (by omega), 1,
        fun _ _ => rfl, fun _ => rfl⟩
      unfold partitionLoop
      rw [if_neg hj]

/-- For `l < r` in the range of `int`, `partition` returns an index `p` of the
range with the elements before it not above the element at `p` and the
elements after it above, and permutes the elements of the range only. -/
theorem partition_spec (a : Int → Int) (l r : Int) (hl : -2147483648 ≤ l) (hr : r < 2147483648)
    (hlr : l < r) :
    ∃ p b, partition a l r = some (p, b) ∧ l ≤ p ∧ p < r
      ∧ (∀ k, l ≤ k → k < p → b k ≤ b p) ∧ (∀ k, p < k → k < r → b p < b k)
      ∧ PermutedOn a b l r := by
  have el : toInt (l + 1) = l + 1 := toInt_eq _ (by omega) (by omega)
  obtain ⟨p, b, c1, c2, c3, c4, c5, σ, s1, s2⟩ := partitionLoop_spec (a l) l r hl hr
    (r - (l + 1)).toNat (l + 1) l a (le_refl _) (by omega) (by omega) (le_refl _)
    (fun k hk1 hk2 => by omega) (fun k hk1 hk2 => by omega)
  have hbl : b l = a l := by rw [s2 l, s1 l (by omega)]
  have hp : swap b p l p = a l := by
    unfold swap
    rw [if_pos rfl, hbl]
  refine ⟨p, swap b p l, ?_, c2, c3, fun k hk1 hk2 => ?_, fun k hk1 hk2 => ?_,
    σ * Equiv.swap p l, fun k hk => ?_, fun k => ?_⟩
  · unfold partition
    simp only [el, c1]
  · rw [hp]
    unfold swap
    have e : ¬ k = p := by omega
    rw [if_neg e]
    by_cases e2 : k = l
    · rw [if_pos e2]; exact c4 p (by omega) (le_refl _)
    · rw [if_neg e2]; exact c4 k (by omega) (by omega)
  · rw [hp]
    unfold swap
    have e : ¬ k = p := by omega
    have e2 : ¬ k = l := by omega
    rw [if_neg e, if_neg e2]
    exact c5 k hk1 hk2
  · rw [Equiv.Perm.mul_apply, Equiv.swap_apply_of_ne_of_ne (by omega) (by omega)]
    exact s1 k (by omega)
  · rw [swap_eq, s2, Equiv.Perm.mul_apply]


/-- With nesting depth `r - l` or more, and `r` below `2^31`, `quicksort`
returns; the elements at the positions `l .. r - 1` are then sorted and are a
permutation of the elements that were there, the other elements being unchanged. -/
theorem quicksort_depth : ∀ (fuel : Nat) (a : Int → Int) (l r : Nat), r < 2147483648 →
    r - l ≤ fuel →
    ∃ b, quicksort fuel a l r = some b ∧ SortedOn b l r ∧ PermutedOn a b l r := by
  intro fuel
  induction fuel with
  | zero =>
    intro a l r _ hf
    have hlr : ¬ l < r := by omega
    refine ⟨a, ?_, fun i j h1 h2 h3 => by omega, 1, fun _ _ => rfl, fun _ => rfl⟩
    unfold quicksort
    rw [if_neg hlr]
  | succ fuel ih =>
    intro a l r hr hf
    by_cases hlr : l < r
    · have el : toInt (l : Int) = l := toInt_eq _ (by omega) (by omega)
      have er : toInt (r : Int) = r := toInt_eq _ (by omega) (by omega)
      obtain ⟨p, a1, c1, c2, c3, c4, c5, σ1, s1, t1⟩ := partition_spec a l r (by omega)
        (by omega) (by omega)
      have ep : ((toUnsigned p : Nat) : Int) = p := toUnsigned_eq p (by omega) (by omega)
      have ep1 : toInt (p + 1) = p + 1 := toInt_eq _ (by omega) (by omega)
      have ep2 : ((toUnsigned (p + 1) : Nat) : Int) = p + 1 :=
        toUnsigned_eq (p + 1) (by omega) (by omega)
      obtain ⟨a2, d1, d2, σ2, s2, t2⟩ := ih a1 l (toUnsigned p) (by omega) (by omega)
      obtain ⟨a3, g1, g2, σ3, s3, t3⟩ := ih a2 (toUnsigned (p + 1)) r hr (by omega)
      rw [ep] at d2 s2
      rw [ep2] at g2 s3
      -- the three parts of the final array
      have low : ∀ k, (l : Int) ≤ k → k < p → a3 k = a2 k ∧ a2 k ≤ a1 p := by
        intro k hk1 hk2
        have h3 : σ3 k = k := s3 k (by omega)
        have hm := perm_mem_range σ2 l p s2 k ⟨hk1, hk2⟩
        refine ⟨by rw [t3 k, h3], ?_⟩
        rw [t2 k]
        exact c4 _ hm.1 hm.2
      have mid : a3 p = a1 p := by
        rw [t3 p, s3 p (by omega), t2 p, s2 p (by omega)]
      have high : ∀ k, p < k → k < (r : Int) → a1 p < a3 k := by
        intro k hk1 hk2
        have hm := perm_mem_range σ3 (p + 1) r s3 k ⟨by omega, hk2⟩
        rw [t3 k, t2 (σ3 k), s2 (σ3 k) (by omega)]
        exact c5 _ (by omega) hm.2
      refine ⟨a3, ?_, ?_, σ1 * σ2 * σ3, fun k hk => ?_, fun k => ?_⟩
      · unfold quicksort
        rw [if_pos hlr]
        simp only [el, er, c1, d1, ep1, g1]
      · intro i j hi hij hj
        rcases lt_trichotomy i p with hip | hip | hip
        · rcases lt_trichotomy j p with hjp | hjp | hjp
          · rw [(low i hi hip).1, (low j (by omega) hjp).1]
            exact d2 i j hi hij hjp
          · rw [hjp, mid, (low i hi hip).1]
            exact (low i hi hip).2
          · rw [(low i hi hip).1]
            exact le_of_lt (lt_of_le_of_lt (low i hi hip).2 (high j hjp hj))
        · rcases eq_or_lt_of_le hij with e | hlt
          · rw [e]
          · rw [hip, mid]
            exact le_of_lt (high j (by omega) hj)
        · exact g2 i j (by omega) hij hj
      · rw [Equiv.Perm.mul_apply, Equiv.Perm.mul_apply, s3 k (by omega), s2 k (by omega)]
        exact s1 k hk
      · rw [t3 k, t2, t1, Equiv.Perm.mul_apply, Equiv.Perm.mul_apply]
    · refine ⟨a, ?_, fun i j h1 h2 h3 => by omega, 1, fun _ _ => rfl, fun _ => rfl⟩
      unfold quicksort
      rw [if_neg hlr]

/-- The amended claim C15: for every array `a` and indices `l`, `r` with `r`
below `2^31`, `quicksort` returns within the nesting depth `r - l`, and
afterwards the elements at the positions `l .. r - 1` are in non-decreasing
order and are a permutation of the elements originally at those positions,
while every element outside `l .. r - 1` is unchanged. -/
theorem quicksort_spec (a : Int → Int) (l r fuel : Nat) (hr : r < 2147483648)
    (hf : r - l ≤ fuel) :
    ∃ b, quicksort fuel a l r = some b
      ∧ SortedOn b l r
      ∧ PermutedOn a b l r
      ∧ ∀ k : Int, ¬ ((l : Int) ≤ k ∧ k < r) → b k = a k := by
  obtain ⟨b, h1, h2, σ, s, t⟩ := quicksort_depth fuel a l r hr hf
  exact ⟨b, h1, h2, ⟨σ, s, t⟩, fun k hk => by rw [t k, s k hk]⟩

/-- The amended claim C15 on the array 5, 2, 9, 1, 3 with `l = 0`, `r = 5`: the
call returns the array 1, 2, 3, 5, 9. -/
theorem quicksort_spec_witness :
    (5 : Nat) < 2147483648 ∧ 5 - 0 ≤ 5
      ∧ (quicksort 5 (fun k => [5, 2, 9, 1, 3].getD k.toNat 0) 0 5).map
          (fun a => (List.range 5).map (fun i => a i)) = some [1, 2, 3, 5, 9]
      ∧ ∃ b, quicksort 5 (fun k => [5, 2, 9, 1, 3].getD k.toNat 0) 0 5 = some b
        ∧ SortedOn b (0 : Nat) (5 : Nat)
        ∧ PermutedOn (fun k => [5, 2, 9, 1, 3].getD k.toNat 0) b (0 : Nat) (5 : Nat)
        ∧ ∀ k : Int, ¬ (((0 : Nat) : Int) ≤ k ∧ k < (5 : Nat)) →
            b k = (fun k => [5, 2, 9, 1, 3].getD k.toNat 0) k :=
  ⟨by decide, by decide, by decide,
    quicksort_spec (fun k => [5, 2, 9, 1, 3].getD k.toNat 0) 0 5 5 (by decide) (by decide)⟩

/-- Claim C15 fails as stated: for `l = 2^31 - 2` and `r = 2^31` the bound `r`
is negative as the `int` that `partition` takes, no element is moved, and the
call returns the array unchanged, with the elements 1, 0 at the positions
`l`, `l + 1`, which are not in order. -/
theorem quicksort_large_index :
    (2147483646 : Nat) ≤ 2147483648
      ∧ (quicksort 3 (fun k => if k = 2147483646 then 1 else 0) 2147483646 2147483648).map
          (fun a => (a 2147483646, a 2147483647)) = some (1, 0)
      ∧ ∀ b : Int → Int, b 2147483646 = 1 → b 2147483647 = 0 →
          ¬ SortedOn b (2147483646 : Nat) (2147483648 : Nat) := by
  refine ⟨by decide, by decide, fun b h1 h2 hs => ?_⟩
  have := hs 2147483646 2147483647 (by norm_num) (by norm_num) (by norm_num)
  rw [h1, h2] at this
  exact absurd this (by decide)

end Quicksort

/-! ## Counting the occupied slots -/

namespace OAHashTable
open Example

/-- The decrement of an `unsigned` that is not zero. -/
theorem u32_pred (c : Nat) (h1 : 1 ≤ c) (h2 : c ≤ 4294967296) : u32 (c + 4294967295) = c - 1 := by
  unfold u32; omega

/-- Changing a slot outside a range does not change the number of occupied
slots of the range. -/
theorem numOccupied_setSlot_of_not_mem (tb : Nat → OAHTSlot T) (k : Nat) (s : OAHTSlot T) :
    ∀ (n i : Nat), (k < i ∨ i + n ≤ k) →
      numOccupied (setSlot tb k s) n i = numOccupied tb n i := by
  intro n
  induction n with
  | zero => intro i _; rfl
  | succ n ih =>
    intro i hk
    have hne : ¬ i = k := by omega
    simp only [numOccupied, setSlot, if_neg hne]
    rw [← ih (i + 1) (by omega)]

/-- Changing a slot of a range changes the number of occupied slots of the
range by the difference of the two states. -/
theorem numOccupied_setSlot (tb : Nat → OAHTSlot T) (k : Nat) (s : OAHTSlot T) :
    ∀ (n i : Nat), i ≤ k → k < i + n →
      numOccupied (setSlot tb k s) n i + (if (tb k).State = .OCCUPIED then 1 else 0)
        = numOccupied tb n i + (if s.State = .OCCUPIED then 1 else 0) := by
  intro n
  induction n with
  | zero => intro i h1 h2; omega
  | succ n ih =>
    intro i h1 h2
    by_cases hik : i = k
    · subst hik
      have h3 := numOccupied_setSlot_of_not_mem tb i s n (i + 1) (Or.inl (by omega))
      simp only [numOccupied, h3, setSlot, if_pos]
      omega
    · have h3 := ih (i + 1) (by omega) (by omega)
      simp only [numOccupied, setSlot, if_neg hik]
      simp only [setSlot] at h3
      omega

/-- A range has at most as many occupied slots as slots. -/
theorem numOccupied_le (tb : Nat → OAHTSlot T) : ∀ (n i : Nat), numOccupied tb n i ≤ n := by
  intro n
  induction n with
  | zero => intro i; exact le_refl _
  | succ n ih =>
    intro i
    have := ih (i + 1)
    simp only [numOccupied]
    split <;> omega

/-- A range with an occupied slot has a positive number of occupied slots. -/
theorem numOccupied_pos (tb : Nat → OAHTSlot T) : ∀ (n i p : Nat), i ≤ p → p < i + n →
    (tb p).State = .OCCUPIED → 0 < numOccupied tb n i := by
  intro n
  induction n with
  | zero => intro i p h1 h2; omega
  | succ n ih =>
    intro i p h1 h2 ho
    by_cases hip : i = p
    · subst hip
      simp only [numOccupied, if_pos ho]
      omega
    · have := ih (i + 1) p (by omega) (by omega) ho
      simp only [numOccupied]
      omega

/-- A range without occupied slots. -/
theorem numOccupied_eq_zero (tb : Nat → OAHTSlot T) : ∀ (n i : Nat),
    (∀ q, i ≤ q → q < i + n → (tb q).State ≠ .OCCUPIED) → numOccupied tb n i = 0 := by
  intro n
  induction n with
  | zero => intro i _; rfl
  | succ n ih =>
    intro i h
    simp only [numOccupied, if_neg (h i (le_refl _) (by omega))]
    rw [ih (i + 1) (fun q h1 h2 => h q (by omega) (by omega))]

/-- The method `insert` does not call the free procedure. -/
theorem insert_freed (alloc : Allocator T) :
    ∀ (fuel : Nat) (src : Option Nat) (t : OAHashTable T) (Key : List Nat) (Data : T)
      (r : Outcome T), insert alloc fuel src t Key Data = some r → r.2.freed = t.freed := by
  have body : ∀ (src : Option Nat) (t : OAHashTable T) (Key : List Nat) (Data : T),
      (insertBody src t Key Data).2.freed = t.freed := by
    intro src t Key Data
    rcases insertBody_cases src t Key Data with ⟨p, hp⟩ | ⟨p, idx, hp⟩
    · rw [hp]
    · rw [hp]; rfl
  intro fuel
  induction fuel with
  | zero =>
    intro src t Key Data r h
    unfold insert at h
    split at h
    · cases h
    · simp only [Option.some.injEq] at h
      rw [← h]; exact body _ _ _ _
  | succ fuel ih =>
    intro src t Key Data r h
    unfold insert at h
    split at h
    · have hg : ∀ r1, GrowTableWith (insert alloc fuel none) alloc t = some r1 →
          r1.2.freed = t.freed := by
        intro r1 hr1
        have hmv := moveSlots_induct (insert alloc fuel none) t.table
          (fun a b => b.freed = a.freed) (fun _ => rfl) (fun a b d hab hbd => hbd.trans hab)
          (fun t k d r hr => ih none t k d r hr)
        unfold GrowTableWith at hr1
        simp only [] at hr1
        by_cases hN : 4294967296
            ≤ GetClosestPrime (ceilMul t.stats.TableSize_ t.config.GrowthFactor_)
        · rw [if_pos hN] at hr1; cases hr1
        rw [if_neg hN] at hr1
        split at hr1
        · simp only [Option.some.injEq] at hr1
          rw [← hr1]
        · split at hr1
          · cases hr1
          · next e t1 heq =>
            simp only [Option.some.injEq] at hr1
            rw [← hr1]
            have := hmv _ _ _ _ heq
            exact this
          · next t1 heq =>
            simp only [Option.some.injEq] at hr1
            rw [← hr1]
            have := hmv _ _ _ _ heq
            exact this
      split at h
      · cases h
      · next e t1 heq =>
        simp only [Option.some.injEq] at h
        rw [← h]
        exact hg _ heq
      · next t1 heq =>
        split at h
        · simp only [Option.some.injEq] at h
          rw [← h, body]
          exact hg _ heq
        · cases h
    · simp only [Option.some.injEq] at h
      rw [← h]; exact body _ _ _ _


/-- A call of `insert` on a table given by an explicit record does not call the
free procedure. -/
theorem insert_freed_update (alloc : Allocator T)
    {fuel : Nat} {src : Option Nat} {c : OAHTConfig} {st : OAHTStats}
    {tb : Nat → OAHTSlot T} {fr : List T} {Key : List Nat} {Data : T} {r : Outcome T}
    (h : insert alloc fuel src { config := c, stats := st, table := tb, freed := fr } Key Data
      = some r) : r.2.freed = fr :=
  insert_freed alloc fuel _ _ _ _ _ h

/-- The compaction loop of `remove` does not call the free procedure. -/
theorem packLoop_freed (alloc : Allocator T) (fuel PIndex SIndex i : Nat) :
    ∀ (rem j : Nat) (t : OAHashTable T) (r : Outcome T),
      packLoop alloc fuel PIndex SIndex i rem j t = some r → r.2.freed = t.freed := by
  intro rem
  induction rem with
  | zero => intro j t r h; simp [packLoop] at h
  | succ rem ih =>
    intro j t r h
    unfold packLoop at h
    simp only [] at h
    split at h
    · split at h
      · split at h
        · cases h
        · next e t1 heq =>
          simp only [Option.some.injEq] at h
          rw [← h]
          exact insert_freed_update alloc heq
        · next t1 heq =>
          exact (ih _ _ _ h).trans (insert_freed_update alloc heq)
      · simp only [Option.some.injEq] at h
        rw [← h]
    · simp only [Option.some.injEq] at h
      rw [← h]

/-- Under PACK a successful `remove` found, on the probe sequence of the key, an
occupied slot holding the key, and ran the compaction loop on the table with
that slot made unoccupied, the count decremented and the data of the slot
logged when a free procedure is configured. -/
theorem removeLoop_pack (alloc : Allocator T) (fuel : Nat) (Key : List Nat)
    (PIndex SIndex : Nat) :
    ∀ (rem i : Nat) (t t1 : OAHashTable T), t.config.DeletionPolicy_ = .PACK →
      removeLoop alloc fuel Key PIndex SIndex rem i t = some (none, t1) →
      ∃ j p, (t.table (probe PIndex j SIndex t.stats.TableSize_)).State = .OCCUPIED
        ∧ strncmp Key (t.table (probe PIndex j SIndex t.stats.TableSize_)).Key
            t.config.MAX_KEYLEN = true
        ∧ packLoop alloc fuel PIndex SIndex j fuel 1
            { config := t.config
              stats := { t.stats with Count_ := u32 (t.stats.Count_ + 4294967295), Probes_ := p }
              table := setSlot t.table (probe PIndex j SIndex t.stats.TableSize_)
                { t.table (probe PIndex j SIndex t.stats.TableSize_) with State := .UNOCCUPIED }
              freed := if t.config.FreeProc_
                then t.freed ++ [(t.table (probe PIndex j SIndex t.stats.TableSize_)).Data]
                else t.freed } = some (none, t1) := by
  intro rem
  induction rem with
  | zero => intro i t t1 _ h; simp [removeLoop] at h
  | succ rem ih =>
    intro i t t1 hpol h
    unfold removeLoop at h
    simp only [] at h
    split at h
    · simp at h
    · split at h
      · next hc =>
        rw [hpol] at h
        simp only [] at h
        exact ⟨i, _, hc.1, hc.2, h⟩
      · exact ih (i + 1)
          { t with stats := { t.stats with Probes_ := u32 (t.stats.Probes_ + 1) } } t1 hpol h

/-! ## Key buffers after `strncpy` -/

/-- Claim C21, evaluated on the code: the loops compute the index as
`(PIndex + i * SIndex) % TableSize_` in `unsigned`; with the prime capacity
65537, the primary index 65536 and the step 65536, both below the capacity,
the sum `PIndex + i * SIndex` is `2^32 + 65536` at `i = 65536` and wraps, so
the probe indices at `i = 0` and at `i = 65536` are the same slot 65536: the
indices for `i = 0 .. C-1` are not pairwise distinct. -/
theorem probe_repeats_at_65537 :
    Nat.Prime 65537 ∧ 65536 < 65537 ∧ 1 ≤ 65536
      ∧ probe 65536 0 65536 65537 = 65536 ∧ probe 65536 65536 65536 65537 = 65536
      ∧ 65536 + 65536 * 65536 = 4294967296 + 65536 :=
  ⟨by norm_num, by decide, by decide, by decide, by decide, by decide⟩

/-! ## Nested growth -/

/-- When the new capacity fits `unsigned` and the load test fails on it for
every count below the number of occupied slots of the old array, `GrowTable`
returns without a nested growth: it ends with the new capacity and with the
expansion counter unchanged when it throws, advanced once when it returns
normally. -/
theorem GrowTableWith_expands_once (alloc : Allocator T) (fuel : Nat) (t : OAHashTable T)
    (hN : GetClosestPrime (ceilMul t.stats.TableSize_ t.config.GrowthFactor_) < 4294967296)
    (h : ∀ c, c < numOccupied t.table t.stats.TableSize_ 0 →
      withinLoad t.config.MaxLoadFactor_ (u32 (c + 1))
        (GetClosestPrime (ceilMul t.stats.TableSize_ t.config.GrowthFactor_))) :
    ∃ r, GrowTableWith (insert alloc fuel none) alloc t = some r
      ∧ r.2.stats.TableSize_ = GetClosestPrime (ceilMul t.stats.TableSize_ t.config.GrowthFactor_)
      ∧ (r.1 ≠ none → r.2.stats.Expansions_ = t.stats.Expansions_)
      ∧ (r.1 = none → r.2.stats.Expansions_ = u32 (t.stats.Expansions_ + 1)) := by
  unfold GrowTableWith
  simp only []
  rw [if_neg (by omega)]
  cases hal : alloc (GetClosestPrime (ceilMul t.stats.TableSize_ t.config.GrowthFactor_)) with
  | none => exact ⟨_, rfl, rfl, fun _ => rfl, by simp⟩
  | some mem =>
    simp only []
    obtain ⟨r, hr, r1, r2, r3, r4⟩ := moveSlots_noregrow alloc fuel t.table t.stats.TableSize_ 0
      { t with
        table := fun i =>
          if i < GetClosestPrime (ceilMul t.stats.TableSize_ t.config.GrowthFactor_) then
            { mem i with State := .UNOCCUPIED, probes := 0 }
          else mem i
        stats := { t.stats with
          TableSize_ := GetClosestPrime (ceilMul t.stats.TableSize_ t.config.GrowthFactor_)
          Count_ := 0 } } (by simpa using h)
    rw [hr]
    obtain ⟨e, t1⟩ := r
    cases e with
    | some e => exact ⟨_, rfl, r2, fun _ => r4, by simp⟩
    | none =>
      refine ⟨_, rfl, r2, fun hn => absurd rfl hn, fun _ => ?_⟩
      simp only [] at r4 ⊢; rw [r4]

/-- Claim C23 fails as stated: under the valid `slowGrowthConfig` (load factor
1/16, growth factor 9/8), on the table of capacity 11 that holds "a" after one
expansion, the single call insert("b", 2) ends with three expansions and the
capacity 17: the re-insertion of "a" into the array of 13 slots grew the table
again. -/
theorem reinsertion_grows_again :
    ValidConfig slowGrowthConfig ∧ HashInRange slowGrowthConfig
      ∧ ∃ t t' : OAHashTable Nat, Reachable slowGrowthConfig t
        ∧ t.stats.TableSize_ = 11 ∧ t.stats.Expansions_ = 1
        ∧ insert zeroAlloc 2 none t keyB 2 = some (none, t')
        ∧ t'.stats.TableSize_ = 17 ∧ t'.stats.Expansions_ = 3 := by
  refine ⟨validConfig_slowGrowthConfig, hashInRange_slowGrowthConfig, ?_⟩
  obtain ⟨t, ht, hp⟩ := exists_of_map_eq_true
    (o := (fresh slowGrowthConfig).bind (runCalls zeroAlloc 1 [.insert keyA 1]))
    (p := fun t => decide (t.stats.TableSize_ = 11 ∧ t.stats.Expansions_ = 1)
      && (match insert zeroAlloc 2 none t keyB 2 with
          | some (none, t') => decide (t'.stats.TableSize_ = 17 ∧ t'.stats.Expansions_ = 3)
          | _ => false)) (by decide)
  simp only [Bool.and_eq_true, decide_eq_true_eq] at hp
  obtain ⟨⟨h1, h2⟩, h3⟩ := hp
  split at h3
  · next t' heq =>
    simp only [decide_eq_true_eq] at h3
    exact ⟨t, t', Reachable.of_runCalls 1 _ ht, h1, h2, heq, h3.1, h3.2⟩
  · simp at h3

/-- The amended claim C23: for every table whose capacity is an `unsigned` and
on which an `insert` exceeds the load factor, when the old entries fit the new
capacity (`GetClosestPrime(ceil(Capacity * GrowthFactor))`, the product computed
in `double` arithmetic, fits `unsigned`, and the number of occupied slots
divided by it, in `double` arithmetic, is within `MaxLoadFactor`), the call
returns with one level of `GrowTable`, so the re-insertion of the old entries
triggers no growth; the capacity after the call is that new capacity, and the
expansion counter is unchanged when the call throws inside `GrowTable`, and
advanced exactly once otherwise. -/
theorem insert_expands_once (alloc : Allocator T) (fuel : Nat) (t : OAHashTable T)
    (Key : List Nat) (Data : T) (hl : loadExceeded t = true)
    (hsize : t.stats.TableSize_ < 4294967296)
    (hN : GetClosestPrime (ceilMul t.stats.TableSize_ t.config.GrowthFactor_) < 4294967296)
    (h : withinLoad t.config.MaxLoadFactor_ (numOccupied t.table t.stats.TableSize_ 0)
      (GetClosestPrime (ceilMul t.stats.TableSize_ t.config.GrowthFactor_))) :
    ∃ r, insert alloc (fuel + 1) none t Key Data = some r
      ∧ r.2.stats.TableSize_ = GetClosestPrime (ceilMul t.stats.TableSize_ t.config.GrowthFactor_)
      ∧ (r.2.stats.Expansions_ = t.stats.Expansions_
          ∨ r.2.stats.Expansions_ = u32 (t.stats.Expansions_ + 1))
      ∧ (r.1 = none → r.2.stats.Expansions_ = u32 (t.stats.Expansions_ + 1)) := by
  have hC := (GetClosestPrime_spec (ceilMul t.stats.TableSize_ t.config.GrowthFactor_)).1
  have hle := numOccupied_le t.table t.stats.TableSize_ 0
  obtain ⟨r, hr, r1, r2, r3⟩ := GrowTableWith_expands_once alloc fuel t hN
    (fun c hc => withinLoad_mono _ hC.pos (le_trans (u32_le _) (by omega)) (by omega) h)
  unfold insert
  rw [if_pos hl, hr]
  obtain ⟨e, t1⟩ := r
  cases e with
  | some e => exact ⟨_, rfl, r1, Or.inl (r2 (by simp)), by simp⟩
  | none =>
    obtain ⟨f1, f2, f3, -⟩ := insertBody_frame none t1 Key Data
    simp only [] at r1 r2 r3 ⊢
    exact ⟨_, rfl, f2.trans r1, Or.inr (f3.trans (r3 trivial)), fun _ => f3.trans (r3 trivial)⟩

/-- The amended claim C23 on the table of capacity 7 holding "a", "b" and "c"
under load factor 1/2 and growth factor 2: the three entries fit the new
capacity 17, insert("d", 4) returns with one level of `GrowTable` and the
expansion counter goes from 0 to 1. -/
theorem insert_expands_once_witness :
    loadExceeded tableABC = true
      ∧ numOccupied tableABC.table tableABC.stats.TableSize_ 0 = 3
      ∧ GetClosestPrime (ceilMul tableABC.stats.TableSize_ tableABC.config.GrowthFactor_) = 17
      ∧ tableABCD.stats.Expansions_ = 1
      ∧ ∃ r, insert zeroAlloc (0 + 1) none tableABC keyD 4 = some r
        ∧ r.2.stats.TableSize_
            = GetClosestPrime (ceilMul tableABC.stats.TableSize_ tableABC.config.GrowthFactor_)
        ∧ (r.2.stats.Expansions_ = tableABC.stats.Expansions_
            ∨ r.2.stats.Expansions_ = u32 (tableABC.stats.Expansions_ + 1))
        ∧ (r.1 = none → r.2.stats.Expansions_ = u32 (tableABC.stats.Expansions_ + 1)) :=
  ⟨by decide, by decide, by decide, by decide,
    insert_expands_once zeroAlloc 0 tableABC keyD 4 (by decide) (by decide) (by decide)
      (by decide)⟩

/-! ## The target slot of `insert` -/

/-- Claim C25, evaluated on the code: under the valid `packConfig` (PACK policy,
capacity 7, every key with the primary index 0, the key "b" with the step 3 and
every other key with the step 1), after insert("a", 1), insert("b", 2),
remove("a") and insert("b", 9) the slots 0 and 3 both hold "b"; remove("b")
finds the key in slot 0 and succeeds, and afterwards slot 0 is occupied by the
relocated entry of slot 3, whose key is "b" again, so that find("b") still
returns a value; none of the seven slots is deleted before or after the call. -/
theorem pack_remove_relocates_same_key :
    ValidConfig packConfig ∧ HashInRange packConfig ∧ packConfig.DeletionPolicy_ = .PACK
      ∧ ∃ t t' : OAHashTable Nat, Reachable packConfig t
        ∧ t.stats.PrimaryHashFunc_ (c_str keyB) t.stats.TableSize_ = 0
        ∧ holdsAt t keyB 0 ∧ (t.table 0).Data = 9
        ∧ holdsAt t keyB 3 ∧ (t.table 3).Data = 2
        ∧ remove zeroAlloc 7 t keyB = some (none, t')
        ∧ (t'.table 0).State = .OCCUPIED ∧ c_str (t'.table 0).Key = keyB
        ∧ (t'.table 0).Data = 2 ∧ (t'.table 3).State = .UNOCCUPIED
        ∧ (find t' keyB).1 = .ok 2
        ∧ (List.range 7).all (fun i => decide ((t.table i).State ≠ .DELETED
            ∧ (t'.table i).State ≠ .DELETED)) = true := by
  refine ⟨validConfig_packConfig, hashInRange_packConfig, rfl, ?_⟩
  obtain ⟨t, ht, hp⟩ := exists_of_map_eq_true
    (o := (fresh packConfig).bind
      (runCalls zeroAlloc 7 [.insert keyA 1, .insert keyB 2, .remove keyA, .insert keyB 9]))
    (p := fun (t : OAHashTable Nat) =>
      decide (t.stats.PrimaryHashFunc_ (c_str keyB) t.stats.TableSize_ = 0
        ∧ (0 < t.stats.TableSize_ ∧ (t.table 0).State = .OCCUPIED
          ∧ strncmp keyB (t.table 0).Key t.config.MAX_KEYLEN = true) ∧ (t.table 0).Data = 9)
      && decide ((3 < t.stats.TableSize_ ∧ (t.table 3).State = .OCCUPIED
          ∧ strncmp keyB (t.table 3).Key t.config.MAX_KEYLEN = true) ∧ (t.table 3).Data = 2)
      && (match remove zeroAlloc 7 t keyB with
          | some (none, t') => decide ((t'.table 0).State = .OCCUPIED
              ∧ c_str (t'.table 0).Key = keyB ∧ (t'.table 0).Data = 2
              ∧ (t'.table 3).State = .UNOCCUPIED ∧ (find t' keyB).1 = .ok 2
              ∧ (List.range 7).all (fun i => decide ((t.table i).State ≠ .DELETED
                  ∧ (t'.table i).State ≠ .DELETED)) = true)
          | _ => false)) (by decide)
  simp only [Bool.and_eq_true, decide_eq_true_eq] at hp
  obtain ⟨⟨⟨h1, h2, h3⟩, h4, h5⟩, h6⟩ := hp
  split at h6
  · next t' heq =>
    simp only [decide_eq_true_eq] at h6
    exact ⟨t, t', Reachable.of_runCalls 7 _ ht, h1, h2, h3, h4, h5, heq, h6⟩
  · simp at h6

/-! ## Outcomes of `remove` and replayed calls -/

/-- The outcomes of the search loop of `remove`: the key is not found, or a
slot holding it is marked, or the compaction loop is run from it. -/
theorem removeLoop_cases (alloc : Allocator T) (fuel : Nat) (Key : List Nat)
    (PIndex SIndex : Nat) :
    ∀ (rem i : Nat) (t : OAHashTable T) (r : Outcome T),
      removeLoop alloc fuel Key PIndex SIndex rem i t = some r →
      (∃ p, r = (some .E_ITEM_NOT_FOUND, { t with stats := { t.stats with Probes_ := p } }))
      ∨ ∃ j p, (t.table (probe PIndex j SIndex t.stats.TableSize_)).State = .OCCUPIED
        ∧ ((t.config.DeletionPolicy_ = .MARK
            ∧ r = (none,
              { config := t.config
                stats := { t.stats with Count_ := u32 (t.stats.Count_ + 4294967295), Probes_ := p }
                table := setSlot t.table (probe PIndex j SIndex t.stats.TableSize_)
                  { t.table (probe PIndex j SIndex t.stats.TableSize_) with State := .DELETED }
                freed := if t.config.FreeProc_
                  then t.freed ++ [(t.table (probe PIndex j SIndex t.stats.TableSize_)).Data]
                  else t.freed }))
          ∨ (t.config.DeletionPolicy_ = .PACK
            ∧ packLoop alloc fuel PIndex SIndex j fuel 1
              { config := t.config
                stats := { t.stats with Count_ := u32 (t.stats.Count_ + 4294967295), Probes_ := p }
                table := setSlot t.table (probe PIndex j SIndex t.stats.TableSize_)
                  { t.table (probe PIndex j SIndex t.stats.TableSize_) with State := .UNOCCUPIED }
                freed := if t.config.FreeProc_
                  then t.freed ++ [(t.table (probe PIndex j SIndex t.stats.TableSize_)).Data]
                  else t.freed } = some r)) := by
  intro rem
  induction rem with
  | zero =>
    intro i t r h
    simp only [removeLoop, Option.some.injEq] at h
    exact Or.inl ⟨t.stats.Probes_, h.symm⟩
  | succ rem ih =>
    intro i t r h
    unfold removeLoop at h
    simp only [] at h
    split at h
    · simp only [Option.some.injEq] at h
      exact Or.inl ⟨_, h.symm⟩
    · split at h
      · next hc =>
        refine Or.inr ⟨i, u32 (t.stats.Probes_ + 1), hc.1, ?_⟩
        cases hpol : t.config.DeletionPolicy_ with
        | MARK =>
          rw [hpol] at h
          simp only [Option.some.injEq] at h
          exact Or.inl ⟨rfl, h.symm⟩
        | PACK =>
          rw [hpol] at h
          simp only [] at h
          exact Or.inr ⟨rfl, h⟩
      · rcases ih (i + 1)
          { t with stats := { t.stats with Probes_ := u32 (t.stats.Probes_ + 1) } } r h with
          ⟨p, hp⟩ | ⟨j, p, h1, h2⟩
        · exact Or.inl ⟨p, hp⟩
        · exact Or.inr ⟨j, p, h1, h2⟩

/-- The allocator `zeroAlloc` does not fail. -/
theorem allocates_zeroAlloc : Allocates zeroAlloc := fun _ h => by cases h

/-- Replaying calls with an allocator that does not fail on a table reachable
without allocation failure gives such a table. -/
theorem ReachableAlloc.after_replay {T : Type} {c : OAHTConfig} (alloc : Allocator T)
    (hal : Allocates alloc) (fuel : Nat) :
    ∀ (cs : List (Call T)) (s s' : OAHashTable T × List (List Nat × T)),
      ReachableAlloc c s.1 → replay alloc fuel cs s = some s' → ReachableAlloc c s'.1 := by
  intro cs
  induction cs with
  | nil => intro s s' hs h; simp [replay] at h; subst h; exact hs
  | cons call cs ih =>
    intro s s' hs h
    obtain ⟨t, m⟩ := s
    cases call with
    | insert Key Data =>
      simp only [replay] at h
      split at h
      · simp at h
      · next t1 heq => exact ih _ _ (ReachableAlloc.insert alloc fuel Key Data t _ hal hs heq) h
      · next e t1 heq => exact ih _ _ (ReachableAlloc.insert alloc fuel Key Data t _ hal hs heq) h
    | remove Key =>
      simp only [replay] at h
      split at h
      · simp at h
      · next t1 heq => exact ih _ _ (ReachableAlloc.remove alloc fuel Key t _ hal hs heq) h
      · next e t1 heq => exact ih _ _ (ReachableAlloc.remove alloc fuel Key t _ hal hs heq) h

/-- The table after a sequence of calls on a fresh table is reachable without
allocation failure. -/
theorem ReachableAlloc.after_runCalls {c : OAHTConfig} (fuel : Nat) (cs : List (Call Nat))
    {t : OAHashTable Nat} (h : (fresh c).bind (runCalls zeroAlloc fuel cs) = some t) :
    ReachableAlloc c t := by
  cases h0 : fresh c with
  | none => simp [h0] at h
  | some t0 =>
    simp only [h0, Option.some_bind, runCalls, Option.map_eq_some'] at h
    obtain ⟨s', hs', rfl⟩ := h
    exact ReachableAlloc.after_replay zeroAlloc allocates_zeroAlloc fuel cs (t0, []) s'
      (ReachableAlloc.construct zeroAlloc t0 allocates_zeroAlloc (construct_of_fresh h0)) hs'

/-! ## Growth on the insertion of a key of `MAX_KEYLEN` characters -/

/-- Claim C20, evaluated on the code: under the valid `markConfig` (capacity 7,
load factor 1/2, growth factor 2, keys of at most ten bytes), with no allocation
failing, on the table that holds "a", "b" and "c" in the slots 0, 1 and 2, the
call insert("0123456789", 5), whose key has `MAX_KEYLEN` characters, exceeds
the load factor, grows the table to capacity 17 and returns normally, with the
count 4 and one expansion; the three old keys are found with their values, and
the newly inserted key is not: the slot holds its first nine characters only
and find("0123456789") throws `E_ITEM_NOT_FOUND`. -/
theorem grown_insert_key_not_found :
    ValidConfig markConfig ∧ HashInRange markConfig
    ∧ ∃ t t' : OAHashTable Nat, ReachableAlloc markConfig t
      ∧ (t.table 0).State = .OCCUPIED ∧ c_str (t.table 0).Key = keyA
      ∧ (t.table 1).State = .OCCUPIED ∧ c_str (t.table 1).Key = keyB
      ∧ (t.table 2).State = .OCCUPIED ∧ c_str (t.table 2).Key = keyC
      ∧ (t.table 3).State = .UNOCCUPIED ∧ (t.table 4).State = .UNOCCUPIED
      ∧ (t.table 5).State = .UNOCCUPIED ∧ (t.table 6).State = .UNOCCUPIED
      ∧ t.stats.TableSize_ = 7 ∧ t.stats.Count_ = 3 ∧ t.stats.Expansions_ = 0
      ∧ keyTen.length = t.config.MAX_KEYLEN
      ∧ loadExceeded t = true
      ∧ insert zeroAlloc 1 none t keyTen 5 = some (none, t')
      ∧ t'.stats.TableSize_ = 17 ∧ t'.stats.Count_ = 4 ∧ t'.stats.Expansions_ = 1
      ∧ (find t' keyA).1 = .ok 1 ∧ (find t' keyB).1 = .ok 2 ∧ (find t' keyC).1 = .ok 3
      ∧ (t'.table 3).State = .OCCUPIED
      ∧ (t'.table 3).Key = [48, 49, 50, 51, 52, 53, 54, 55, 56, 0]
      ∧ (find t' keyTen).1 = .error .E_ITEM_NOT_FOUND := by
  refine ⟨validConfig_markConfig, hashInRange_markConfig, ?_⟩
  obtain ⟨t, ht, hp⟩ := exists_of_map_eq_true
    (o := (fresh markConfig).bind
      (runCalls zeroAlloc 0 [.insert keyA 1, .insert keyB 2, .insert keyC 3]))
    (p := fun t => decide ((t.table 0).State = .OCCUPIED ∧ c_str (t.table 0).Key = keyA
        ∧ (t.table 1).State = .OCCUPIED ∧ c_str (t.table 1).Key = keyB
        ∧ (t.table 2).State = .OCCUPIED ∧ c_str (t.table 2).Key = keyC
        ∧ (t.table 3).State = .UNOCCUPIED ∧ (t.table 4).State = .UNOCCUPIED
        ∧ (t.table 5).State = .UNOCCUPIED ∧ (t.table 6).State = .UNOCCUPIED
        ∧ t.stats.TableSize_ = 7 ∧ t.stats.Count_ = 3 ∧ t.stats.Expansions_ = 0
        ∧ keyTen.length = t.config.MAX_KEYLEN
        ∧ loadExceeded t = true)
      && match insert zeroAlloc 1 none t keyTen 5 with
        | some (none, t') => decide (t'.stats.TableSize_ = 17 ∧ t'.stats.Count_ = 4
            ∧ t'.stats.Expansions_ = 1
            ∧ (find t' keyA).1 = .ok 1 ∧ (find t' keyB).1 = .ok 2 ∧ (find t' keyC).1 = .ok 3
            ∧ (t'.table 3).State = .OCCUPIED
            ∧ (t'.table 3).Key = [48, 49, 50, 51, 52, 53, 54, 55, 56, 0]
            ∧ (find t' keyTen).1 = .error .E_ITEM_NOT_FOUND)
        | _ => false) (by decide)
  simp only [Bool.and_eq_true, decide_eq_true_eq] at hp
  obtain ⟨⟨a1, a2, a3, a4, a5, a6, a7, a8, a9, a10, a11, a12, a13, a14, a15⟩, h2⟩ := hp
  split at h2
  · next t' heq =>
    simp only [decide_eq_true_eq] at h2
    obtain ⟨b1, b2, b3, b4, b5, b6, b7, b8, b9⟩ := h2
    exact ⟨t, t', ReachableAlloc.after_runCalls 0 _ ht, a1, a2, a3, a4, a5, a6, a7, a8, a9, a10,
      a11, a12, a13, a14, a15, heq, b1, b2, b3, b4, b5, b6, b7, b8, b9⟩
  · simp at h2

/-! ## Counted tables: the count and the log under `remove` -/

/-- Changing one slot adds at most one occupied slot to a range. -/
theorem numOccupied_setSlot_le (tb : Nat → OAHTSlot T) (k : Nat) (s : OAHTSlot T)
    (n : Nat) : numOccupied (setSlot tb k s) n 0 ≤ numOccupied tb n 0 + 1 := by
  rcases Nat.lt_or_ge k n with h | h
  · have := numOccupied_setSlot tb k s n 0 (Nat.zero_le _) (by omega)
    split_ifs at this <;> omega
  · rw [numOccupied_setSlot_of_not_mem tb k s n 0 (Or.inr (by omega))]
    omega

/-- Making an occupied slot of a range not occupied removes one occupied slot. -/
theorem numOccupied_vacate (tb : Nat → OAHTSlot T) (k : Nat) (s : OAHTSlot T) (n : Nat)
    (hk : k < n) (hocc : (tb k).State = .OCCUPIED) (hs : s.State ≠ .OCCUPIED) :
    numOccupied (setSlot tb k s) n 0 + 1 = numOccupied tb n 0 := by
  have := numOccupied_setSlot tb k s n 0 (Nat.zero_le _) (by omega)
  rw [if_pos hocc, if_neg hs] at this
  omega

/-- A table given by an explicit record that keeps the configuration and the
capacity is counted when its count lies between the number of its occupied slots
and the capacity. -/
theorem Counted.update {t : OAHashTable T} (hc : Counted t) (cnt p : Nat)
    (tb : Nat → OAHTSlot T) (fr : List T)
    (h1 : numOccupied tb t.stats.TableSize_ 0 ≤ cnt) (h2 : cnt ≤ t.stats.TableSize_) :
    Counted ({ config := t.config, stats := { t.stats with Count_ := cnt, Probes_ := p },
               table := tb, freed := fr } : OAHashTable T) :=
  ⟨h1, h2, hc.size, hc.load, hc.growth⟩

/-- A counted table on which the load test fails has a count below its capacity. -/
theorem Counted.count_lt {t : OAHashTable T} (hc : Counted t) (hl : loadExceeded t = false) :
    t.stats.Count_ < t.stats.TableSize_ := by
  have h1 := hc.cap
  have h2 := hc.size
  have hu : u32 (t.stats.Count_ + 1) = t.stats.Count_ + 1 := by unfold u32; omega
  rcases Nat.eq_zero_or_pos t.stats.TableSize_ with h0 | hpos
  · exfalso
    have hw := (loadExceeded_eq_false_iff t).1 hl
    have hcz : t.stats.Count_ = 0 := by omega
    rw [hu, hcz, h0] at hw
    have hd := hc.load.1
    simp [withinLoad, roundDouble] at hw
    omega
  · have := succ_count_le_of_not_loadExceeded t hpos hc.load.2 hc.load.1 hl
    omega

/-- The part of `insert` after the load test, on a counted table whose count is
below the capacity, leaves a counted table of the same capacity, with at most
one more entry counted. -/
theorem insertBody_counted (src : Option Nat) (t : OAHashTable T) (Key : List Nat) (Data : T)
    (hc : Counted t) (hlt : t.stats.Count_ < t.stats.TableSize_) :
    Counted (insertBody src t Key Data).2
      ∧ (insertBody src t Key Data).2.stats.Count_ ≤ t.stats.Count_ + 1
      ∧ (insertBody src t Key Data).2.stats.TableSize_ = t.stats.TableSize_ := by
  have h2 := hc.size
  have hu : u32 (t.stats.Count_ + 1) = t.stats.Count_ + 1 := by unfold u32; omega
  rcases insertBody_cases src t Key Data with ⟨p, hp⟩ | ⟨p, idx, hp⟩
  · rw [hp]
    exact ⟨⟨hc.occ, hc.cap, hc.size, hc.load, hc.growth⟩, Nat.le_succ _, rfl⟩
  · rw [hp]
    refine ⟨⟨?_, ?_, hc.size, hc.load, hc.growth⟩, ?_, rfl⟩
    · have hocc := hc.occ
      refine le_trans (numOccupied_setSlot_le _ _ _ _) ?_
      show numOccupied t.table t.stats.TableSize_ 0 + 1 ≤ u32 (t.stats.Count_ + 1)
      rw [hu]
      omega
    · show u32 (t.stats.Count_ + 1) ≤ t.stats.TableSize_
      rw [hu]; omega
    · show u32 (t.stats.Count_ + 1) ≤ t.stats.Count_ + 1
      exact u32_le _

/-- The ways `GrowTable` ends with a result: the new capacity fits `unsigned`;
the allocation fails and the table keeps its array with the new capacity
recorded, or the loop that moves the slots over is run on the new array, and its
outcome is returned, with the expansion counter advanced when it returns
normally. -/
theorem GrowTableWith_cases {ins : OAHashTable T → List Nat → T → Option (Outcome T)}
    {alloc : Allocator T} {t : OAHashTable T} {r : Outcome T}
    (h : GrowTableWith ins alloc t = some r) :
    GetClosestPrime (ceilMul t.stats.TableSize_ t.config.GrowthFactor_) < 4294967296
    ∧ ((alloc (GetClosestPrime (ceilMul t.stats.TableSize_ t.config.GrowthFactor_)) = none
        ∧ r.1 = some .E_NO_MEMORY)
      ∨ ∃ mem r1,
        alloc (GetClosestPrime (ceilMul t.stats.TableSize_ t.config.GrowthFactor_)) = some mem
        ∧ moveSlots ins t.table t.stats.TableSize_ 0
            { config := t.config
              stats := { t.stats with
                TableSize_ := GetClosestPrime (ceilMul t.stats.TableSize_ t.config.GrowthFactor_)
                Count_ := 0 }
              table := fun i =>
                if i < GetClosestPrime (ceilMul t.stats.TableSize_ t.config.GrowthFactor_) then
                  { mem i with State := .UNOCCUPIED, probes := 0 }
                else mem i
              freed := t.freed } = some r1
        ∧ ((r1.1 ≠ none ∧ r = r1)
          ∨ (r1.1 = none ∧ r = (none,
              { r1.2 with stats :=
                { r1.2.stats with Expansions_ := u32 (r1.2.stats.Expansions_ + 1) } })))) := by
  unfold GrowTableWith at h
  simp only [] at h
  by_cases hN : 4294967296 ≤ GetClosestPrime (ceilMul t.stats.TableSize_ t.config.GrowthFactor_)
  · rw [if_pos hN] at h; cases h
  rw [if_neg hN] at h
  refine ⟨by omega, ?_⟩
  split at h
  · next hal =>
    simp only [Option.some.injEq] at h
    exact Or.inl ⟨hal, by rw [← h]⟩
  · next mem hmem =>
    right
    split at h
    · cases h
    · next e t1 heq =>
      simp only [Option.some.injEq] at h
      exact ⟨mem, _, hmem, heq, Or.inl ⟨by simp, h.symm⟩⟩
    · next t1 heq =>
      simp only [Option.some.injEq] at h
      exact ⟨mem, _, hmem, heq, Or.inr ⟨rfl, h.symm⟩⟩

/-- The loop that moves the slots over keeps a table counted and adds at most
the number of occupied slots it moves to the count, when the insertions do;
the capacity does not shrink. -/
theorem moveSlots_counted (ins : OAHashTable T → List Nat → T → Option (Outcome T))
    (old : Nat → OAHTSlot T)
    (hins : ∀ a k d r, Counted a → ins a k d = some r →
      Counted r.2 ∧ r.2.stats.Count_ ≤ a.stats.Count_ + 1
        ∧ a.stats.TableSize_ ≤ r.2.stats.TableSize_) :
    ∀ (rem i : Nat) (a : OAHashTable T) (r : Outcome T), Counted a →
      moveSlots ins old rem i a = some r →
      Counted r.2 ∧ r.2.stats.Count_ ≤ a.stats.Count_ + numOccupied old rem i
        ∧ a.stats.TableSize_ ≤ r.2.stats.TableSize_ := by
  intro rem
  induction rem with
  | zero =>
    intro i a r hc h
    simp only [moveSlots, Option.some.injEq] at h
    subst h
    exact ⟨hc, Nat.le_add_right _ _, le_refl _⟩
  | succ rem ih =>
    intro i a r hc h
    unfold moveSlots at h
    split at h
    · next hocc =>
      have hn : numOccupied old (rem + 1) i = 1 + numOccupied old rem (i + 1) := by
        simp [numOccupied, hocc]
      split at h
      · cases h
      · next e t1 heq =>
        simp only [Option.some.injEq] at h
        subst h
        obtain ⟨a1, a2, a3⟩ := hins _ _ _ _ hc heq
        exact ⟨a1, by simp only [] at a2 ⊢; omega, a3⟩
      · next t1 heq =>
        obtain ⟨a1, a2, a3⟩ := hins _ _ _ _ hc heq
        obtain ⟨b1, b2, b3⟩ := ih _ _ _ a1 h
        simp only [] at a2 a3 b2 b3
        exact ⟨b1, by omega, le_trans a3 b3⟩
    · next hocc =>
      have hn : numOccupied old (rem + 1) i = numOccupied old rem (i + 1) := by
        simp [numOccupied, hocc]
      rw [hn]
      exact ih _ _ _ hc h

/-- The number `2^32 - 1` is not a prime. -/
theorem not_prime_max : ¬ Nat.Prime 4294967295 := by norm_num

/-- A call of `insert` made with an allocator that does not fail leaves a
counted table counted, whether it returns or throws, with at most one more
entry counted and a capacity that did not shrink. -/
theorem insert_counted (alloc : Allocator T) (hal : Allocates alloc) :
    ∀ (fuel : Nat) (src : Option Nat) (t : OAHashTable T) (Key : List Nat) (Data : T)
      (r : Outcome T), Counted t → insert alloc fuel src t Key Data = some r →
      Counted r.2 ∧ r.2.stats.Count_ ≤ t.stats.Count_ + 1
        ∧ t.stats.TableSize_ ≤ r.2.stats.TableSize_ := by
  have nogrow : ∀ (src : Option Nat) (t : OAHashTable T) (Key : List Nat) (Data : T),
      Counted t → loadExceeded t = false →
      Counted (insertBody src t Key Data).2
        ∧ (insertBody src t Key Data).2.stats.Count_ ≤ t.stats.Count_ + 1
        ∧ t.stats.TableSize_ ≤ (insertBody src t Key Data).2.stats.TableSize_ := by
    intro src t Key Data hc hl
    obtain ⟨a1, a2, a3⟩ := insertBody_counted src t Key Data hc (hc.count_lt hl)
    exact ⟨a1, a2, Nat.le_of_eq a3.symm⟩
  intro fuel
  induction fuel with
  | zero =>
    intro src t Key Data r hc h
    unfold insert at h
    split at h
    · cases h
    · next hl =>
      simp only [Option.some.injEq] at h
      subst h
      exact nogrow src t Key Data hc (by simpa using hl)
  | succ fuel ih =>
    intro src t Key Data r hc h
    unfold insert at h
    split at h
    · next hl =>
      have grown : ∀ r1, GrowTableWith (insert alloc fuel none) alloc t = some r1 →
          Counted r1.2 ∧ r1.2.stats.Count_ ≤ t.stats.Count_
            ∧ t.stats.TableSize_ ≤ r1.2.stats.TableSize_
            ∧ (r1.1 = none → t.stats.TableSize_ < r1.2.stats.TableSize_) := by
        intro r1 hr1
        obtain ⟨hN, hcase⟩ := GrowTableWith_cases hr1
        have hprime := (GetClosestPrime_spec
          (ceilMul t.stats.TableSize_ t.config.GrowthFactor_)).1
        have hNlt : GetClosestPrime (ceilMul t.stats.TableSize_ t.config.GrowthFactor_)
            < 4294967295 := by
          rcases Nat.lt_or_ge (GetClosestPrime (ceilMul t.stats.TableSize_
            t.config.GrowthFactor_)) 4294967295 with h1 | h1
          · exact h1
          · exfalso
            have : GetClosestPrime (ceilMul t.stats.TableSize_ t.config.GrowthFactor_)
                = 4294967295 := by omega
            rw [this] at hprime
            exact not_prime_max hprime
        have hgrow := lt_newSize t.stats.TableSize_ t.config.GrowthFactor_ hc.growth.1
          hc.growth.2.1 hc.growth.2.2 hN
        rcases hcase with ⟨hnone, -⟩ | ⟨mem, r2, hmem, hmv, hend⟩
        · exact absurd hnone (hal _)
        · have hc0 : Counted
              ({ config := t.config
                 stats := { t.stats with
                   TableSize_ :=
                     GetClosestPrime (ceilMul t.stats.TableSize_ t.config.GrowthFactor_)
                   Count_ := 0 }
                 table := fun i =>
                   if i < GetClosestPrime (ceilMul t.stats.TableSize_ t.config.GrowthFactor_)
                   then { mem i with State := .UNOCCUPIED, probes := 0 }
                   else mem i
                 freed := t.freed } : OAHashTable T) := by
            refine ⟨?_, Nat.zero_le _, hNlt, hc.load, hc.growth⟩
            show numOccupied _ _ 0 ≤ 0
            rw [numOccupied_eq_zero]
            intro q _ hq
            simp only [Nat.zero_add] at hq
            show (if q < GetClosestPrime (ceilMul t.stats.TableSize_ t.config.GrowthFactor_)
              then ({ mem q with State := .UNOCCUPIED, probes := 0 } : OAHTSlot T)
              else mem q).State ≠ .OCCUPIED
            rw [if_pos hq]
            simp
          obtain ⟨b1, b2, b3⟩ := moveSlots_counted (insert alloc fuel none) t.table
            (fun a k d r ha hr => ih none a k d r ha hr) _ _ _ _ hc0 hmv
          have hle := hc.occ
          simp only [Nat.zero_add] at b2 b3
          rcases hend with ⟨hne, he⟩ | ⟨hnn, he⟩
          · rw [he]
            exact ⟨b1, by omega, by omega, fun h => absurd h hne⟩
          · rw [he]
            exact ⟨⟨b1.occ, b1.cap, b1.size, b1.load, b1.growth⟩, by simp only []; omega,
              by simp only []; omega, fun _ => by simp only []; omega⟩
      split at h
      · cases h
      · next e t1 heq =>
        simp only [Option.some.injEq] at h
        subst h
        obtain ⟨g1, g2, g3, -⟩ := grown _ heq
        exact ⟨g1, by simp only [] at g2 ⊢; omega, g3⟩
      · next t1 heq =>
        split at h
        · simp only [Option.some.injEq] at h
          subst h
          obtain ⟨g1, g2, g3, g4⟩ := grown _ heq
          simp only [] at g1 g2 g3 g4
          have hcap := hc.cap
          obtain ⟨a1, a2, a3⟩ := insertBody_counted none t1 Key Data g1
            (by have := g4 trivial; omega)
          exact ⟨a1, by omega, by omega⟩
        · cases h
    · next hl =>
      simp only [Option.some.injEq] at h
      subst h
      exact nogrow src t Key Data hc (by simpa using hl)

/-- An insertion of a slot's own key that returns normally did not grow the
table. -/
theorem insert_own_key {alloc : Allocator T} {fuel y : Nat} {a t1 : OAHashTable T}
    {Key : List Nat} {Data : T} (h : insert alloc fuel (some y) a Key Data = some (none, t1)) :
    loadExceeded a = false ∧ insertBody (some y) a Key Data = (none, t1) := by
  cases hl : loadExceeded a with
  | false =>
    rw [insert_of_not_loadExceeded alloc fuel (some y) a Key Data hl] at h
    simp only [Option.some.injEq] at h
    exact ⟨rfl, h⟩
  | true =>
    exfalso
    cases fuel with
    | zero => simp [insert, hl] at h
    | succ fuel =>
      unfold insert at h
      rw [if_pos hl] at h
      split at h
      · cases h
      · simp at h
      · simp at h

/-- A call of `insert` on a counted table given by an explicit record leaves a
counted table. -/
theorem insert_counted_update (alloc : Allocator T) (hal : Allocates alloc)
    {fuel : Nat} {src : Option Nat} {t : OAHashTable T} {cnt p : Nat}
    {tb : Nat → OAHTSlot T} {fr : List T} {Key : List Nat} {Data : T} {r : Outcome T}
    (h : insert alloc fuel src
      { config := t.config, stats := { t.stats with Count_ := cnt, Probes_ := p },
        table := tb, freed := fr } Key Data = some r)
    (hc : Counted t) (h1 : numOccupied tb t.stats.TableSize_ 0 ≤ cnt)
    (h2 : cnt ≤ t.stats.TableSize_) : Counted r.2 :=
  (insert_counted alloc hal fuel src _ Key Data r (hc.update cnt p tb fr h1 h2) h).1

/-- An insertion of a slot's own key that returns normally, made on a table
given by an explicit record, advances the count by one and keeps the capacity
and the log of freed values. -/
theorem reinsert_count {alloc : Allocator T} {fuel y : Nat} {t t2 : OAHashTable T}
    {cnt p : Nat} {tb : Nat → OAHTSlot T} {fr : List T} {Key : List Nat} {Data : T}
    (h : insert alloc fuel (some y)
      { config := t.config, stats := { t.stats with Count_ := cnt, Probes_ := p },
        table := tb, freed := fr } Key Data = some (none, t2)) :
    t2.stats.Count_ = u32 (cnt + 1) := by
  obtain ⟨-, hb⟩ := insert_own_key h
  obtain ⟨-, -, -, f4, -⟩ := insertBody_frame (some y)
    ({ config := t.config, stats := { t.stats with Count_ := cnt, Probes_ := p },
       table := tb, freed := fr } : OAHashTable T) Key Data
  rw [hb] at f4
  exact f4 rfl

/-- The compaction loop of `remove`, when it ends normally, leaves the count,
an `unsigned`, unchanged: each relocation decrements it and the insertion
increments it. -/
theorem packLoop_count (alloc : Allocator T) (fuel PIndex SIndex i : Nat) :
    ∀ (rem j : Nat) (a t1 : OAHashTable T),
      packLoop alloc fuel PIndex SIndex i rem j a = some (none, t1) →
      a.stats.Count_ < 4294967296 → t1.stats.Count_ = a.stats.Count_ := by
  intro rem
  induction rem with
  | zero => intro j a t1 h; simp [packLoop] at h
  | succ rem ih =>
    intro j a t1 h hlt
    unfold packLoop at h
    simp only [] at h
    split at h
    · split at h
      · split at h
        · cases h
        · simp at h
        · next t2 heq =>
          have h2 := reinsert_count heq
          have h3 : t2.stats.Count_ = a.stats.Count_ := by
            rw [h2]; unfold u32; omega
          rw [← h3]
          exact ih _ _ _ h (by omega)
      · simp only [Option.some.injEq, Prod.mk.injEq, true_and] at h
        rw [← h]
    · simp only [Option.some.injEq, Prod.mk.injEq, true_and] at h
      rw [← h]

/-- The compaction loop run from a table given by an explicit record. -/
theorem packLoop_count_update (alloc : Allocator T) {fuel PIndex SIndex i rem j : Nat}
    {t t1 : OAHashTable T} {cnt p : Nat} {tb : Nat → OAHTSlot T} {fr : List T}
    (h : packLoop alloc fuel PIndex SIndex i rem j
      { config := t.config, stats := { t.stats with Count_ := cnt, Probes_ := p },
        table := tb, freed := fr } = some (none, t1))
    (hc : cnt < 4294967296) : t1.stats.Count_ = cnt ∧ t1.freed = fr :=
  ⟨packLoop_count alloc fuel PIndex SIndex i rem j _ t1 h hc,
    packLoop_freed alloc fuel PIndex SIndex i rem j _ _ h⟩

/-- The compaction loop of `remove`, run with an allocator that does not fail,
leaves a counted table counted, whether it returns or throws. -/
theorem packLoop_counted (alloc : Allocator T) (hal : Allocates alloc)
    (fuel PIndex SIndex i : Nat) :
    ∀ (rem j : Nat) (a : OAHashTable T) (r : Outcome T), Counted a →
      packLoop alloc fuel PIndex SIndex i rem j a = some r → Counted r.2 := by
  intro rem
  induction rem with
  | zero => intro j a r _ h; simp [packLoop] at h
  | succ rem ih =>
    intro j a r hc h
    unfold packLoop at h
    simp only [] at h
    split at h
    · next hj =>
      have hlt := probe_lt PIndex (i + j) SIndex a.stats.TableSize_ (by omega)
      split at h
      · next hocc =>
        have hpos := numOccupied_pos a.table a.stats.TableSize_ 0 _ (Nat.zero_le _)
          (by omega) hocc
        have h1 := hc.occ
        have h2 := hc.cap
        have h3 := hc.size
        have hcd := u32_pred a.stats.Count_ (by omega) (by omega)
        have hn := numOccupied_vacate a.table (probe PIndex (i + j) SIndex a.stats.TableSize_)
          { a.table (probe PIndex (i + j) SIndex a.stats.TableSize_) with State := .UNOCCUPIED }
          a.stats.TableSize_ hlt hocc (by simp)
        simp only [] at hn
        split at h
        · cases h
        · next e t2 heq =>
          simp only [Option.some.injEq] at h
          rw [← h]
          exact insert_counted_update alloc hal heq hc (by rw [hcd]; omega)
            (by rw [hcd]; omega)
        · next t2 heq =>
          exact ih _ _ _
            (insert_counted_update alloc hal heq hc (by rw [hcd]; omega)
              (by rw [hcd]; omega)) h
      · simp only [Option.some.injEq] at h
        rw [← h]; exact hc
    · simp only [Option.some.injEq] at h
      rw [← h]; exact hc

/-- An outcome whose table is given by an explicit record is counted when the
count of the record lies between the number of its occupied slots and the
capacity. -/
theorem counted_of_eq {t : OAHashTable T} {r : Outcome T} {e : Option OAHashTableException}
    {cnt p : Nat} {tb : Nat → OAHTSlot T} {fr : List T}
    (h : r = (e, { config := t.config, stats := { t.stats with Count_ := cnt, Probes_ := p },
                   table := tb, freed := fr }))
    (hc : Counted t) (h1 : numOccupied tb t.stats.TableSize_ 0 ≤ cnt)
    (h2 : cnt ≤ t.stats.TableSize_) : Counted r.2 := by
  subst h
  exact hc.update cnt p tb fr h1 h2

/-- The compaction loop run from a counted table given by an explicit record. -/
theorem packLoop_counted_update (alloc : Allocator T) (hal : Allocates alloc)
    {fuel PIndex SIndex i rem j : Nat}
    {t : OAHashTable T} {r : Outcome T} {cnt p : Nat} {tb : Nat → OAHTSlot T} {fr : List T}
    (h : packLoop alloc fuel PIndex SIndex i rem j
      { config := t.config, stats := { t.stats with Count_ := cnt, Probes_ := p },
        table := tb, freed := fr } = some r)
    (hc : Counted t) (h1 : numOccupied tb t.stats.TableSize_ 0 ≤ cnt)
    (h2 : cnt ≤ t.stats.TableSize_) : Counted r.2 :=
  packLoop_counted alloc hal fuel PIndex SIndex i rem j _ r (hc.update cnt p tb fr h1 h2) h

/-- A call of `remove` made with an allocator that does not fail leaves a
counted table counted, whether it returns or throws. -/
theorem remove_counted (alloc : Allocator T) (hal : Allocates alloc) (fuel : Nat)
    (t : OAHashTable T) (Key : List Nat) (r : Outcome T) (hc : Counted t)
    (h : remove alloc fuel t Key = some r) : Counted r.2 := by
  rcases Nat.eq_zero_or_pos t.stats.TableSize_ with h0 | hpos
  · have key : ∀ n P S, n = 0 → removeLoop alloc fuel Key P S n 0 t
        = some (some .E_ITEM_NOT_FOUND, t) := by
      intro n P S hn; subst hn; rfl
    unfold remove at h
    simp only [] at h
    rw [key _ _ _ h0] at h
    simp only [Option.some.injEq] at h
    rw [← h]; exact hc
  unfold remove at h
  simp only [] at h
  have h1 := hc.occ
  have h2 := hc.cap
  have h3 := hc.size
  rcases removeLoop_cases alloc fuel Key _ _ _ _ t r h with ⟨p, hp⟩ | ⟨j, p, hocc, hm | hk⟩
  · rw [hp]
    exact ⟨hc.occ, hc.cap, hc.size, hc.load, hc.growth⟩
  · have hlt := probe_lt (t.stats.PrimaryHashFunc_ (c_str Key) t.stats.TableSize_) j
      (stepOf t.stats.SecondaryHashFunc_ Key t.stats.TableSize_) t.stats.TableSize_ hpos
    have hp1 := numOccupied_pos t.table t.stats.TableSize_ 0 _ (Nat.zero_le _) (by omega) hocc
    have hcd := u32_pred t.stats.Count_ (by omega) (by omega)
    have hn := numOccupied_vacate t.table _
      { t.table (probe (t.stats.PrimaryHashFunc_ (c_str Key) t.stats.TableSize_) j
        (stepOf t.stats.SecondaryHashFunc_ Key t.stats.TableSize_) t.stats.TableSize_) with
        State := .DELETED } t.stats.TableSize_ hlt hocc (by simp)
    simp only [] at hn
    exact counted_of_eq hm.2 hc (by simp only []; rw [hcd]; omega) (by rw [hcd]; omega)
  · have hlt := probe_lt (t.stats.PrimaryHashFunc_ (c_str Key) t.stats.TableSize_) j
      (stepOf t.stats.SecondaryHashFunc_ Key t.stats.TableSize_) t.stats.TableSize_ hpos
    have hp1 := numOccupied_pos t.table t.stats.TableSize_ 0 _ (Nat.zero_le _) (by omega) hocc
    have hcd := u32_pred t.stats.Count_ (by omega) (by omega)
    have hn := numOccupied_vacate t.table _
      { t.table (probe (t.stats.PrimaryHashFunc_ (c_str Key) t.stats.TableSize_) j
        (stepOf t.stats.SecondaryHashFunc_ Key t.stats.TableSize_) t.stats.TableSize_) with
        State := .UNOCCUPIED } t.stats.TableSize_ hlt hocc (by simp)
    simp only [] at hn
    exact packLoop_counted_update alloc hal hk.2 hc (by simp only []; rw [hcd]; omega)
      (by rw [hcd]; omega)

/-- The method `clear` leaves a counted table counted. -/
theorem clear_counted (t : OAHashTable T) (hc : Counted t) : Counted (clear t) := by
  obtain ⟨h1, h2, h3, -⟩ := clearLoop_spec t.stats.TableSize_ 0 t
  have e1 : (clear t).config = t.config := h1
  have e2 : (clear t).stats.TableSize_ = t.stats.TableSize_ := by
    show (clearLoop t.stats.TableSize_ 0 t).stats.TableSize_ = _
    rw [h2]
  have e5 : (clear t).stats.Count_ = 0 := rfl
  have e6 : ∀ j, (clear t).table j = if 0 ≤ j ∧ j < 0 + t.stats.TableSize_
      then { t.table j with State := .UNOCCUPIED } else t.table j := h3
  refine ⟨?_, by rw [e5]; exact Nat.zero_le _, by rw [e2]; exact hc.size,
    by rw [e1]; exact hc.load, by rw [e1]; exact hc.growth⟩
  rw [e5, e2]
  apply Nat.le_of_eq
  refine numOccupied_eq_zero _ _ _ (fun q _ hq => ?_)
  rw [e6 q, if_pos ⟨Nat.zero_le _, by omega⟩]
  simp

/-- The table built by the constructor under a valid configuration whose fields
hold values of their types is counted. -/
theorem construct_counted (Config : OAHTConfig) (alloc : Allocator T) (t : OAHashTable T)
    (hv : ValidConfig Config) (hrep : Representable Config)
    (h : construct Config alloc = .ok t) : Counted t := by
  unfold construct at h
  split at h
  · cases h
  · next mem _ =>
    simp only [Except.ok.injEq] at h
    subst h
    have hsz : Config.InitialTableSize_ < 4294967295 := by
      rcases Nat.lt_or_ge Config.InitialTableSize_ 4294967295 with h1 | h1
      · exact h1
      · exfalso
        have h2 := hrep.1
        have : Config.InitialTableSize_ = 4294967295 := by omega
        have hp := hv.1
        rw [this] at hp
        exact not_prime_max hp
    have hm1 : 0 < Config.MaxLoadFactor_.num := hv.2.1
    have hm2 : Config.MaxLoadFactor_.num ≤ Config.MaxLoadFactor_.den := hv.2.2.1
    refine ⟨?_, Nat.zero_le _, hsz, ⟨lt_of_lt_of_le hm1 hm2, hm2⟩,
      ⟨hv.2.2.2.1, hv.2.2.2.2, hrep.2.2⟩⟩
    apply Nat.le_of_eq
    refine numOccupied_eq_zero _ _ _ (fun q _ hq => ?_)
    have hq2 : q < Config.InitialTableSize_ := by simpa using hq
    simp only [hq2, if_true]
    decide

/-- Every table reachable without allocation failure under a valid
configuration whose fields hold values of their types is counted. -/
theorem ReachableAlloc.counted {Config : OAHTConfig} {t : OAHashTable T}
    (hv : ValidConfig Config) (hrep : Representable Config) (hr : ReachableAlloc Config t) :
    Counted t := by
  induction hr with
  | construct alloc t _ h => exact construct_counted Config alloc t hv hrep h
  | insert alloc fuel Key Data t r hal _ h ih =>
    exact (insert_counted alloc hal fuel none t Key Data r ih h).1
  | remove alloc fuel Key t r hal _ h ih => exact remove_counted alloc hal fuel t Key r ih h
  | clear t _ ih => exact clear_counted t ih

/-- The configuration `packFreeConfig` is valid. -/
theorem validConfig_packFreeConfig : ValidConfig packFreeConfig :=
  ⟨by norm_num [packFreeConfig, markConfig], by decide, by decide, by decide, by decide⟩

/-- The fields of `packFreeConfig` hold values of their types. -/
theorem representable_packFreeConfig : Representable packFreeConfig :=
  ⟨by decide, by decide, by decide⟩

/-- Claim C11: for every table and key whose `remove` succeeds, under either
deletion policy, some slot held the key and the log of the free procedure has
grown by exactly the data of that slot when a free procedure is configured (so
the data of the entries that PACK relocates is not logged); the count after the
call is the count before, an `unsigned`, decremented in `unsigned` arithmetic;
and when the table is reachable, without allocation failure, under a valid
configuration whose fields hold values of their types, the count after the call
is the count before minus one. -/
theorem remove_count_freed (alloc : Allocator T) (fuel : Nat) (t t1 : OAHashTable T)
    (Key : List Nat) (h : remove alloc fuel t Key = some (none, t1)) :
    (∃ p, holdsAt t Key p
      ∧ t1.freed = if t.config.FreeProc_ then t.freed ++ [(t.table p).Data] else t.freed)
    ∧ (t.stats.Count_ < 4294967296 → t1.stats.Count_ = u32 (t.stats.Count_ + 4294967295))
    ∧ (∀ Config, ValidConfig Config → Representable Config → ReachableAlloc Config t →
        t1.stats.Count_ + 1 = t.stats.Count_) := by
  have hpos : 0 < t.stats.TableSize_ := by
    rcases Nat.eq_zero_or_pos t.stats.TableSize_ with h0 | hpos
    · have key : ∀ n P S, n = 0 → removeLoop alloc fuel Key P S n 0 t
          = some (some .E_ITEM_NOT_FOUND, t) := by
        intro n P S hn; subst hn; rfl
      unfold remove at h
      simp only [] at h
      rw [key _ _ _ h0] at h
      simp at h
    · exact hpos
  have main : (∃ p, holdsAt t Key p
      ∧ t1.freed = if t.config.FreeProc_ then t.freed ++ [(t.table p).Data] else t.freed)
      ∧ (t.stats.Count_ < 4294967296 →
          t1.stats.Count_ = u32 (t.stats.Count_ + 4294967295)) := by
    cases hpol : t.config.DeletionPolicy_ with
    | MARK =>
      obtain ⟨j, h1, h2, -, -, hcount, hsize, -, -, -, hfreed⟩ :=
        removeLoop_mark alloc fuel Key _ _ _ _ t t1 hpol h
      exact ⟨⟨_, ⟨Nat.mod_lt _ hpos, h1, h2⟩, hfreed⟩, fun _ => hcount⟩
    | PACK =>
      obtain ⟨j, p, h1, h2, hp⟩ := removeLoop_pack alloc fuel Key _ _ _ _ t t1 hpol h
      have hlt := probe_lt (t.stats.PrimaryHashFunc_ (c_str Key) t.stats.TableSize_) j
        (stepOf t.stats.SecondaryHashFunc_ Key t.stats.TableSize_) t.stats.TableSize_ hpos
      obtain ⟨f1, f2⟩ := packLoop_count_update alloc hp (u32_lt _)
      exact ⟨⟨_, ⟨hlt, h1, h2⟩, f2⟩, fun _ => f1⟩
  refine ⟨main.1, main.2, fun Config hv hrep hr => ?_⟩
  have hc := hr.counted hv hrep
  obtain ⟨⟨p, hp, -⟩, hcount⟩ := main
  have h1 := hc.occ
  have h2 := hc.cap
  have h3 := hc.size
  have hp1 := numOccupied_pos t.table t.stats.TableSize_ 0 p (Nat.zero_le _)
    (by have := hp.1; omega) hp.2.1
  rw [hcount (by omega), u32_pred t.stats.Count_ (by omega) (by omega)]
  omega

/-- Claim C11 on the table of `packFreeConfig` (capacity 7, every key hashed to
index 0, PACK deletion, a free procedure) after insert("a", 1), insert("b", 2)
and insert("c", 3): remove("a") returns normally, the compaction moves "b" and
"c" to the slots 0 and 1, the count goes from 3 to 2, and the log of the free
procedure holds the value 1 only. -/
theorem remove_count_freed_witness :
    ValidConfig packFreeConfig ∧ Representable packFreeConfig
      ∧ ∃ t t1 : OAHashTable Nat, ReachableAlloc packFreeConfig t
        ∧ remove zeroAlloc 3 t keyA = some (none, t1)
        ∧ t.stats.Count_ = 3 ∧ t1.stats.Count_ = 2 ∧ t.freed = [] ∧ t1.freed = [1]
        ∧ (t1.table 0).State = .OCCUPIED ∧ (t1.table 0).Data = 2
        ∧ (t1.table 1).State = .OCCUPIED ∧ (t1.table 1).Data = 3
        ∧ (t1.table 2).State = .UNOCCUPIED
        ∧ (∃ p, holdsAt t keyA p
          ∧ t1.freed = if t.config.FreeProc_ then t.freed ++ [(t.table p).Data] else t.freed)
        ∧ (t.stats.Count_ < 4294967296 → t1.stats.Count_ = u32 (t.stats.Count_ + 4294967295))
        ∧ (∀ Config, ValidConfig Config → Representable Config → ReachableAlloc Config t →
            t1.stats.Count_ + 1 = t.stats.Count_) := by
  refine ⟨validConfig_packFreeConfig, representable_packFreeConfig, ?_⟩
  obtain ⟨t, ht, hp⟩ := exists_of_map_eq_true
    (o := (fresh packFreeConfig).bind
      (runCalls zeroAlloc 0 [.insert keyA 1, .insert keyB 2, .insert keyC 3]))
    (p := fun t => decide (t.stats.Count_ = 3 ∧ t.freed = [])
      && match remove zeroAlloc 3 t keyA with
        | some (none, t1) => decide (t1.stats.Count_ = 2 ∧ t1.freed = [1]
            ∧ (t1.table 0).State = .OCCUPIED ∧ (t1.table 0).Data = 2
            ∧ (t1.table 1).State = .OCCUPIED ∧ (t1.table 1).Data = 3
            ∧ (t1.table 2).State = .UNOCCUPIED)
        | _ => false) (by decide)
  simp only [Bool.and_eq_true, decide_eq_true_eq] at hp
  obtain ⟨⟨h1, h2⟩, h3⟩ := hp
  split at h3
  · next t1 heq =>
    simp only [decide_eq_true_eq] at h3
    obtain ⟨k1, k2, k3, k4, k5, k6, k7⟩ := h3
    exact ⟨t, t1, ReachableAlloc.after_runCalls 0 _ ht, heq, h1, k1, h2, k2, k3, k4, k5, k6, k7,
      remove_count_freed zeroAlloc 3 t t1 keyA heq⟩
  · simp at h3

/-! ## An occupied slot overwritten by `insert` -/

/-- The function `powMod` computes the power modulo `m`. -/
theorem powMod_eq (b m : Nat) : ∀ (fuel e : Nat), e < 2 ^ fuel → powMod b m fuel e = b ^ e % m := by
  intro fuel
  induction fuel with
  | zero =>
    intro e he
    have : e = 0 := by simpa using he
    subst this
    simp [powMod]
  | succ fuel ih =>
    intro e he
    unfold powMod
    split
    · next h0 => subst h0; simp
    · have hlt : e / 2 < 2 ^ fuel := by
        rw [pow_succ] at he
        omega
      rw [ih _ hlt]
      have hsq : b ^ (e / 2) % m * (b ^ (e / 2) % m) % m = b ^ (2 * (e / 2)) % m := by
        rw [← Nat.mul_mod, ← pow_add]
        congr 2
        omega
      split
      · next hev =>
        rw [hsq]
        congr 2
        omega
      · next hodd =>
        rw [hsq, Nat.mod_mul_mod, ← pow_succ]
        congr 2
        omega

/-- Lucas test with the powers computed by `powMod`. -/
theorem prime_of_powMod (p a fuel : Nat) (hp1 : 1 < p) (hf : p - 1 < 2 ^ fuel)
    (h1 : powMod a p fuel (p - 1) = 1)
    (hd : ∀ q : Nat, q.Prime → q ∣ p - 1 → powMod a p fuel ((p - 1) / q) ≠ 1) : p.Prime := by
  have cast : ∀ e, e < 2 ^ fuel → ((a : ZMod p) ^ e = 1 ↔ powMod a p fuel e = 1) := by
    intro e he
    rw [powMod_eq a p fuel e he]
    have : ((a : ZMod p) ^ e = 1) ↔ (((a ^ e : ℕ) : ZMod p) = ((1 : ℕ) : ZMod p)) := by
      push_cast; rfl
    rw [this, ZMod.natCast_eq_natCast_iff', Nat.mod_eq_of_lt hp1]
  refine lucas_primality p (a : ZMod p) ((cast _ hf).2 h1) (fun q hq hdvd h => ?_)
  exact hd q hq hdvd ((cast _ (lt_of_le_of_lt (Nat.div_le_self _ _) hf)).1 h)

/-- The capacity of `wideConfig` is prime: 5 is a primitive root modulo
`3221225473 = 3 * 2^30 + 1`. -/
theorem prime_wide : Nat.Prime 3221225473 := by
  refine prime_of_powMod 3221225473 5 32 (by norm_num) (by norm_num) (by decide) (fun q hq hdvd => ?_)
  have e : (3221225473 - 1 : ℕ) = 2 ^ 30 * 3 := by norm_num
  have hq2 : q = 2 ∨ q = 3 := by
    rw [e] at hdvd
    rcases (Nat.Prime.dvd_mul hq).1 hdvd with h | h
    · exact Or.inl ((Nat.prime_dvd_prime_iff_eq hq Nat.prime_two).1 (hq.dvd_of_dvd_pow h))
    · exact Or.inr ((Nat.prime_dvd_prime_iff_eq hq Nat.prime_three).1 h)
  rcases hq2 with rfl | rfl <;> decide

/-- The configuration `wideConfig` is valid. -/
theorem validConfig_wideConfig : ValidConfig wideConfig :=
  ⟨prime_wide, by decide, by decide, by decide, by decide⟩

/-- The hashes of `wideConfig` are in range. -/
theorem hashInRange_wideConfig : HashInRange wideConfig := by
  refine ⟨fun k m hm => ?_, fun h hh k m hm => ?_⟩
  · show (if k = [98] then 2147483648 % m else 0) < m
    split
    · exact Nat.mod_lt _ hm
    · exact hm
  · have e : h = fun k m => if k = [99] then 2147483647 % m else 0 :=
      (Option.some.inj hh).symm
    rw [e]
    show (if k = [99] then 2147483647 % m else 0) < m
    split
    · exact Nat.mod_lt _ hm
    · exact hm

/-- When the load does not call for growth and the slot at the primary index is
not occupied, `insert` stores the entry there. -/
theorem insert_at_primary (alloc : Allocator T) (fuel : Nat) (src : Option Nat)
    (t : OAHashTable T) (Key : List Nat) (Data : T) (hl : loadExceeded t = false)
    (hfree : (t.table (t.config.PrimaryHashFunc_ (c_str Key) t.stats.TableSize_)).State
      ≠ .OCCUPIED) :
    insert alloc fuel src t Key Data
      = some (none, store src
          { t with stats := { t.stats with Probes_ := u32 (t.stats.Probes_ + 1) } }
          (t.config.PrimaryHashFunc_ (c_str Key) t.stats.TableSize_) Key Data) := by
  rw [insert_of_not_loadExceeded alloc fuel src t Key Data hl]
  unfold insertBody
  simp only []
  rw [if_neg hfree]

/-- The probe loop of `insert`, when every slot it probes is occupied and holds
another key, ends with the target it was started with. -/
theorem insertLoop_exhaust (t : OAHashTable T) (Key : List Nat) (PIndex SIndex : Nat) :
    ∀ (rem i target : Nat) (fd : Bool) (probes : Nat),
      (∀ m, i ≤ m → m < i + rem →
        (t.table (probe PIndex m SIndex t.stats.TableSize_)).State = .OCCUPIED
        ∧ strncmp Key (t.table (probe PIndex m SIndex t.stats.TableSize_)).Key
            t.config.MAX_KEYLEN = false) →
      ∃ p, insertLoop t Key PIndex SIndex rem i target fd probes = (some target, p) := by
  intro rem
  induction rem with
  | zero => intro i target fd probes _; exact ⟨probes, rfl⟩
  | succ rem ih =>
    intro i target fd probes h
    have h0 := h i (le_refl _) (by omega)
    unfold insertLoop
    simp only []
    rw [if_neg (by rw [h0.2]; simp), if_neg (by rw [h0.1]; simp)]
    have e1 : (decide ((t.table (probe PIndex i SIndex t.stats.TableSize_)).State = .DELETED)
        && !fd) = false := by rw [h0.1]; simp
    rw [e1]
    simp only [Bool.or_false, Bool.false_eq_true, if_false]
    exact ih (i + 1) target fd _ (fun m h1 h2 => h m (by omega) (by omega))

/-- When the load does not call for growth and the slot at the primary index and
every slot of the probe sequence are occupied and hold other keys, `insert`
stores the entry in slot 0. -/
theorem insert_exhaust (alloc : Allocator T) (fuel : Nat) (src : Option Nat)
    (t : OAHashTable T) (Key : List Nat) (Data : T) (hl : loadExceeded t = false)
    (h : ∀ m,
        (t.table (probe (t.config.PrimaryHashFunc_ (c_str Key) t.stats.TableSize_) m
          (stepOf t.config.SecondaryHashFunc_ Key t.stats.TableSize_)
          t.stats.TableSize_)).State = .OCCUPIED
        ∧ strncmp Key (t.table (probe (t.config.PrimaryHashFunc_ (c_str Key) t.stats.TableSize_) m
          (stepOf t.config.SecondaryHashFunc_ Key t.stats.TableSize_)
          t.stats.TableSize_)).Key t.config.MAX_KEYLEN = false)
    (h0 : (t.table (t.config.PrimaryHashFunc_ (c_str Key) t.stats.TableSize_)).State = .OCCUPIED
      ∧ strncmp Key (t.table (t.config.PrimaryHashFunc_ (c_str Key) t.stats.TableSize_)).Key
          t.config.MAX_KEYLEN = false) :
    ∃ p, insert alloc fuel src t Key Data
      = some (none, store src { t with stats := { t.stats with Probes_ := p } } 0 Key Data) := by
  rw [insert_of_not_loadExceeded alloc fuel src t Key Data hl]
  obtain ⟨p, hp⟩ := insertLoop_exhaust
    { t with stats := { t.stats with Probes_ := u32 (t.stats.Probes_ + 1) } } Key
    (t.config.PrimaryHashFunc_ (c_str Key) t.stats.TableSize_)
    (stepOf t.config.SecondaryHashFunc_ Key t.stats.TableSize_)
    (t.stats.TableSize_ - 1) 1 0 false (u32 (t.stats.Probes_ + 1)) (fun m _ _ => h m)
  refine ⟨p, ?_⟩
  unfold insertBody
  simp only []
  rw [if_pos h0.1, h0.2]
  simp only [Bool.false_eq_true, if_false]
  rw [hp]

/-- The constructor builds `wideEmpty`. -/
theorem construct_wideConfig : construct wideConfig zeroAlloc = .ok wideEmpty := rfl

/-- On the empty table of `wideConfig`, insert("a", 1) gives `wideA`. -/
theorem insert_wideEmpty : insert zeroAlloc 0 none wideEmpty keyA 1 = some (none, wideA) :=
  insert_at_primary zeroAlloc 0 none wideEmpty keyA 1 (by decide) (by decide)

/-- On `wideA`, insert("b", 2) gives `wideAB`. -/
theorem insert_wideA : insert zeroAlloc 0 none wideA keyB 2 = some (none, wideAB) :=
  insert_at_primary zeroAlloc 0 none wideA keyB 2 (by decide) (by decide)

/-- With the step `2^31` and the capacity `3221225473` a probe sequence from
index 0 visits the slots 0 and `2^31` only. -/
theorem probe_wide (m : Nat) :
    probe 0 m 2147483648 3221225473 = 0 ∨ probe 0 m 2147483648 3221225473 = 2147483648 := by
  unfold probe u32
  obtain ⟨k, hk | hk⟩ := Nat.even_or_odd' m
  · left
    have e : (0 + m * 2147483648) % 4294967296 = 0 := by omega
    rw [e]
  · right
    have e : (0 + m * 2147483648) % 4294967296 = 2147483648 := by omega
    rw [e]

/-- The number of occupied slots after `store` into a slot that was not occupied. -/
theorem numOccupied_store_free (src : Option Nat) (t : OAHashTable T) (idx : Nat)
    (Key : List Nat) (Data : T) (n k : Nat) (hidx : idx < n)
    (hfree : (t.table idx).State ≠ .OCCUPIED) (hk : numOccupied t.table n 0 = k) :
    numOccupied (store src t idx Key Data).table n 0 = k + 1 := by
  have hn := numOccupied_setSlot t.table idx
    { t.table idx with
      Key := if src = some idx then (t.table idx).Key
        else strncpy (t.table idx).Key Key (t.config.MAX_KEYLEN - 1)
      Data := Data, State := .OCCUPIED } n 0 (Nat.zero_le _) (by omega)
  rw [if_pos rfl, if_neg hfree, hk] at hn
  exact hn

/-- The number of occupied slots after `store` into a slot that was occupied. -/
theorem numOccupied_store_occupied (src : Option Nat) (t : OAHashTable T) (idx : Nat)
    (Key : List Nat) (Data : T) (n k : Nat) (hidx : idx < n)
    (hocc : (t.table idx).State = .OCCUPIED) (hk : numOccupied t.table n 0 = k) :
    numOccupied (store src t idx Key Data).table n 0 = k := by
  have hn := numOccupied_setSlot t.table idx
    { t.table idx with
      Key := if src = some idx then (t.table idx).Key
        else strncpy (t.table idx).Key Key (t.config.MAX_KEYLEN - 1)
      Data := Data, State := .OCCUPIED } n 0 (Nat.zero_le _) (by omega)
  rw [if_pos rfl, if_pos hocc, hk] at hn
  exact Nat.add_right_cancel hn

/-- The table `wideAB` is reachable without allocation failure. -/
theorem reachable_wideAB : ReachableAlloc wideConfig wideAB := by
  have r0 : ReachableAlloc wideConfig wideEmpty :=
    ReachableAlloc.construct zeroAlloc _ allocates_zeroAlloc construct_wideConfig
  have r1 : ReachableAlloc wideConfig wideA :=
    ReachableAlloc.insert zeroAlloc 0 keyA 1 wideEmpty _ allocates_zeroAlloc r0 insert_wideEmpty
  exact ReachableAlloc.insert zeroAlloc 0 keyB 2 wideA _ allocates_zeroAlloc r1 insert_wideA

/-- The table `wideAB` has two occupied slots. -/
theorem numOccupied_wideAB : numOccupied wideAB.table 3221225473 0 = 2 := by
  have n0 : numOccupied wideEmpty.table 3221225473 0 = 0 := by
    refine numOccupied_eq_zero _ _ _ (fun q _ hq => ?_)
    have hq2 : q < 3221225473 := by omega
    show (if q < 3221225473 then _ else _ : OAHTSlot Nat).State ≠ _
    rw [if_pos hq2]
    decide
  have n1 : numOccupied wideA.table 3221225473 0 = 1 :=
    numOccupied_store_free none
      { wideEmpty with stats := { wideEmpty.stats with Probes_ := 1 } } 0 keyA 1 3221225473 0
      (by omega) (by decide) n0
  exact numOccupied_store_free none
    { wideA with stats := { wideA.stats with Probes_ := 2 } } 2147483648 keyB 2 3221225473 1
    (by omega) (by decide) n1

/-- Claim C22, evaluated on the code: under the valid `wideConfig`, whose
hashes are in range, with no allocation failing, insert("a", 1) and
insert("b", 2) give a table of 3221225473 slots with the count 2 and two
occupied slots, and insert("c", 3) on it returns normally, stores the entry in
the occupied slot 0, which held "a", and leaves a reachable table with the
count 3 and two occupied slots. -/
theorem insert_overwrites_occupied_slot :
    ValidConfig wideConfig ∧ HashInRange wideConfig
    ∧ ∃ t t1 : OAHashTable Nat, ReachableAlloc wideConfig t ∧ ReachableAlloc wideConfig t1
      ∧ insert zeroAlloc 0 none t keyC 3 = some (none, t1)
      ∧ t.stats.TableSize_ = 3221225473 ∧ t1.stats.TableSize_ = 3221225473
      ∧ t.stats.Count_ = 2 ∧ numOccupied t.table t.stats.TableSize_ 0 = 2
      ∧ (t.table 0).State = .OCCUPIED ∧ c_str (t.table 0).Key = keyA
      ∧ (t1.table 0).State = .OCCUPIED ∧ c_str (t1.table 0).Key = keyC
      ∧ t1.stats.Count_ = 3 ∧ numOccupied t1.table t1.stats.TableSize_ 0 = 2 := by
  have hP : wideAB.config.PrimaryHashFunc_ (c_str keyC) wideAB.stats.TableSize_ = 0 := by decide
  have hS : stepOf wideAB.config.SecondaryHashFunc_ keyC wideAB.stats.TableSize_ = 2147483648 := by
    decide
  have hC : wideAB.stats.TableSize_ = 3221225473 := rfl
  obtain ⟨p, hp⟩ := insert_exhaust zeroAlloc 0 none wideAB keyC 3 (by decide)
    (fun m => by
      rw [hP, hS, hC]
      rcases probe_wide m with h | h
      · rw [h]; decide
      · rw [h]; decide)
    (by decide)
  have s1 : ((store none wideAB 0 keyC 3).table 0).State = .OCCUPIED := rfl
  have s2 : c_str ((store none wideAB 0 keyC 3).table 0).Key = keyC := by decide
  have s3 : (store none wideAB 0 keyC 3).stats.Count_ = 3 := by decide
  have s4 : (wideAB.table 0).State = .OCCUPIED := by decide
  exact ⟨validConfig_wideConfig, hashInRange_wideConfig, wideAB,
    store none { wideAB with stats := { wideAB.stats with Probes_ := p } } 0 keyC 3,
    reachable_wideAB,
    ReachableAlloc.insert zeroAlloc 0 keyC 3 wideAB _ allocates_zeroAlloc reachable_wideAB hp,
    hp, rfl, rfl, by decide, numOccupied_wideAB, s4, by decide, s1, s2, s3,
    numOccupied_store_occupied none
      { wideAB with stats := { wideAB.stats with Probes_ := p } } 0 keyC 3 3221225473 2
      (by omega) s4 numOccupied_wideAB⟩

/-! ## Compaction under linear probing with a key of `MAX_KEYLEN` characters -/

/-- The configuration `longKeyConfig` is valid. -/
theorem validConfig_longKeyConfig : ValidConfig longKeyConfig :=
  ⟨by norm_num [longKeyConfig], by decide, by decide, by decide, by decide⟩

/-- The hash of `longKeyConfig` is in range. -/
theorem hashInRange_longKeyConfig : HashInRange longKeyConfig := by
  refine ⟨fun k m hm => ?_, fun h hh => by simp [longKeyConfig] at hh⟩
  show (if k = keyNineA ∨ k = keyLongB then 2 % m else 1 % m) < m
  split
  · exact Nat.mod_lt _ hm
  · exact Nat.mod_lt _ hm

/-- Claim C26, evaluated on the code: under the valid `longKeyConfig` (no
secondary hash, PACK, capacity 3), after insert("aaaaaaaaax", 1),
insert("bbbbbbbbbx", 2) and insert("c", 3), with no allocation failing, the key
"aaaaaaaaa" is found with the value 1; remove("c") returns normally, and
afterwards find("aaaaaaaaa") throws `E_ITEM_NOT_FOUND`. -/
theorem pack_remove_loses_truncated_key :
    ValidConfig longKeyConfig ∧ HashInRange longKeyConfig
    ∧ longKeyConfig.SecondaryHashFunc_ = none ∧ longKeyConfig.DeletionPolicy_ = .PACK
    ∧ c_str keyNineA ≠ c_str keyC
    ∧ ∃ t t1 : OAHashTable Nat, ReachableAlloc longKeyConfig t
      ∧ remove zeroAlloc 3 t keyC = some (none, t1)
      ∧ (find t keyNineA).1 = .ok 1
      ∧ (find t1 keyNineA).1 = .error .E_ITEM_NOT_FOUND := by
  obtain ⟨t, ht, hp⟩ := exists_of_map_eq_true
    (o := (fresh longKeyConfig).bind
      (runCalls zeroAlloc 0 [.insert keyLongA 1, .insert keyLongB 2, .insert keyC 3]))
    (p := fun t => decide ((find t keyNineA).1 = .ok 1)
      && match remove zeroAlloc 3 t keyC with
        | some (none, t1) => decide ((find t1 keyNineA).1 = .error .E_ITEM_NOT_FOUND)
        | _ => false) (by decide)
  simp only [Bool.and_eq_true, decide_eq_true_eq] at hp
  obtain ⟨h1, h2⟩ := hp
  split at h2
  · next t1 heq =>
    exact ⟨validConfig_longKeyConfig, hashInRange_longKeyConfig, rfl, rfl, by decide,
      t, t1, ReachableAlloc.after_runCalls 0 _ ht, heq, h1, by simpa using h2⟩
  · simp at h2

end OAHashTable
